import Mathlib

/-!
# Verification of the Kanban Routine Manager block tree engine and services

This file gives a shallow embedding of the block tree engine (Schema
Registry + Block Store) of the Kanban Routine Manager, together with
models of the webhook trigger service and the schema-version startup
migration, and proves the behavioural properties claimed in the
specification.

The repository ships the engine only as documentation
(`docs/BLOCK_CRUD_OPERATIONS.md`, `docs/BLOCK_IMPLEMENTATION_SUMMARY.md`)
and callers; the implementation files `backend/src/services/blockCRUD.ts`,
`blockRegistry.ts` and `blockSchemas.ts` are not part of the source tree
under verification. Definitions for the engine are therefore modelled
from the specification (each such definition carries a doc comment
starting with `Modelled from the spec:`). The webhook service and the
version service are translated directly from their sources.

Modelling conventions:
* Block ids are natural numbers; the engine's UUID generator is modelled
  by a `nextId` counter in the store, so freshness is by construction.
* Timestamps are natural numbers passed explicitly (`now`).
* `data` and `metadata` payloads are association lists of string fields.
* Fallible operations return `Except BlockError`.
-/

namespace KanbanSpec

/-! ## Data model (§3 of the spec) -/

/-- Structured validation error carried by `ValidationError`
(spec §4.1: `{field, message, code}`). -/
structure BlockValidationError where
  field : String
  message : String
  code : String
deriving DecidableEq, Repr

/-- Type-specific payload of a block, modelled as an association list of
string-valued fields (spec §3: shape is opaque to the engine and only
inspected by the registered validator). -/
abbrev BlockData := List (String × String)

/-- Open-ended metadata record, modelled as an association list
(spec §3: opaque to the engine except that Update merges into it). -/
abbrev Metadata := List (String × String)

/-- Modelled from the spec: the `BaseBlock` record of
`backend/src/types/blocks.ts` (missing from the source tree), spec §3:
id, type, data, ordered children ids, nullable parent id, timestamps,
version, metadata. -/
structure Block where
  id : Nat
  btype : String
  data : BlockData
  children : List Nat
  parentId : Option Nat
  createdAt : Nat
  updatedAt : Nat
  version : Nat
  metadata : Metadata
deriving DecidableEq, Repr

/-- Modelled from the spec: a Schema Registry entry (spec §3
`BlockSchema`): name, category, `canHaveChildren` flag, optional
allow-lists for parents and children, default data and a validator
returning a structured error list (empty list = valid). -/
structure BlockSchema where
  btype : String
  name : String
  category : String
  canHaveChildren : Bool
  allowedParents : Option (List String)
  allowedChildren : Option (List String)
  defaultData : BlockData
  validate : BlockData → List BlockValidationError

/-- Modelled from the spec: the Schema Registry is a pure lookup table of
schemas keyed by block type (spec §2, §4.1). -/
abbrev Registry := List BlockSchema

/-- Modelled from the spec: `getSchema(type)` (spec §4.1). -/
def getSchema (reg : Registry) (t : String) : Option BlockSchema :=
  reg.find? (fun sch => sch.btype == t)

/-- Modelled from the spec: `isRegistered(type)` (spec §4.1). -/
def isRegistered (reg : Registry) (t : String) : Bool :=
  (getSchema reg t).isSome

/-- Modelled from the spec: `register(schema)` adds or replaces the schema
for `schema.type` (spec §4.1). -/
def register (reg : Registry) (sch : BlockSchema) : Registry :=
  sch :: reg.filter (fun s => s.btype != sch.btype)

/-- Structured error reported when a validated field is missing. -/
def requiredError (f : String) : BlockValidationError :=
  { field := f, message := f ++ " is required", code := "REQUIRED" }

/-- Modelled from the spec: the `validateRequired` helper of
`blockRegistry.ts` (spec §4.1): a required field must be present and
non-empty; returns either no error or a single structured error. -/
def validateRequired (d : BlockData) (f : String) : List BlockValidationError :=
  match d.find? (fun kv => kv.1 == f) with
  | some kv => if kv.2 = "" then [requiredError f] else []
  | none => [requiredError f]

/-- Error returned by `validate` for an unregistered type (spec §4.1). -/
def unknownTypeError (t : String) : BlockValidationError :=
  { field := "type", message := "Unknown block type " ++ t, code := "UNKNOWN_TYPE" }

/-- Modelled from the spec: `validate(type, data)` delegates to the
schema's validator; for an unregistered type it returns a single error
indicating an unknown type (spec §4.1). The returned list is empty
exactly when the data is valid. -/
def validateData (reg : Registry) (t : String) (d : BlockData) :
    List BlockValidationError :=
  match getSchema reg t with
  | none => [unknownTypeError t]
  | some sch => sch.validate d

/-- Modelled from the spec: `canHaveChild(parentType, childType)`
(spec §4.1): true iff the parent schema's `canHaveChildren` is true AND
(parent's allowed-children list is absent OR contains the child type) AND
(child's allowed-parents list is absent OR contains the parent type).
Unregistered types have no schema and yield `false`. -/
def canHaveChild (reg : Registry) (pt ct : String) : Bool :=
  match getSchema reg pt, getSchema reg ct with
  | some ps, some cs =>
      ps.canHaveChildren &&
      (match ps.allowedChildren with
       | none => true
       | some l => l.contains ct) &&
      (match cs.allowedParents with
       | none => true
       | some l => l.contains pt)
  | _, _ => false

/-- Modelled from the spec: `createDefaultData(type)` (spec §4.1); in the
pure model a fresh copy is the value itself. -/
def createDefaultData (reg : Registry) (t : String) : Option BlockData :=
  (getSchema reg t).map (fun sch => sch.defaultData)

/-! ## The Block Store state -/

/-- Modelled from the spec: the Block Store owns all block records, the
parent/child adjacency and the root set (spec §2, §4.2); storage is an
in-memory map, modelled by a list of blocks with distinct ids, plus the
root-order list and the fresh-id counter standing for the UUID
generator. -/
structure BlockStore where
  blocks : List Block
  roots : List Nat
  nextId : Nat
deriving Repr

/-- The empty store. -/
def emptyStore : BlockStore := { blocks := [], roots := [], nextId := 0 }

/-- Map lookup by id (first block whose `id` matches). -/
def findBlock : List Block → Nat → Option Block
  | [], _ => none
  | b :: bs, i => if b.id = i then some b else findBlock bs i

/-- Remove every occurrence of an id from an id list, preserving the
relative order of the remaining elements. -/
def removeNat (x : Nat) : List Nat → List Nat
  | [] => []
  | y :: ys => if y = x then removeNat x ys else y :: removeNat x ys

/-- Insert an id into an id list at an optional position: at index `k`
for `position = some k` (out-of-range values clamp to append), at the
end when the position is absent (spec §4.2 Create). -/
def insertPos (pos : Option Nat) (x : Nat) (l : List Nat) : List Nat :=
  match pos with
  | none => l ++ [x]
  | some k => l.take k ++ x :: l.drop k

/-- Error taxonomy of the engine (spec §7). `importInvalid` is the
rejection of `ImportTree` on a structurally invalid tree (spec §4.2 does
not name its kind). -/
inductive BlockError where
  | notFound (id : Nat)
  | validation (errors : List BlockValidationError)
  | invalidRelationship
  | cycle
  | hasChildren (id : Nat)
  | unknownType (t : String)
  | importInvalid
deriving DecidableEq, Repr

/-! ## Hierarchical navigation helpers -/

/-- The parent id of a block, if the block exists and has a parent. -/
def parentStep (bs : List Block) (i : Nat) : Option Nat :=
  match findBlock bs i with
  | some b => b.parentId
  | none => none

/-- Iterate `parentStep` through the `Option` monad (`none` is
absorbing). -/
def iterParent (bs : List Block) : Nat → Option Nat → Option Nat
  | 0, o => o
  | k + 1, o => (iterParent bs k o).bind (parentStep bs)

/-- Collect the chain of ids reached by walking `parentStep` from an
optional starting id, with explicit fuel. -/
def ancestorsFrom (bs : List Block) : Nat → Option Nat → List Nat
  | _, none => []
  | 0, some _ => []
  | f + 1, some i => i :: ancestorsFrom bs f (parentStep bs i)

/-- Modelled from the spec: `GetAncestors(id)` (spec §4.2), the chain
from the immediate parent up to the root.  On a store satisfying the
tree invariants the fuel `bs.length` covers every chain. -/
def getAncestors (bs : List Block) (i : Nat) : List Nat :=
  ancestorsFrom bs bs.length (parentStep bs i)

/-! ## Block Store operations (§4.2 of the spec) -/

/-- Modelled from the spec: `Create(type, data, parentId?, position?,
metadata?)` (spec §4.2).  The type must be registered (else
`UnknownTypeError`); the data is validated before the block is
constructed (else `ValidationError` and nothing is created); a given
parent must exist (else `NotFoundError`) and the type pairing must be
permitted (else `InvalidRelationshipError`).  The new block gets a fresh
id, fresh timestamps and version 1; it is inserted at `position` into
the parent's children (refreshing the parent's `updatedAt`) or into the
root order. Returns the new store and the created block.
The helper `newBlock` below builds the created record. -/
def newBlock (t : String) (d : BlockData) (parentId : Option Nat)
    (md : Metadata) (now : Nat) (nid : Nat) : Block :=
  { id := nid, btype := t, data := d, children := [], parentId := parentId,
    createdAt := now, updatedAt := now, version := 1, metadata := md }

/-- Insert a fresh child id into a parent block's children at the given
position and refresh the parent's `updatedAt`. -/
def withChildInserted (position : Option Nat) (cid : Nat) (now : Nat)
    (b : Block) : Block :=
  { b with children := insertPos position cid b.children, updatedAt := now }

def create (reg : Registry) (s : BlockStore) (t : String) (d : BlockData)
    (parentId : Option Nat) (position : Option Nat) (md : Metadata)
    (now : Nat) : Except BlockError (BlockStore × Block) :=
  match getSchema reg t with
  | none => .error (.unknownType t)
  | some _ =>
    match validateData reg t d with
    | e :: es => .error (.validation (e :: es))
    | [] =>
      match parentId with
      | none =>
          .ok ({ blocks := s.blocks ++ [newBlock t d none md now s.nextId],
                 roots := insertPos position s.nextId s.roots,
                 nextId := s.nextId + 1 }, newBlock t d none md now s.nextId)
      | some p =>
        match findBlock s.blocks p with
        | none => .error (.notFound p)
        | some pb =>
          if canHaveChild reg pb.btype t then
            .ok ({ blocks :=
                     (s.blocks.map (fun b =>
                       if b.id = p then withChildInserted position s.nextId now b
                       else b)) ++ [newBlock t d (some p) md now s.nextId],
                   roots := s.roots, nextId := s.nextId + 1 },
                 newBlock t d (some p) md now s.nextId)
          else .error .invalidRelationship

/-- Merge of provided fields into an existing record, with the JS object
spread semantics `\x7b...base, ...upd\x7d`: existing keys keep their
place and take the new value, new keys are appended in order. -/
def mergeFields (base upd : List (String × String)) : List (String × String) :=
  (base.map (fun kv =>
    match upd.find? (fun uv => uv.1 == kv.1) with
    | some uv => uv
    | none => kv)) ++
  upd.filter (fun uv => !(base.any (fun kv => kv.1 == uv.1)))

/-- Modelled from the spec: `Update(\x7bid, data?, metadata?\x7d)`
(spec §4.2).  The block must exist (else `NotFoundError`); if `data` is
provided, the merge of the provided fields into the existing data must
validate (else `ValidationError` with no mutation); provided metadata is
shallow-merged; `updatedAt` is refreshed.  Returns the store and the
updated block.  The helper `updatedBlock` below is the merged record:
the provided data fields merged into `data` (when present), the provided
metadata shallow-merged, and `updatedAt` refreshed. -/
def updatedBlock (b : Block) (d : Option BlockData) (md : Option Metadata)
    (now : Nat) : Block :=
  { b with
    data := (match d with | none => b.data | some dd => mergeFields b.data dd),
    metadata := (match md with
      | none => b.metadata
      | some m => mergeFields b.metadata m),
    updatedAt := now }

/-- The validation errors of an update: the merged data must validate
when a data payload is provided (spec §4.2 Update). -/
def updateErrs (reg : Registry) (b : Block) (d : Option BlockData) :
    List BlockValidationError :=
  match d with
  | none => []
  | some dd => validateData reg b.btype (mergeFields b.data dd)

def update (reg : Registry) (s : BlockStore) (i : Nat)
    (d : Option BlockData) (md : Option Metadata) (now : Nat) :
    Except BlockError (BlockStore × Block) :=
  match findBlock s.blocks i with
  | none => .error (.notFound i)
  | some b =>
    match updateErrs reg b d with
    | e :: es => .error (.validation (e :: es))
    | [] =>
      .ok ({ s with
             blocks := s.blocks.map (fun x =>
               if x.id = i then updatedBlock b d md now else x) },
           updatedBlock b d md now)

/-- Remove a child id from the identified parent's children array and
refresh that parent's `updatedAt`. -/
def removeChild (p : Nat) (i : Nat) (now : Nat) (bs : List Block) :
    List Block :=
  bs.map (fun x =>
    if x.id = p then
      { x with children := removeNat i x.children, updatedAt := now }
    else x)

/-- Detach a block from its old parent's children (no-op on a root). -/
def detachBlocks (bs : List Block) (b : Block) (now : Nat) : List Block :=
  match b.parentId with
  | some p => removeChild p b.id now bs
  | none => bs

/-- Detach a block from the root order (no-op on a parented block). -/
def detachRoots (roots : List Nat) (b : Block) : List Nat :=
  match b.parentId with
  | none => removeNat b.id roots
  | some _ => roots

/-- Attach an id into the new parent's children at the given position
(no-op when moving to root level). -/
def attachBlocks (bs : List Block) (i : Nat) (newParentId : Option Nat)
    (position : Option Nat) (now : Nat) : List Block :=
  match newParentId with
  | some q => bs.map (fun x =>
      if x.id = q then withChildInserted position i now x else x)
  | none => bs

/-- Attach an id into the root order at the given position (no-op when
moving under a parent). -/
def attachRoots (roots : List Nat) (i : Nat) (newParentId : Option Nat)
    (position : Option Nat) : List Nat :=
  match newParentId with
  | none => insertPos position i roots
  | some _ => roots

/-- Re-point a block's `parentId` and refresh its `updatedAt`. -/
def setParent (bs : List Block) (i : Nat) (newParentId : Option Nat)
    (now : Nat) : List Block :=
  bs.map (fun x =>
    if x.id = i then { x with parentId := newParentId, updatedAt := now }
    else x)

/-- The state change common to Move: detach the block from its old
parent's children (or from the root order), attach it to the new parent's
children (or the root order) at `position`, update its `parentId` and
refresh `updatedAt` on the block and both parents. -/
def moveApply (s : BlockStore) (b : Block) (newParentId : Option Nat)
    (position : Option Nat) (now : Nat) : BlockStore :=
  { blocks := setParent
      (attachBlocks (detachBlocks s.blocks b now) b.id newParentId position now)
      b.id newParentId now,
    roots := attachRoots (detachRoots s.roots b) b.id newParentId position,
    nextId := s.nextId }

/-- Modelled from the spec: `Move(\x7bid, newParentId, position?\x7d)`
(spec §4.2).  The block must exist; a non-null target parent must exist;
the move is rejected with `CycleError` if the target equals the block or
is one of its descendants (equivalently, the block lies on the target's
ancestor chain); the type pairing must be permitted (else
`InvalidRelationshipError`). -/
def move (reg : Registry) (s : BlockStore) (i : Nat)
    (newParentId : Option Nat) (position : Option Nat) (now : Nat) :
    Except BlockError BlockStore :=
  match findBlock s.blocks i with
  | none => .error (.notFound i)
  | some b =>
    match newParentId with
    | none => .ok (moveApply s b none position now)
    | some q =>
      match findBlock s.blocks q with
      | none => .error (.notFound q)
      | some qb =>
        if q = i ∨ i ∈ getAncestors s.blocks q then .error .cycle
        else if canHaveChild reg qb.btype b.btype then
          .ok (moveApply s b (some q) position now)
        else .error .invalidRelationship

/-- Modelled from the spec: `Delete(\x7bid, deleteChildren?\x7d)`
(spec §4.2).  The block must exist; with children and `deleteChildren`
false or absent it fails with `HasChildrenError` and deletes nothing;
otherwise the block and all its descendants are removed from the store,
from the former parent's children (refreshing its `updatedAt`) and from
the root set.  The removed set is computed as all blocks whose ancestor
chain passes through the deleted id (on a store satisfying the tree
invariants this is exactly the descendant subtree removed depth-first by
the engine).  The helper `deleteSurvivors` below computes the blocks
surviving the cascade: everything except the deleted id and the blocks
whose ancestor chain passes through it. -/
def deleteSurvivors (s : BlockStore) (i : Nat) : List Block :=
  s.blocks.filter
    (fun x => !(x.id = i ∨ i ∈ getAncestors s.blocks x.id : Bool))

/-- The state change of a permitted delete: remove the doomed subtree,
remove the deleted id from its former parent's children (refreshing that
parent's `updatedAt`) or from the root order. -/
def deleteApply (s : BlockStore) (b : Block) (now : Nat) : BlockStore :=
  match b.parentId with
  | some p =>
      { blocks := removeChild p b.id now (deleteSurvivors s b.id),
        roots := s.roots, nextId := s.nextId }
  | none =>
      { blocks := deleteSurvivors s b.id,
        roots := removeNat b.id s.roots, nextId := s.nextId }

def delete (s : BlockStore) (i : Nat) (deleteChildren : Bool) (now : Nat) :
    Except BlockError BlockStore :=
  match findBlock s.blocks i with
  | none => .error (.notFound i)
  | some b =>
    if !deleteChildren && !b.children.isEmpty then .error (.hasChildren i)
    else .ok (deleteApply s b now)

/-- Clone the subtrees rooted at the given source ids, assigning fresh
ids from the counter `ctr`, pointing the clones of the listed roots at
`pid` and re-pointing all cloned parent/child links to the new ids
(spec §4.2 Duplicate).  Clones carry the source's type, deep-copied data
and metadata, fresh timestamps and version 1.  Returns the cloned
blocks, the fresh ids of the clones of the listed roots (in order) and
the next counter value.  Recursion is fuelled; on a store satisfying the
tree invariants, fuel `bs.length + 1` covers the whole subtree. -/
def cloneMany (bs : List Block) (now : Nat) :
    Nat → Option Nat → Nat → List Nat → (List Block × List Nat × Nat)
  | _, _, ctr, [] => ([], [], ctr)
  | 0, _, ctr, _ => ([], [], ctr)
  | f + 1, pid, ctr, src :: rest =>
    match findBlock bs src with
    | none => cloneMany bs now f pid ctr rest
    | some sb =>
      let myId := ctr
      let res1 := cloneMany bs now f (some myId) (ctr + 1) sb.children
      let me : Block :=
        { id := myId, btype := sb.btype, data := sb.data,
          children := res1.2.1, parentId := pid, createdAt := now,
          updatedAt := now, version := 1, metadata := sb.metadata }
      let res2 := cloneMany bs now f pid res1.2.2 rest
      (me :: res1.1 ++ res2.1, myId :: res2.2.1, res2.2.2)

/-- Modelled from the spec: `Duplicate(\x7bid, duplicateChildren?\x7d)`
(spec §4.2).  The block must exist.  The duplicate gets a fresh id,
deep-copied data, fresh timestamps, version 1 and the same `parentId` as
the original; it is appended to the same parent's children (or to the
root order).  With `duplicateChildren` the whole descendant subtree is
cloned recursively with fresh ids, preserving structure and relative
order; without it the duplicate has no children.  Returns the new store
and the duplicate.  The helper `shallowClone` below is the duplicate
record itself: fresh id, no children, deep-copied data and metadata,
fresh timestamps, version 1, same `parentId`. -/
def shallowClone (b : Block) (nid : Nat) (now : Nat) : Block :=
  { b with id := nid, children := [], createdAt := now, updatedAt := now,
           version := 1 }

/-- The cloned blocks and the next fresh-id counter for a duplicate
call: the whole subtree when `duplicateChildren` is set, the shallow
clone otherwise. -/
def dupClones (s : BlockStore) (b : Block) (dupChildren : Bool)
    (now : Nat) : List Block × Nat :=
  if dupChildren then
    ((cloneMany s.blocks now (s.blocks.length + 1) b.parentId s.nextId [b.id]).1,
     (cloneMany s.blocks now (s.blocks.length + 1) b.parentId s.nextId [b.id]).2.2)
  else ([shallowClone b s.nextId now], s.nextId + 1)

/-- Attach the duplicate (id `s.nextId`) by appending it to the original
parent's children (refreshing the parent's `updatedAt`) or to the root
order, and add the cloned blocks to the store. -/
def attachClones (s : BlockStore) (b : Block) (clones : List Block)
    (ctr : Nat) (now : Nat) : BlockStore :=
  match b.parentId with
  | none =>
      { blocks := s.blocks ++ clones, roots := s.roots ++ [s.nextId],
        nextId := ctr }
  | some p =>
      { blocks :=
          (s.blocks.map (fun x =>
            if x.id = p then
              { x with children := x.children ++ [s.nextId], updatedAt := now }
            else x)) ++ clones,
        roots := s.roots, nextId := ctr }

def duplicate (s : BlockStore) (i : Nat) (dupChildren : Bool) (now : Nat) :
    Except BlockError (BlockStore × Block) :=
  match findBlock s.blocks i with
  | none => .error (.notFound i)
  | some b =>
    match (dupClones s b dupChildren now).1 with
    | [] => .error (.notFound i)
    | nb :: rest =>
        .ok (attachClones s b (nb :: rest) (dupClones s b dupChildren now).2 now,
             nb)

/-- The engine's sole wire format (spec §6): a root-id list, the block
map and export metadata. -/
structure BlockTree where
  roots : List Nat
  blocks : List Block
  formatVersion : String
  createdAt : Nat
  updatedAt : Nat
deriving Repr

/-- Modelled from the spec: `ExportTree()` (spec §4.2, §6). -/
def exportTree (s : BlockStore) (now : Nat) : BlockTree :=
  { roots := s.roots, blocks := s.blocks, formatVersion := "1.0.0",
    createdAt := now, updatedAt := now }

/-- Largest id occurring in a block list (0 when empty). -/
def maxId (bs : List Block) : Nat :=
  bs.foldr (fun b m => max b.id m) 0

/-- Executable check that an id list has no duplicates. -/
def allDistinct : List Nat → Bool
  | [] => true
  | x :: xs => !(xs.contains x) && allDistinct xs

/-- Executable check of the structural invariants of spec §3 on a store:
distinct ids; bidirectional parent/child consistency with duplicate-free
children arrays; root-set exclusivity; type-relationship legality; and
acyclicity (every parent chain reaches a root within `blocks.length`
steps).  Used by `importTree` to validate a tree on load. -/
def validStoreB (reg : Registry) (s : BlockStore) : Bool :=
  allDistinct (s.blocks.map Block.id) &&
  s.blocks.all (fun b =>
    allDistinct b.children &&
    b.children.all (fun c =>
      match findBlock s.blocks c with
      | some cb => cb.parentId == some b.id && canHaveChild reg b.btype cb.btype
      | none => false)) &&
  s.blocks.all (fun b =>
    match b.parentId with
    | none => s.roots.contains b.id
    | some p =>
      (match findBlock s.blocks p with
       | some pb => pb.children.contains b.id
       | none => false) &&
      !(s.roots.contains b.id)) &&
  allDistinct s.roots &&
  s.roots.all (fun r =>
    match findBlock s.blocks r with
    | some b => b.parentId == none
    | none => false) &&
  s.blocks.all (fun b =>
    (iterParent s.blocks s.blocks.length (some b.id)).isNone)

/-- Modelled from the spec: `ImportTree(tree)` (spec §4.2) replaces the
store's contents from an exported structure, validating the structural
invariants on load and rejecting invalid trees; ids are taken over
exactly, not regenerated, and the fresh-id counter is reset past the
largest imported id. -/
def importTree (reg : Registry) (t : BlockTree) : Except BlockError BlockStore :=
  let s : BlockStore :=
    { blocks := t.blocks, roots := t.roots, nextId := maxId t.blocks + 1 }
  if validStoreB reg s then .ok s else .error .importInvalid

/-- Modelled from the spec: `Clear()` empties the store (spec §4.2). -/
def clear (s : BlockStore) : BlockStore :=
  { blocks := [], roots := [], nextId := s.nextId }

/-- Modelled from the spec: `Count()` (spec §4.2). -/
def count (s : BlockStore) : Nat := s.blocks.length

/-! ## Operation sequences -/

/-- A mutating Block Store call (spec §4.2): the operations of the
tree-validity property of spec §8. -/
inductive BlockOp where
  | create (t : String) (d : BlockData) (parentId : Option Nat)
      (position : Option Nat) (md : Metadata) (now : Nat)
  | update (i : Nat) (d : Option BlockData) (md : Option Metadata) (now : Nat)
  | move (i : Nat) (newParentId : Option Nat) (position : Option Nat) (now : Nat)
  | delete (i : Nat) (deleteChildren : Bool) (now : Nat)
  | duplicate (i : Nat) (dupChildren : Bool) (now : Nat)
  | importTree (t : BlockTree)
  | clear

/-- Run one operation; when the operation raises an error the store is
unchanged (all-or-nothing per call, spec §4.2 preamble). -/
def applyOp (reg : Registry) (s : BlockStore) : BlockOp → BlockStore
  | .create t d p pos md now =>
    match create reg s t d p pos md now with
    | .ok r => r.1
    | .error _ => s
  | .update i d md now =>
    match update reg s i d md now with
    | .ok r => r.1
    | .error _ => s
  | .move i np pos now =>
    match move reg s i np pos now with
    | .ok s2 => s2
    | .error _ => s
  | .delete i dc now =>
    match delete s i dc now with
    | .ok s2 => s2
    | .error _ => s
  | .duplicate i dc now =>
    match duplicate s i dc now with
    | .ok r => r.1
    | .error _ => s
  | .importTree t =>
    match importTree reg t with
    | .ok s2 => s2
    | .error _ => s
  | .clear => clear s

/-- Run a sequence of operations from the empty store. -/
def applyOps (reg : Registry) (ops : List BlockOp) : BlockStore :=
  ops.foldl (applyOp reg) emptyStore

/-! ## Webhook service (`services/webhook.js`, `triggerWebhook`) -/

/-- A row of the `integrations` table as returned by the query
`SELECT * FROM integrations WHERE id = ? AND type = ? AND enabled = 1`;
only the `config` JSON string is used by `triggerWebhook`. -/
structure IntegrationRow where
  config : String
deriving DecidableEq, Repr

/-- The fields destructured from the parsed webhook configuration:
`webhookUrl` and the optional `apiKey`.  `webhookUrl = none` stands for
a missing/null field (falsy in JS, like the empty string). -/
structure WebhookConfig where
  webhookUrl : Option String
  apiKey : Option String
deriving DecidableEq, Repr

/-- An HTTP response as resolved by `axios.post` (status and data). -/
structure HttpResponse where
  status : Nat
  data : String
deriving DecidableEq, Repr

/-- The result object of `triggerWebhook`: `success`, and the optional
`status`/`response` (success case) or `error` (failure case) fields. -/
structure WebhookResult where
  success : Bool
  status : Option Nat
  response : Option String
  error : Option String
deriving DecidableEq, Repr

/-- The environment a `triggerWebhook` call runs against: the outcome of
the database lookup (`.error` = the query itself rejected), the JSON
parser applied to the stored config string (`none` = `JSON.parse`
throws), and the outcome of the HTTP POST for a given url and api key
(`.error msg` = network or HTTP error with message `msg`). -/
structure WebhookEnv where
  dbResult : Except String (Option IntegrationRow)
  parseJson : String → Option WebhookConfig
  post : String → Option String → Except String HttpResponse

/-- `triggerWebhook` from `services/webhook.js` (src/unnamed/part_002
lines 32-86): looks up the enabled integration, parses its config,
requires a webhook url, performs the POST, and catches every thrown
error, always returning a result object. -/
def triggerWebhook (env : WebhookEnv) : WebhookResult :=
  match env.dbResult with
  | .error msg =>
      { success := false, status := none, response := none, error := some msg }
  | .ok none =>
      { success := false, status := none, response := none,
        error := some "Webhook integration not found or disabled" }
  | .ok (some row) =>
    match env.parseJson row.config with
    | none =>
        { success := false, status := none, response := none,
          error := some "Invalid webhook configuration" }
    | some cfg =>
      match cfg.webhookUrl with
      | none =>
          { success := false, status := none, response := none,
            error := some "Webhook URL not configured" }
      | some url =>
        if url = "" then
          { success := false, status := none, response := none,
            error := some "Webhook URL not configured" }
        else
          match env.post url cfg.apiKey with
          | .error msg =>
              { success := false, status := none, response := none,
                error := some msg }
          | .ok resp =>
              { success := true, status := some resp.status,
                response := some resp.data, error := none }

/-! ## Schema version recording (`versionService`, `recordSchemaVersion`) -/

/-- A row of the `schema_versions` table (`version INTEGER PRIMARY KEY,
app_version TEXT`); `applied_at` is not read back by the code under
verification and is omitted. -/
structure SchemaVersionRow where
  version : Nat
  appVersion : String
deriving DecidableEq, Repr

/-- `SELECT * FROM schema_versions ORDER BY version DESC LIMIT 1`: the
row with the largest version, if any. -/
def latestRow : List SchemaVersionRow → Option SchemaVersionRow
  | [] => none
  | r :: rs =>
    match latestRow rs with
    | none => some r
    | some m => if r.version ≥ m.version then some r else some m

/-- `INSERT OR REPLACE INTO schema_versions (version, app_version, ...)`:
replaces the row with the same primary-key version, if any, and inserts
the new row. -/
def insertOrReplace (v : Nat) (app : String) (t : List SchemaVersionRow) :
    List SchemaVersionRow :=
  ⟨v, app⟩ :: t.filter (fun r => r.version ≠ v)

/-- `recordSchemaVersion` from the version service (src/unnamed/part_009
lines 37-60), acting on the `schema_versions` table: if the latest
recorded version is newer than the configured `SCHEMA_VERSION` the table
is left unchanged (only a warning is logged); a row is written when no
version is recorded yet or the recorded version is strictly lower. -/
def recordSchemaVersion (schemaVersion : Nat) (appVersion : String)
    (t : List SchemaVersionRow) : List SchemaVersionRow :=
  match latestRow t with
  | some latest =>
    if latest.version > schemaVersion then t
    else if latest.version < schemaVersion then
      insertOrReplace schemaVersion appVersion t
    else t
  | none => insertOrReplace schemaVersion appVersion t

/-- The version recorded in a table: the version of the latest row. -/
def recordedVersion (t : List SchemaVersionRow) : Option Nat :=
  (latestRow t).map (fun r => r.version)

/-! ## Relational view of the tree structure -/

/-- The edge relation of the stored forest, read off the `parentId`
fields: `ParentEdge bs c p` holds when block `c` exists and its parent
is `p`. -/
def ParentEdge (bs : List Block) (c p : Nat) : Prop :=
  ∃ b, findBlock bs c = some b ∧ b.parentId = some p

/-- Invariant 1 of spec §3 for the whole parent relation: no id lies on
a parent-chain cycle. -/
def Acyclic (bs : List Block) : Prop :=
  ∀ x, ¬ Relation.TransGen (ParentEdge bs) x x

/-- Well-formedness of a store: the inductive invariant maintained by
every operation.  It comprises invariants 1-4 of spec §3 together with
the bookkeeping facts that make them preservable: distinct ids, ids
below the fresh-id counter, duplicate-free children arrays and root
order, and both directions of parent/child edge consistency. -/
structure Wf (reg : Registry) (s : BlockStore) : Prop where
  nodupIds : (s.blocks.map Block.id).Nodup
  idsBound : ∀ b ∈ s.blocks, b.id < s.nextId
  childNodup : ∀ b ∈ s.blocks, b.children.Nodup
  childBack : ∀ b ∈ s.blocks, ∀ c ∈ b.children,
    ∃ cb, findBlock s.blocks c = some cb ∧ cb.parentId = some b.id
  typesLegal : ∀ b ∈ s.blocks, ∀ c ∈ b.children, ∀ cb,
    findBlock s.blocks c = some cb → canHaveChild reg b.btype cb.btype = true
  parentFwd : ∀ b ∈ s.blocks, ∀ p, b.parentId = some p →
    ∃ pb, findBlock s.blocks p = some pb ∧ b.id ∈ pb.children
  rootsNodup : s.roots.Nodup
  rootsValid : ∀ r ∈ s.roots,
    ∃ b, findBlock s.blocks r = some b ∧ b.parentId = none
  rootsComplete : ∀ b ∈ s.blocks, b.parentId = none → b.id ∈ s.roots
  acyclic : Acyclic s.blocks

/-- Invariant 1 of spec §3: the parent/child relation is a forest — no
block is an ancestor of itself, directly or transitively. -/
def Inv1 (s : BlockStore) : Prop :=
  ∀ b ∈ s.blocks, ¬ Relation.TransGen (ParentEdge s.blocks) b.id b.id

/-- Invariant 2 of spec §3: every id in any block's children array
exists, and the referenced block's `parentId` equals the referencing
block's id. -/
def Inv2 (s : BlockStore) : Prop :=
  ∀ b ∈ s.blocks, ∀ c ∈ b.children,
    ∃ cb, findBlock s.blocks c = some cb ∧ cb.parentId = some b.id

/-- Invariant 3 of spec §3: a block with null `parentId` appears in
exactly one root-set membership; a block with a parent never appears in
the root set. -/
def Inv3 (s : BlockStore) : Prop :=
  ∀ b ∈ s.blocks,
    (b.parentId = none → s.roots.count b.id = 1) ∧
    (b.parentId ≠ none → b.id ∉ s.roots)

/-- Invariant 4 of spec §3: every stored parent/child pairing is
permitted by the Schema Registry's rules. -/
def Inv4 (reg : Registry) (s : BlockStore) : Prop :=
  ∀ b ∈ s.blocks, ∀ c ∈ b.children, ∀ cb,
    findBlock s.blocks c = some cb → canHaveChild reg b.btype cb.btype = true

/-- Invariants 1-4 of spec §3 together. -/
def Invariants (reg : Registry) (s : BlockStore) : Prop :=
  Inv1 s ∧ Inv2 s ∧ Inv3 s ∧ Inv4 reg s

/-- Executable well-formedness: the structural validity check together
with the fresh-id bound. -/
def wfB (reg : Registry) (s : BlockStore) : Bool :=
  validStoreB reg s && s.blocks.all (fun b => b.id < s.nextId)

/-- Invariant bundle for the output of `cloneMany` over a source list
`bs`: counter growth, clone-id freshness and distinctness, the listed
clone roots pointing at `pid` and typed like their sources, every other
clone pointing at an earlier clone that lists it, and internally
consistent duplicate-free children whose pairings the registry
permits. -/
def CloneSpec (reg : Registry) (bs : List Block) (pid : Option Nat)
    (ctr : Nat) (srcs : List Nat)
    (out : List Block × List Nat × Nat) : Prop :=
  ctr ≤ out.2.2 ∧
  (∀ x ∈ out.1, ctr ≤ x.id ∧ x.id < out.2.2) ∧
  (out.1.map Block.id).Nodup ∧
  out.2.1.Nodup ∧
  (∀ t ∈ out.2.1, ∃ x ∈ out.1, x.id = t ∧ x.parentId = pid ∧
     ∃ src sb, src ∈ srcs ∧ findBlock bs src = some sb ∧
       x.btype = sb.btype) ∧
  (∀ x ∈ out.1, (x.parentId = pid ∧ x.id ∈ out.2.1) ∨
     (∃ y ∈ out.1, x.parentId = some y.id ∧ x.id ∈ y.children ∧
        y.id < x.id)) ∧
  (∀ x ∈ out.1, x.children.Nodup ∧
     ∀ c ∈ x.children, x.id < c ∧ c < out.2.2 ∧
       ∃ y ∈ out.1, y.id = c ∧ y.parentId = some x.id ∧
         canHaveChild reg x.btype y.btype = true)

/-! ## A small concrete registry used to exercise the engine -/

/-- A container type with unrestricted children (like `PAGE`). -/
def pageSchema : BlockSchema :=
  { btype := "page", name := "Page", category := "structure",
    canHaveChildren := true, allowedParents := none, allowedChildren := none,
    defaultData := [("title", "")], validate := fun _ => [] }

/-- A Kanban column: children restricted to cards, name required. -/
def columnSchema : BlockSchema :=
  { btype := "kanban_column", name := "Kanban Column", category := "kanban",
    canHaveChildren := true, allowedParents := none,
    allowedChildren := some ["kanban_card"],
    defaultData := [("name", "")],
    validate := fun d => validateRequired d "name" }

/-- A Kanban card: parents restricted to columns, title required. -/
def cardSchema : BlockSchema :=
  { btype := "kanban_card", name := "Kanban Card", category := "kanban",
    canHaveChildren := true, allowedParents := some ["kanban_column"],
    allowedChildren := none,
    defaultData := [("title", "")],
    validate := fun d => validateRequired d "title" }

/-- A concrete registry with the three demo schemas. -/
def demoRegistry : Registry := [pageSchema, columnSchema, cardSchema]

/-- Shorthand for building concrete blocks in examples. -/
def demoBlock (i : Nat) (t : String) (d : BlockData) (ch : List Nat)
    (pid : Option Nat) : Block :=
  { id := i, btype := t, data := d, children := ch, parentId := pid,
    createdAt := 0, updatedAt := 0, version := 1, metadata := [] }

/-- A concrete one-block store: a single root page. -/
def demoStore1 : BlockStore :=
  { blocks := [demoBlock 0 "page" [("title", "r")] [] none],
    roots := [0], nextId := 1 }

/-- A concrete two-block store: a root page with one page child. -/
def demoStore2 : BlockStore :=
  { blocks := [demoBlock 0 "page" [("title", "root")] [1] none,
               demoBlock 1 "page" [("title", "child")] [] (some 0)],
    roots := [0], nextId := 2 }

/-! ## Basic lemmas about the store primitives -/

theorem findBlock_eq_some {bs : List Block} {i : Nat} {b : Block}
    (h : findBlock bs i = some b) : b ∈ bs ∧ b.id = i := by
  induction bs with
  | nil => simp [findBlock] at h
  | cons hd tl ih =>
    by_cases hid : hd.id = i
    · simp [findBlock, hid] at h
      subst h
      exact ⟨List.mem_cons_self _ _, hid⟩
    · simp [findBlock, hid] at h
      rcases ih h with ⟨hm, hi⟩
      exact ⟨List.mem_cons_of_mem _ hm, hi⟩

theorem findBlock_eq_none_of_not_mem {bs : List Block} {i : Nat}
    (h : i ∉ bs.map Block.id) : findBlock bs i = none := by
  induction bs with
  | nil => rfl
  | cons hd tl ih =>
    simp only [List.map_cons, List.mem_cons] at h
    push_neg at h
    have hne : ¬ hd.id = i := fun he => h.1 he.symm
    simp [findBlock, hne, ih h.2]

theorem findBlock_mem_nodup {bs : List Block}
    (hn : (bs.map Block.id).Nodup) {b : Block} (hb : b ∈ bs) :
    findBlock bs b.id = some b := by
  induction bs with
  | nil => simp at hb
  | cons hd tl ih =>
    simp only [List.map_cons, List.nodup_cons] at hn
    rcases List.mem_cons.mp hb with h | h
    · subst h
      simp [findBlock]
    · have hne : hd.id ≠ b.id := by
        intro he
        exact hn.1 (he ▸ List.mem_map_of_mem Block.id h)
      simp [findBlock, hne, ih hn.2 h]

theorem findBlock_id_eq {bs : List Block} {i : Nat} {b : Block}
    (h : findBlock bs i = some b) : b.id = i :=
  (findBlock_eq_some h).2

theorem findBlock_mem {bs : List Block} {i : Nat} {b : Block}
    (h : findBlock bs i = some b) : b ∈ bs :=
  (findBlock_eq_some h).1

theorem findBlock_append {bs cs : List Block} {i : Nat} :
    findBlock (bs ++ cs) i =
      match findBlock bs i with
      | some b => some b
      | none => findBlock cs i := by
  induction bs with
  | nil => simp [findBlock]
  | cons hd tl ih =>
    by_cases hid : hd.id = i
    · simp [findBlock, hid]
    · simp [findBlock, hid, ih]

theorem findBlock_map_ite {p : Nat} {f : Block → Block}
    (hf : ∀ b, (f b).id = b.id) (bs : List Block) (i : Nat) :
    findBlock (bs.map (fun b => if b.id = p then f b else b)) i =
      if i = p then (findBlock bs i).map f else findBlock bs i := by
  induction bs with
  | nil => simp [findBlock]
  | cons hd tl ih =>
    simp only [List.map_cons]
    by_cases hhp : hd.id = p
    · by_cases hip : i = p
      · have hdi : hd.id = i := by rw [hhp, hip]
        have hfi : (f hd).id = i := by rw [hf hd, hdi]
        simp [findBlock, hfi, hdi, hhp, hip]
      · have hdi : ¬ hd.id = i := fun he => hip (by rw [← he, hhp])
        have hfi : ¬ (f hd).id = i := by rw [hf hd]; exact hdi
        have hpi : ¬ p = i := fun he => hip he.symm
        simp [findBlock, hhp, hip, hdi, hfi, hpi, ih]
    · by_cases hdi : hd.id = i
      · have hip : ¬ i = p := fun he => hhp (hdi.trans he)
        simp [findBlock, hhp, hdi, hip]
      · simp [findBlock, hhp, hdi, ih]

theorem findBlock_filter {bs : List Block} (hn : (bs.map Block.id).Nodup)
    (q : Block → Bool) (i : Nat) :
    findBlock (bs.filter q) i =
      match findBlock bs i with
      | some b => if q b then some b else none
      | none => none := by
  induction bs with
  | nil => simp [findBlock]
  | cons hd tl ih =>
    simp only [List.map_cons, List.nodup_cons] at hn
    by_cases hid : hd.id = i
    · by_cases hq : q hd
      · simp [findBlock, List.filter_cons, hq, hid]
      · have hnone : findBlock (tl.filter q) i = none := by
          apply findBlock_eq_none_of_not_mem
          intro hmem
          apply hn.1
          rcases List.mem_map.mp hmem with ⟨b, hb, hbi⟩
          have : b ∈ tl := List.mem_of_mem_filter hb
          exact hid ▸ hbi ▸ List.mem_map_of_mem Block.id this
        simp [findBlock, List.filter_cons, hq, hid, hnone]
    · by_cases hq : q hd
      · simp [findBlock, List.filter_cons, hq, hid, ih hn.2]
      · simp [findBlock, List.filter_cons, hq, hid, ih hn.2]

theorem mem_removeNat {x y : Nat} {l : List Nat} :
    y ∈ removeNat x l ↔ y ∈ l ∧ y ≠ x := by
  induction l with
  | nil => simp [removeNat]
  | cons hd tl ih =>
    by_cases h : hd = x
    · subst h
      simp [removeNat, ih]
      intro hyx
      simp [hyx]
    · simp only [removeNat, if_neg h, List.mem_cons, ih]
      constructor
      · rintro (rfl | ⟨hm, hne⟩)
        · exact ⟨Or.inl rfl, h⟩
        · exact ⟨Or.inr hm, hne⟩
      · rintro ⟨rfl | hm, hne⟩
        · exact Or.inl rfl
        · exact Or.inr ⟨hm, hne⟩

theorem removeNat_sublist (x : Nat) (l : List Nat) :
    (removeNat x l).Sublist l := by
  induction l with
  | nil => simp [removeNat]
  | cons hd tl ih =>
    by_cases h : hd = x
    · simpa [removeNat, h] using ih.cons hd
    · simpa [removeNat, h] using ih.cons₂ hd

theorem removeNat_nodup {x : Nat} {l : List Nat} (h : l.Nodup) :
    (removeNat x l).Nodup :=
  (removeNat_sublist x l).nodup h

theorem removeNat_eq_of_not_mem {x : Nat} {l : List Nat} (h : x ∉ l) :
    removeNat x l = l := by
  induction l with
  | nil => rfl
  | cons hd tl ih =>
    simp only [List.mem_cons] at h
    push_neg at h
    have hne : ¬ hd = x := fun he => h.1 he.symm
    simp [removeNat, hne, ih h.2]

theorem mem_insertPos {pos : Option Nat} {x y : Nat} {l : List Nat} :
    y ∈ insertPos pos x l ↔ y = x ∨ y ∈ l := by
  cases pos with
  | none => simp [insertPos, or_comm]
  | some k =>
    simp only [insertPos, List.mem_append, List.mem_cons]
    constructor
    · rintro (h | rfl | h)
      · exact Or.inr (List.mem_of_mem_take h)
      · exact Or.inl rfl
      · exact Or.inr (List.mem_of_mem_drop h)
    · rintro (rfl | h)
      · exact Or.inr (Or.inl rfl)
      · rcases List.mem_append.mp ((List.take_append_drop k l).symm ▸ h) with h | h
        · exact Or.inl h
        · exact Or.inr (Or.inr h)

theorem insertPos_perm (pos : Option Nat) (x : Nat) (l : List Nat) :
    (insertPos pos x l).Perm (x :: l) := by
  cases pos with
  | none =>
    show (l ++ [x]).Perm (x :: l)
    exact @List.perm_append_comm _ l [x]
  | some k =>
    show (l.take k ++ x :: l.drop k).Perm (x :: l)
    have h1 : (l.take k ++ x :: l.drop k).Perm (x :: (l.take k ++ l.drop k)) :=
      List.perm_middle
    rwa [List.take_append_drop] at h1

theorem sublist_insertPos (pos : Option Nat) (x : Nat) (l : List Nat) :
    l.Sublist (insertPos pos x l) := by
  cases pos with
  | none => simp [insertPos]
  | some k =>
    show l.Sublist (l.take k ++ x :: l.drop k)
    conv_lhs => rw [← List.take_append_drop k l]
    exact (List.Sublist.refl _).append (List.Sublist.cons x (List.Sublist.refl _))

theorem insertPos_nodup {pos : Option Nat} {x : Nat} {l : List Nat}
    (hx : x ∉ l) (h : l.Nodup) : (insertPos pos x l).Nodup :=
  (insertPos_perm pos x l).nodup_iff.mpr (List.nodup_cons.mpr ⟨hx, h⟩)

theorem allDistinct_iff_nodup {l : List Nat} :
    allDistinct l = true ↔ l.Nodup := by
  induction l with
  | nil => simp [allDistinct]
  | cons hd tl ih => simp [allDistinct, ih, List.nodup_cons]

/-! ## Claim C7: characterization of canHaveChild -/

/-- C7: for every pair of types with registered schemas,
`canHaveChild(parentType, childType)` returns true if and only if the
parent schema's `canHaveChildren` flag is true, the parent's
allowed-children list is absent or contains the child type, and the
child's allowed-parents list is absent or contains the parent type. -/
theorem c7_canHaveChild_iff (reg : Registry) (pt ct : String)
    (ps cs : BlockSchema)
    (hp : getSchema reg pt = some ps) (hc : getSchema reg ct = some cs) :
    canHaveChild reg pt ct = true ↔
      (ps.canHaveChildren = true ∧
       (∀ l, ps.allowedChildren = some l → ct ∈ l) ∧
       (∀ l, cs.allowedParents = some l → pt ∈ l)) := by
  unfold canHaveChild
  rw [hp, hc]
  cases hac : ps.allowedChildren with
  | none =>
    cases hap : cs.allowedParents with
    | none => simp [hac, hap]
    | some lp => simp [hac, hap]
  | some lc =>
    cases hap : cs.allowedParents with
    | none => simp [hac, hap]
    | some lp => simp [hac, hap, and_assoc]

/-- Witness for C7 on the demo registry: a Kanban column may contain a
Kanban card. -/
theorem c7_canHaveChild_iff_witness :
    canHaveChild demoRegistry "kanban_column" "kanban_card" = true ↔
      (columnSchema.canHaveChildren = true ∧
       (∀ l, columnSchema.allowedChildren = some l → "kanban_card" ∈ l) ∧
       (∀ l, cardSchema.allowedParents = some l → "kanban_column" ∈ l)) :=
  c7_canHaveChild_iff demoRegistry "kanban_column" "kanban_card"
    columnSchema cardSchema rfl rfl

/-! ## Claim C3: validation gating of Create -/

/-- C3: for every registered type and every data value failing that
type's validator, `Create` raises `ValidationError` carrying the
structured error list and the store is completely unchanged: `Count()`
is preserved and no block is created or linked. -/
theorem c3_create_validation_gating (reg : Registry) (s : BlockStore)
    (t : String) (d : BlockData) (pid : Option Nat) (pos : Option Nat)
    (md : Metadata) (now : Nat) (sch : BlockSchema)
    (hreg : getSchema reg t = some sch) (hbad : sch.validate d ≠ []) :
    create reg s t d pid pos md now = .error (.validation (sch.validate d)) ∧
    applyOp reg s (.create t d pid pos md now) = s ∧
    count (applyOp reg s (.create t d pid pos md now)) = count s := by
  have hval : validateData reg t d = sch.validate d := by
    unfold validateData
    rw [hreg]
  have hcreate : create reg s t d pid pos md now =
      .error (.validation (sch.validate d)) := by
    unfold create
    rw [hreg, hval]
    cases he : sch.validate d with
    | nil => exact absurd he hbad
    | cons e es => rfl
  refine ⟨hcreate, ?_, ?_⟩
  · simp [applyOp, hcreate]
  · simp [applyOp, hcreate]

/-- Witness for C3: creating a Kanban card with an empty title fails
with `ValidationError` and leaves the empty store untouched. -/
theorem c3_create_validation_gating_witness :
    create demoRegistry emptyStore "kanban_card" [("title", "")] none none [] 0 =
      .error (.validation (cardSchema.validate [("title", "")])) ∧
    applyOp demoRegistry emptyStore
      (.create "kanban_card" [("title", "")] none none [] 0) = emptyStore ∧
    count (applyOp demoRegistry emptyStore
      (.create "kanban_card" [("title", "")] none none [] 0)) = count emptyStore :=
  c3_create_validation_gating demoRegistry emptyStore "kanban_card"
    [("title", "")] none none [] 0 cardSchema rfl (by decide)

/-! ## Claim C5: the delete guard -/

/-- C5: for every block with at least one child, `Delete` with
`deleteChildren` false or absent raises `HasChildrenError` and deletes
nothing: the store (hence `Count()`, the block and all its descendants)
is unchanged. -/
theorem c5_delete_guard (reg : Registry) (s : BlockStore) (i : Nat)
    (b : Block) (now : Nat) (hfind : findBlock s.blocks i = some b)
    (hch : b.children ≠ []) :
    delete s i false now = .error (.hasChildren i) ∧
    applyOp reg s (.delete i false now) = s ∧
    count (applyOp reg s (.delete i false now)) = count s := by
  have hdel : delete s i false now = .error (.hasChildren i) := by
    unfold delete
    rw [hfind]
    have hne : b.children.isEmpty = false := by
      cases hcc : b.children with
      | nil => exact absurd hcc hch
      | cons x xs => rfl
    simp [hne]
  refine ⟨hdel, ?_, ?_⟩
  · simp [applyOp, hdel]
  · simp [applyOp, hdel]

/-- Witness for C5: deleting the root of the two-block demo store
without `deleteChildren` fails and leaves the store unchanged. -/
theorem c5_delete_guard_witness :
    delete demoStore2 0 false 7 = .error (.hasChildren 0) ∧
    applyOp demoRegistry demoStore2 (.delete 0 false 7) = demoStore2 ∧
    count (applyOp demoRegistry demoStore2 (.delete 0 false 7)) =
      count demoStore2 :=
  c5_delete_guard demoRegistry demoStore2 0
    (demoBlock 0 "page" [("title", "root")] [1] none) 7 (by decide) (by decide)

/-! ## Claim C9: totality and result shape of triggerWebhook -/

/-- C9: `triggerWebhook` always produces a result object with a boolean
`success` field (in the model it is a total function, mirroring the
try/catch wrapper that converts every thrown error into a return value):
`success` is false exactly when an `error` message is present — covering
the missing/disabled integration, unparsable config, missing webhook
URL, and network/HTTP failure paths — and `success` is true exactly when
the integration, config and URL resolve and the HTTP POST succeeds, in
which case `status` and `response` carry the HTTP outcome. -/
theorem c9_triggerWebhook_shape (env : WebhookEnv) :
    ((triggerWebhook env).success = false ↔
      ((triggerWebhook env).error.isSome ∧ (triggerWebhook env).status = none ∧
       (triggerWebhook env).response = none)) ∧
    ((triggerWebhook env).success = true ↔
      (∃ row cfg url resp,
        env.dbResult = .ok (some row) ∧
        env.parseJson row.config = some cfg ∧
        cfg.webhookUrl = some url ∧ url ≠ "" ∧
        env.post url cfg.apiKey = .ok resp ∧
        (triggerWebhook env).status = some resp.status ∧
        (triggerWebhook env).response = some resp.data ∧
        (triggerWebhook env).error = none)) := by
  obtain ⟨db, pj, po⟩ := env
  cases db with
  | error msg => simp [triggerWebhook]
  | ok orow =>
    cases orow with
    | none => simp [triggerWebhook]
    | some row =>
      cases hcfg : pj row.config with
      | none => simp [triggerWebhook, hcfg]
      | some cfg =>
        cases hurl : cfg.webhookUrl with
        | none => simp [triggerWebhook, hcfg, hurl]
        | some url =>
          by_cases hemp : url = ""
          · subst hemp
            simp [triggerWebhook, hcfg, hurl]
          · cases hpost : po url cfg.apiKey with
            | error msg =>
              simp [triggerWebhook, hcfg, hurl, hemp, hpost]
            | ok resp =>
              simp [triggerWebhook, hcfg, hurl, hemp, hpost]

/-! ## Claim C10: monotonicity of recordSchemaVersion -/

theorem latestRow_cons_none {hd : SchemaVersionRow} {tl : List SchemaVersionRow}
    (hl : latestRow tl = none) : latestRow (hd :: tl) = some hd := by
  show (match latestRow tl with
        | none => some hd
        | some m => if hd.version ≥ m.version then some hd else some m) = some hd
  rw [hl]

theorem latestRow_cons_ge {hd m2 : SchemaVersionRow} {tl : List SchemaVersionRow}
    (hl : latestRow tl = some m2) (hv : hd.version ≥ m2.version) :
    latestRow (hd :: tl) = some hd := by
  show (match latestRow tl with
        | none => some hd
        | some m => if hd.version ≥ m.version then some hd else some m) = some hd
  rw [hl]
  simp [hv]

theorem latestRow_cons_lt {hd m2 : SchemaVersionRow} {tl : List SchemaVersionRow}
    (hl : latestRow tl = some m2) (hv : ¬ hd.version ≥ m2.version) :
    latestRow (hd :: tl) = some m2 := by
  show (match latestRow tl with
        | none => some hd
        | some m => if hd.version ≥ m.version then some hd else some m) = some m2
  rw [hl]
  simp [hv]

theorem latestRow_mem {t : List SchemaVersionRow} :
    ∀ {m : SchemaVersionRow}, latestRow t = some m → m ∈ t := by
  induction t with
  | nil => intro m h; simp [latestRow] at h
  | cons hd tl ih =>
    intro m h
    cases hl : latestRow tl with
    | none =>
      rw [latestRow_cons_none hl] at h
      cases h
      exact List.mem_cons_self _ _
    | some m2 =>
      by_cases hv : hd.version ≥ m2.version
      · rw [latestRow_cons_ge hl hv] at h
        cases h
        exact List.mem_cons_self _ _
      · rw [latestRow_cons_lt hl hv] at h
        cases h
        exact List.mem_cons_of_mem _ (ih hl)

theorem latestRow_none {t : List SchemaVersionRow} (h : latestRow t = none) :
    t = [] := by
  cases t with
  | nil => rfl
  | cons hd tl =>
    exfalso
    cases hl : latestRow tl with
    | none => rw [latestRow_cons_none hl] at h; cases h
    | some m2 =>
      by_cases hv : hd.version ≥ m2.version
      · rw [latestRow_cons_ge hl hv] at h; cases h
      · rw [latestRow_cons_lt hl hv] at h; cases h

theorem latestRow_ge {t : List SchemaVersionRow} :
    ∀ m, latestRow t = some m → ∀ r ∈ t, r.version ≤ m.version := by
  induction t with
  | nil => intro m h; simp [latestRow] at h
  | cons hd tl ih =>
    intro m h r hr
    cases hl : latestRow tl with
    | none =>
      rw [latestRow_cons_none hl] at h
      cases h
      have ht : tl = [] := latestRow_none hl
      subst ht
      rcases List.mem_cons.mp hr with rfl | hmem
      · exact le_refl _
      · simp at hmem
    | some m2 =>
      by_cases hv : hd.version ≥ m2.version
      · rw [latestRow_cons_ge hl hv] at h
        cases h
        rcases List.mem_cons.mp hr with rfl | hmem
        · exact le_refl _
        · exact le_trans (ih m2 hl r hmem) hv
      · rw [latestRow_cons_lt hl hv] at h
        cases h
        rcases List.mem_cons.mp hr with rfl | hmem
        · omega
        · exact ih m hl r hmem

/-- The latest row of an `insertOrReplace` of a version dominating the
table is the inserted row. -/
theorem latestRow_insertOrReplace {t : List SchemaVersionRow} {v : Nat}
    (app : String) (hdom : ∀ r ∈ t, r.version ≤ v) :
    latestRow (insertOrReplace v app t) = some ⟨v, app⟩ := by
  show latestRow (⟨v, app⟩ :: t.filter (fun r => r.version ≠ v)) = some ⟨v, app⟩
  cases hl : latestRow (t.filter (fun r => r.version ≠ v)) with
  | none => exact latestRow_cons_none hl
  | some m =>
    have hm : m ∈ t := List.mem_of_mem_filter (latestRow_mem hl)
    exact latestRow_cons_ge hl (hdom m hm)

/-- Unfolding of `recordSchemaVersion` when a row is recorded. -/
theorem recordSchemaVersion_eq_of_latest {sv : Nat} {app : String}
    {t : List SchemaVersionRow} {latest : SchemaVersionRow}
    (hl : latestRow t = some latest) :
    recordSchemaVersion sv app t =
      if latest.version > sv then t
      else if latest.version < sv then insertOrReplace sv app t else t := by
  unfold recordSchemaVersion
  rw [hl]

/-- Unfolding of `recordSchemaVersion` on an empty table. -/
theorem recordSchemaVersion_eq_of_none {sv : Nat} {app : String}
    {t : List SchemaVersionRow} (hl : latestRow t = none) :
    recordSchemaVersion sv app t = insertOrReplace sv app t := by
  unfold recordSchemaVersion
  rw [hl]

/-- C10: `recordSchemaVersion` never decreases the recorded schema
version: when the latest recorded row is newer than the configured
version the table is left unchanged, the recorded version never drops,
and a row is written only when nothing is recorded yet or the recorded
version is strictly lower than the configured one. -/
theorem c10_recordSchemaVersion_monotone (sv : Nat) (app : String)
    (t : List SchemaVersionRow) :
    (∀ l, latestRow t = some l → l.version > sv →
      recordSchemaVersion sv app t = t) ∧
    (∀ v, recordedVersion t = some v →
      ∃ v2, recordedVersion (recordSchemaVersion sv app t) = some v2 ∧ v ≤ v2) ∧
    (recordSchemaVersion sv app t ≠ t →
      recordedVersion t = none ∨
      ∃ l, latestRow t = some l ∧ l.version < sv) := by
  refine ⟨?_, ?_, ?_⟩
  · intro l hl hgt
    rw [recordSchemaVersion_eq_of_latest hl, if_pos hgt]
  · intro v hv
    unfold recordedVersion at hv
    cases hl : latestRow t with
    | none => rw [hl] at hv; cases hv
    | some latest =>
      rw [hl] at hv
      simp only [Option.map_some'] at hv
      cases hv
      rw [recordSchemaVersion_eq_of_latest hl]
      by_cases hgt : latest.version > sv
      · rw [if_pos hgt]
        exact ⟨latest.version, by unfold recordedVersion; rw [hl]; rfl, le_refl _⟩
      · rw [if_neg hgt]
        by_cases hlt : latest.version < sv
        · rw [if_pos hlt]
          refine ⟨sv, ?_, le_of_lt hlt⟩
          unfold recordedVersion
          rw [latestRow_insertOrReplace app
            (fun r hr => le_trans (latestRow_ge latest hl r hr) (by omega))]
          rfl
        · rw [if_neg hlt]
          exact ⟨latest.version, by unfold recordedVersion; rw [hl]; rfl, le_refl _⟩
  · intro hne
    cases hl : latestRow t with
    | none =>
      left
      unfold recordedVersion
      rw [hl]
      rfl
    | some latest =>
      rw [recordSchemaVersion_eq_of_latest hl] at hne
      by_cases hgt : latest.version > sv
      · rw [if_pos hgt] at hne
        exact absurd rfl hne
      · rw [if_neg hgt] at hne
        by_cases hlt : latest.version < sv
        · exact Or.inr ⟨latest, hl ▸ rfl, hlt⟩
        · rw [if_neg hlt] at hne
          exact absurd rfl hne

/-- Witness for C10: with a recorded version newer than the configured
one, the table is unchanged. -/
theorem c10_recordSchemaVersion_monotone_witness :
    recordSchemaVersion 1 "1.0.0" [⟨2, "2.0.0"⟩] = [⟨2, "2.0.0"⟩] :=
  (c10_recordSchemaVersion_monotone 1 "1.0.0" [⟨2, "2.0.0"⟩]).1
    ⟨2, "2.0.0"⟩ (by decide) (by decide)

/-! ## Walk machinery: iterated parent steps and acyclicity -/

theorem iterParent_none (bs : List Block) (k : Nat) :
    iterParent bs k none = none := by
  induction k with
  | zero => rfl
  | succ k ih => simp [iterParent, ih]

theorem iterParent_add (bs : List Block) (j k : Nat) (o : Option Nat) :
    iterParent bs (j + k) o = iterParent bs k (iterParent bs j o) := by
  induction k with
  | zero => rfl
  | succ k ih =>
    rw [Nat.add_succ]
    show (iterParent bs (j + k) o).bind (parentStep bs) =
      (iterParent bs k (iterParent bs j o)).bind (parentStep bs)
    rw [ih]

theorem parentEdge_iff_step {bs : List Block} {c p : Nat} :
    ParentEdge bs c p ↔ parentStep bs c = some p := by
  unfold ParentEdge parentStep
  cases h : findBlock bs c with
  | none => simp
  | some b => simp

theorem iter_succ_left (bs : List Block) (j i : Nat) :
    iterParent bs (j + 1) (some i) = iterParent bs j (parentStep bs i) := by
  have h1 : j + 1 = 1 + j := by omega
  rw [h1, iterParent_add]
  rfl

theorem reflTransGen_iff_iter {bs : List Block} {x y : Nat} :
    Relation.ReflTransGen (ParentEdge bs) x y ↔
      ∃ k, iterParent bs k (some x) = some y := by
  constructor
  · intro h
    induction h with
    | refl => exact ⟨0, rfl⟩
    | tail _ hby ih =>
      rcases ih with ⟨k, hk⟩
      refine ⟨k + 1, ?_⟩
      simp only [iterParent, hk, Option.some_bind]
      exact parentEdge_iff_step.mp hby
  · rintro ⟨k, hk⟩
    induction k generalizing y with
    | zero =>
      have h0 : some x = some y := hk
      cases h0
      exact .refl
    | succ k ih =>
      simp only [iterParent] at hk
      cases hm : iterParent bs k (some x) with
      | none => rw [hm] at hk; cases hk
      | some z =>
        rw [hm] at hk
        simp only [Option.some_bind] at hk
        exact .tail (ih hm) (parentEdge_iff_step.mpr hk)

theorem transGen_iff_iter {bs : List Block} {x y : Nat} :
    Relation.TransGen (ParentEdge bs) x y ↔
      ∃ k, 0 < k ∧ iterParent bs k (some x) = some y := by
  constructor
  · intro h
    rcases Relation.TransGen.tail'_iff.mp h with ⟨b, hxb, hby⟩
    rcases reflTransGen_iff_iter.mp hxb with ⟨k, hk⟩
    refine ⟨k + 1, Nat.succ_pos k, ?_⟩
    simp only [iterParent, hk, Option.some_bind]
    exact parentEdge_iff_step.mp hby
  · rintro ⟨k, hpos, hk⟩
    cases k with
    | zero => omega
    | succ k =>
      simp only [iterParent] at hk
      cases hm : iterParent bs k (some x) with
      | none => rw [hm] at hk; cases hk
      | some z =>
        rw [hm] at hk
        simp only [Option.some_bind] at hk
        exact Relation.TransGen.tail'
          (reflTransGen_iff_iter.mpr ⟨k, hm⟩) (parentEdge_iff_step.mpr hk)

theorem iter_cycle_mul {bs : List Block} {x k : Nat}
    (h : iterParent bs k (some x) = some x) :
    ∀ q, iterParent bs (q * k) (some x) = some x := by
  intro q
  induction q with
  | zero => rw [Nat.zero_mul]; rfl
  | succ q ih =>
    have he : (q + 1) * k = q * k + k := by ring
    rw [he, iterParent_add, ih, h]

theorem cycle_never_none {bs : List Block} {x k : Nat} (hk : 0 < k)
    (h : iterParent bs k (some x) = some x) (m : Nat) :
    iterParent bs m (some x) ≠ none := by
  intro hnone
  have h1 : iterParent bs (m * k) (some x) = some x := iter_cycle_mul h m
  have h2 : m ≤ m * k := Nat.le_mul_of_pos_right m hk
  have h3 : iterParent bs (m * k) (some x) = none := by
    have he : m * k = m + (m * k - m) := by omega
    rw [he, iterParent_add, hnone, iterParent_none]
  rw [h1] at h3
  cases h3

/-- Targets of parent steps exist in the store, assuming the
forward direction of edge consistency. -/
theorem parentStep_target {bs : List Block}
    (hpf : ∀ b ∈ bs, ∀ p, b.parentId = some p →
      ∃ pb, findBlock bs p = some pb ∧ b.id ∈ pb.children)
    {x y : Nat} (h : parentStep bs x = some y) :
    ∃ b, findBlock bs y = some b := by
  unfold parentStep at h
  cases hf : findBlock bs x with
  | none => rw [hf] at h; cases h
  | some b =>
    rw [hf] at h
    rcases hpf b (findBlock_mem hf) y h with ⟨pb, hpb, _⟩
    exact ⟨pb, hpb⟩

theorem iter_target {bs : List Block}
    (hpf : ∀ b ∈ bs, ∀ p, b.parentId = some p →
      ∃ pb, findBlock bs p = some pb ∧ b.id ∈ pb.children)
    {x y : Nat} {j : Nat} (hx : ∃ b, findBlock bs x = some b)
    (h : iterParent bs j (some x) = some y) :
    ∃ b, findBlock bs y = some b := by
  cases j with
  | zero =>
    have h0 : some x = some y := h
    cases h0
    exact hx
  | succ j =>
    simp only [iterParent] at h
    cases hm : iterParent bs j (some x) with
    | none => rw [hm] at h; cases h
    | some z =>
      rw [hm] at h
      simp only [Option.some_bind] at h
      exact parentStep_target hpf h

/-- On an acyclic well-connected store, every parent walk reaches a root
within `bs.length` steps. -/
theorem acyclic_iter_none {bs : List Block}
    (hn : (bs.map Block.id).Nodup)
    (hpf : ∀ b ∈ bs, ∀ p, b.parentId = some p →
      ∃ pb, findBlock bs p = some pb ∧ b.id ∈ pb.children)
    (hacy : Acyclic bs)
    {x : Nat} (hx : ∃ b, findBlock bs x = some b) :
    iterParent bs bs.length (some x) = none := by
  by_contra hne
  have hall : ∀ j, j ≤ bs.length → ∃ y, iterParent bs j (some x) = some y := by
    intro j hj
    cases ho : iterParent bs j (some x) with
    | some y => exact ⟨y, rfl⟩
    | none =>
      exfalso
      apply hne
      have he : bs.length = j + (bs.length - j) := by omega
      rw [he, iterParent_add, ho, iterParent_none]
  have hmap : ∀ j ∈ Finset.range (bs.length + 1),
      (iterParent bs j (some x)).getD 0 ∈ (bs.map Block.id).toFinset := by
    intro j hj
    rcases hall j (Nat.lt_succ_iff.mp (Finset.mem_range.mp hj)) with ⟨y, hy⟩
    rw [hy]
    rcases iter_target hpf hx hy with ⟨b, hb⟩
    simp only [Option.getD_some]
    rcases findBlock_eq_some hb with ⟨hmem, hid⟩
    rw [List.mem_toFinset]
    exact hid ▸ List.mem_map_of_mem Block.id hmem
  have hcard : (bs.map Block.id).toFinset.card < (Finset.range (bs.length + 1)).card := by
    rw [Finset.card_range, List.toFinset_card_of_nodup hn, List.length_map]
    omega
  rcases Finset.exists_ne_map_eq_of_card_lt_of_maps_to hcard hmap with
    ⟨j1, hj1, j2, hj2, hne12, heq⟩
  have hj1le : j1 ≤ bs.length := Nat.lt_succ_iff.mp (Finset.mem_range.mp hj1)
  have hj2le : j2 ≤ bs.length := Nat.lt_succ_iff.mp (Finset.mem_range.mp hj2)
  rcases hall j1 hj1le with ⟨y1, hy1⟩
  rcases hall j2 hj2le with ⟨y2, hy2⟩
  have hyy : y1 = y2 := by
    rw [hy1, hy2] at heq
    simpa using heq
  subst hyy
  have key : ∀ a b : Nat, a < b → b ≤ bs.length →
      iterParent bs a (some x) = some y1 →
      iterParent bs b (some x) = some y1 → False := by
    intro a b hab hble ha hb
    have hcyc : iterParent bs (b - a) (some y1) = some y1 := by
      have he : b = a + (b - a) := by omega
      rw [he, iterParent_add, ha] at hb
      exact hb
    exact hacy y1 (transGen_iff_iter.mpr ⟨b - a, by omega, hcyc⟩)
  rcases Nat.lt_or_ge j1 j2 with hlt | hge
  · exact key j1 j2 hlt hj2le hy1 hy2
  · have hlt : j2 < j1 := by omega
    exact key j2 j1 hlt hj1le hy2 hy1

theorem mem_ancestorsFrom {bs : List Block} {a : Nat} {f : Nat} {o : Option Nat} :
    a ∈ ancestorsFrom bs f o ↔ ∃ j, j < f ∧ iterParent bs j o = some a := by
  induction f generalizing o with
  | zero =>
    cases o with
    | none => simp [ancestorsFrom]
    | some i => simp [ancestorsFrom]
  | succ f ih =>
    cases o with
    | none => simp [ancestorsFrom, iterParent_none]
    | some i =>
      simp only [ancestorsFrom, List.mem_cons, ih]
      constructor
      · rintro (rfl | ⟨j, hj, hiter⟩)
        · exact ⟨0, Nat.succ_pos f, rfl⟩
        · exact ⟨j + 1, by omega, by rw [iter_succ_left]; exact hiter⟩
      · rintro ⟨j, hj, hiter⟩
        cases j with
        | zero =>
          simp only [iterParent] at hiter
          cases hiter
          exact Or.inl rfl
        | succ j =>
          right
          exact ⟨j, by omega, by rw [← iter_succ_left]; exact hiter⟩

/-- Completeness of the executable ancestor walk on a well-formed store:
any block reachable upward from `q` is `q` itself or occurs in
`getAncestors q`. -/
theorem reach_imp_mem_ancestors {bs : List Block}
    (hn : (bs.map Block.id).Nodup)
    (hpf : ∀ b ∈ bs, ∀ p, b.parentId = some p →
      ∃ pb, findBlock bs p = some pb ∧ b.id ∈ pb.children)
    (hacy : Acyclic bs)
    {q a : Nat} (hq : ∃ b, findBlock bs q = some b)
    (h : Relation.ReflTransGen (ParentEdge bs) q a) :
    a = q ∨ a ∈ getAncestors bs q := by
  rcases reflTransGen_iff_iter.mp h with ⟨k, hk⟩
  cases k with
  | zero =>
    simp only [iterParent] at hk
    cases hk
    exact Or.inl rfl
  | succ k =>
    right
    have hn1 : k + 1 ≤ bs.length := by
      by_contra hgt
      have hnone := acyclic_iter_none hn hpf hacy hq
      have hz : iterParent bs (k + 1) (some q) = none := by
        have he : k + 1 = bs.length + (k + 1 - bs.length) := by omega
        rw [he, iterParent_add, hnone, iterParent_none]
      rw [hk] at hz
      cases hz
    unfold getAncestors
    rw [mem_ancestorsFrom]
    refine ⟨k, by omega, ?_⟩
    rw [← iter_succ_left]
    exact hk

/-- Soundness of the executable ancestor walk: membership in
`getAncestors q` yields upward reachability. -/
theorem mem_ancestors_imp_reach {bs : List Block} {q a : Nat}
    (h : a ∈ getAncestors bs q) :
    Relation.TransGen (ParentEdge bs) q a := by
  unfold getAncestors at h
  rcases mem_ancestorsFrom.mp h with ⟨j, hj, hiter⟩
  exact transGen_iff_iter.mpr ⟨j + 1, Nat.succ_pos j, by rw [iter_succ_left]; exact hiter⟩

/-- Soundness of the executable acyclicity check: if every block's
parent walk terminates within `bs.length` steps, the store is acyclic. -/
theorem acyclicE_sound {bs : List Block}
    (h : ∀ b ∈ bs, iterParent bs bs.length (some b.id) = none) :
    Acyclic bs := by
  intro x hcyc
  rcases transGen_iff_iter.mp hcyc with ⟨k, hkpos, hiter⟩
  have hx : ∃ b, findBlock bs x = some b := by
    rcases Relation.TransGen.head'_iff.mp hcyc with ⟨p, hedge, _⟩
    rcases hedge with ⟨b, hb, _⟩
    exact ⟨b, hb⟩
  rcases hx with ⟨b, hb⟩
  have hbid : b.id = x := findBlock_id_eq hb
  exact cycle_never_none hkpos hiter bs.length
    (hbid ▸ h b (findBlock_mem hb))

/-- Adding a single edge `a → q` to an acyclic relation keeps it acyclic
as long as `q` does not already reach `a`. -/
theorem reflTransGen_extend {r r2 : Nat → Nat → Prop} {a q : Nat}
    (hsub : ∀ x y, r2 x y → r x y ∨ (x = a ∧ y = q)) :
    ∀ {x y : Nat}, Relation.ReflTransGen r2 x y →
      Relation.ReflTransGen r x y ∨
      (Relation.ReflTransGen r x a ∧ Relation.ReflTransGen r q y) ∨
      Relation.ReflTransGen r q a := by
  intro x y h
  induction h using Relation.ReflTransGen.head_induction_on with
  | refl => exact Or.inl .refl
  | head hxz hzy ih =>
    rcases hsub _ _ hxz with hr | ⟨rfl, rfl⟩
    · rcases ih with hL | ⟨hza, hqy⟩ | hqa
      · exact Or.inl (.head hr hL)
      · exact Or.inr (Or.inl ⟨.head hr hza, hqy⟩)
      · exact Or.inr (Or.inr hqa)
    · rcases ih with hL | ⟨hqa2, _⟩ | hqa
      · exact Or.inr (Or.inl ⟨.refl, hL⟩)
      · exact Or.inr (Or.inr hqa2)
      · exact Or.inr (Or.inr hqa)

theorem acyclic_extend {r r2 : Nat → Nat → Prop} {a q : Nat}
    (hsub : ∀ x y, r2 x y → r x y ∨ (x = a ∧ y = q))
    (hacy : ∀ x, ¬ Relation.TransGen r x x)
    (hnr : ¬ Relation.ReflTransGen r q a) :
    ∀ z, ¬ Relation.TransGen r2 z z := by
  intro z hz
  rcases Relation.TransGen.head'_iff.mp hz with ⟨w, hzw, hwz⟩
  rcases reflTransGen_extend hsub hwz with hL | ⟨hwa, hqz⟩ | hqa
  · rcases hsub _ _ hzw with hr | ⟨rfl, rfl⟩
    · exact hacy z (Relation.TransGen.head' hr hL)
    · exact hnr hL
  · rcases hsub _ _ hzw with hr | ⟨rfl, rfl⟩
    · exact hnr (hqz.trans (Relation.ReflTransGen.head hr hwa))
    · exact hnr hwa
  · exact hnr hqa

/-- A node with no incoming edges is unreachable from anywhere else. -/
theorem not_reach_of_no_in {r : Nat → Nat → Prop} {q a : Nat}
    (hqa : q ≠ a) (hin : ∀ x, ¬ r x a) :
    ¬ Relation.ReflTransGen r q a := by
  intro h
  rcases Relation.ReflTransGen.cases_tail h with he | ⟨c, _, hca⟩
  · exact hqa he.symm
  · exact hin c hca

/-! ## Characterization and inversion lemmas for the operations -/

theorem eq_of_mem_findBlock {bs : List Block}
    (hn : (bs.map Block.id).Nodup) {x b : Block} (hx : x ∈ bs)
    (hb : findBlock bs x.id = some b) : x = b := by
  have h2 := findBlock_mem_nodup hn hx
  rw [h2] at hb
  cases hb
  rfl

theorem findBlock_map_const_ne {bs : List Block} {i : Nat} {b2 : Block}
    (hid : b2.id = i) {c : Nat} (hci : c ≠ i) :
    findBlock (bs.map (fun x => if x.id = i then b2 else x)) c =
      findBlock bs c := by
  induction bs with
  | nil => rfl
  | cons hd tl ih =>
    simp only [List.map_cons, findBlock]
    by_cases hdi : hd.id = i
    · have h2 : ¬ b2.id = c := by rw [hid]; exact fun he => hci he.symm
      have h3 : ¬ hd.id = c := by rw [hdi]; exact fun he => hci he.symm
      rw [if_pos hdi, if_neg h2, if_neg h3, ih]
    · rw [if_neg hdi]
      by_cases hdc : hd.id = c
      · rw [if_pos hdc, if_pos hdc]
      · rw [if_neg hdc, if_neg hdc, ih]

theorem findBlock_map_const_eq {bs : List Block} {i : Nat} {b2 : Block}
    (hid : b2.id = i) :
    ∀ b, findBlock bs i = some b →
      findBlock (bs.map (fun x => if x.id = i then b2 else x)) i = some b2 := by
  induction bs with
  | nil => intro b hb; simp [findBlock] at hb
  | cons hd tl ih =>
    intro b hb
    by_cases hdi : hd.id = i
    · simp [findBlock, hdi, hid]
    · simp only [findBlock, if_neg hdi] at hb
      simp [findBlock, hdi, ih b hb]

theorem findBlock_map_const {bs : List Block} {i : Nat} {b b2 : Block}
    (hb : findBlock bs i = some b) (hid : b2.id = i) (c : Nat) :
    findBlock (bs.map (fun x => if x.id = i then b2 else x)) c =
      if c = i then some b2 else findBlock bs c := by
  by_cases hci : c = i
  · subst hci
    rw [if_pos rfl]
    exact findBlock_map_const_eq hid b hb
  · rw [if_neg hci]
    exact findBlock_map_const_ne hid hci

theorem map_ids_of_idpres {g : Block → Block}
    (hg : ∀ b, (g b).id = b.id) (bs : List Block) :
    (bs.map g).map Block.id = bs.map Block.id := by
  rw [List.map_map]
  apply List.map_congr_left
  intro x _
  exact hg x

theorem map_ids_ite {p : Nat} {f : Block → Block}
    (hf : ∀ b, (f b).id = b.id) (bs : List Block) :
    ((bs.map (fun b => if b.id = p then f b else b)).map Block.id) =
      bs.map Block.id := by
  apply map_ids_of_idpres
  intro b
  by_cases h : b.id = p <;> simp [h, hf]

theorem map_ids_const {bs : List Block} {i : Nat} {b2 : Block}
    (hid : b2.id = i) :
    ((bs.map (fun x => if x.id = i then b2 else x)).map Block.id) =
      bs.map Block.id := by
  apply map_ids_of_idpres
  intro b
  by_cases h : b.id = i <;> simp [h, hid]

/-- Inversion of a successful `update`. -/
theorem update_ok_inv {reg : Registry} {s : BlockStore} {i : Nat}
    {d : Option BlockData} {md : Option Metadata} {now : Nat}
    {s2 : BlockStore} {b2 : Block}
    (h : update reg s i d md now = .ok (s2, b2)) :
    ∃ b, findBlock s.blocks i = some b ∧ updateErrs reg b d = [] ∧
      b2 = updatedBlock b d md now ∧
      s2.blocks = s.blocks.map
        (fun x => if x.id = i then updatedBlock b d md now else x) ∧
      s2.roots = s.roots ∧ s2.nextId = s.nextId := by
  unfold update at h
  cases hf : findBlock s.blocks i with
  | none => rw [hf] at h; cases h
  | some b =>
    rw [hf] at h
    dsimp only at h
    cases hv : updateErrs reg b d with
    | cons e es => rw [hv] at h; cases h
    | nil =>
      rw [hv] at h
      cases h
      exact ⟨b, rfl, hv, rfl, rfl, rfl, rfl⟩

/-- Update preserves well-formedness. -/
theorem wf_update {reg : Registry} {s : BlockStore} {i : Nat}
    {d : Option BlockData} {md : Option Metadata} {now : Nat}
    {s2 : BlockStore} {b2 : Block} (hwf : Wf reg s)
    (h : update reg s i d md now = .ok (s2, b2)) : Wf reg s2 := by
  rcases update_ok_inv h with
    ⟨b, hb, _hverr, hb2eq, hbs, hroots, hnext⟩
  rw [← hb2eq] at hbs
  have hid : b2.id = b.id := by rw [hb2eq]; rfl
  have hty : b2.btype = b.btype := by rw [hb2eq]; rfl
  have hch : b2.children = b.children := by rw [hb2eq]; rfl
  have hpar : b2.parentId = b.parentId := by rw [hb2eq]; rfl
  have hbi : b.id = i := findBlock_id_eq hb
  have hb2i : b2.id = i := by rw [hid, hbi]
  have hfind : ∀ c, findBlock s2.blocks c =
      if c = i then some b2 else findBlock s.blocks c := by
    intro c
    rw [hbs]
    exact findBlock_map_const hb hb2i c
  have hids : s2.blocks.map Block.id = s.blocks.map Block.id := by
    rw [hbs]
    exact map_ids_const hb2i
  have hmem : ∀ x ∈ s2.blocks, (x = b2 ∧ i ∈ s.blocks.map Block.id) ∨
      (x ∈ s.blocks ∧ x.id ≠ i) := by
    intro x hx
    rw [hbs] at hx
    rcases List.mem_map.mp hx with ⟨y, hy, hxy⟩
    by_cases hyi : y.id = i
    · left
      constructor
      · rw [← hxy]; simp [hyi]
      · rw [← hyi]; exact List.mem_map_of_mem Block.id hy
    · right
      constructor
      · rw [← hxy]; simp [hyi]; exact hy
      · rw [← hxy]; simp [hyi]
  -- the edge relation is unchanged
  have hedge : ∀ c p, ParentEdge s2.blocks c p ↔ ParentEdge s.blocks c p := by
    intro c p
    unfold ParentEdge
    rw [hfind c]
    by_cases hci : c = i
    · subst hci
      rw [if_pos rfl, hb]
      constructor
      · rintro ⟨x, hx, hxp⟩
        cases hx
        exact ⟨b, rfl, by rw [← hpar]; exact hxp⟩
      · rintro ⟨x, hx, hxp⟩
        cases hx
        exact ⟨b2, rfl, by rw [hpar]; exact hxp⟩
    · rw [if_neg hci]
  constructor
  · rw [hids]; exact hwf.nodupIds
  · intro x hx
    rw [hnext]
    rcases hmem x hx with ⟨rfl, hex⟩ | ⟨hxs, _⟩
    · rw [hb2i]
      rcases List.mem_map.mp hex with ⟨y, hy, hyi⟩
      have := hwf.idsBound y hy
      omega
    · exact hwf.idsBound x hxs
  · intro x hx
    rcases hmem x hx with ⟨rfl, _⟩ | ⟨hxs, _⟩
    · rw [hch]; exact hwf.childNodup b (findBlock_mem hb)
    · exact hwf.childNodup x hxs
  · intro x hx c hc
    have hcb : ∃ cb, findBlock s.blocks c = some cb ∧ cb.parentId = some x.id := by
      rcases hmem x hx with ⟨rfl, _⟩ | ⟨hxs, _⟩
      · rw [hch] at hc
        have := hwf.childBack b (findBlock_mem hb) c hc
        rw [hid]
        exact this
      · exact hwf.childBack x hxs c hc
    rcases hcb with ⟨cb, hcb, hcbp⟩
    rw [hfind c]
    by_cases hci : c = i
    · subst hci
      rw [hb] at hcb
      cases hcb
      refine ⟨b2, by rw [if_pos rfl], ?_⟩
      rw [hpar]
      exact hcbp
    · refine ⟨cb, by rw [if_neg hci]; exact hcb, hcbp⟩
  · intro x hx c hc cb hcb
    have hx0 : ∃ x0, x0 ∈ s.blocks ∧ x.btype = x0.btype ∧
        x.children = x0.children := by
      rcases hmem x hx with ⟨rfl, _⟩ | ⟨hxs, _⟩
      · exact ⟨b, findBlock_mem hb, hty, hch⟩
      · exact ⟨x, hxs, rfl, rfl⟩
    rcases hx0 with ⟨x0, hx0s, hxty, hxch⟩
    rw [hfind c] at hcb
    by_cases hci : c = i
    · subst hci
      rw [if_pos rfl] at hcb
      cases hcb
      rw [hxty, hty]
      exact hwf.typesLegal x0 hx0s c (hxch ▸ hc) b hb
    · rw [if_neg hci] at hcb
      rw [hxty]
      exact hwf.typesLegal x0 hx0s c (hxch ▸ hc) cb hcb
  · intro x hx p hp
    have hx0 : ∃ x0, x0 ∈ s.blocks ∧ x.id = x0.id ∧
        x.parentId = x0.parentId := by
      rcases hmem x hx with ⟨rfl, _⟩ | ⟨hxs, _⟩
      · exact ⟨b, findBlock_mem hb, by rw [hid], hpar⟩
      · exact ⟨x, hxs, rfl, rfl⟩
    rcases hx0 with ⟨x0, hx0s, hxid, hxpar⟩
    rcases hwf.parentFwd x0 hx0s p (by rw [← hxpar]; exact hp) with
      ⟨pb, hpb, hpbc⟩
    rw [hfind p]
    by_cases hpi : p = i
    · subst hpi
      rw [hb] at hpb
      cases hpb
      refine ⟨b2, by rw [if_pos rfl], ?_⟩
      rw [hch, hxid]
      exact hpbc
    · refine ⟨pb, by rw [if_neg hpi]; exact hpb, ?_⟩
      rw [hxid]
      exact hpbc
  · rw [hroots]; exact hwf.rootsNodup
  · intro r hr
    rw [hroots] at hr
    rcases hwf.rootsValid r hr with ⟨br, hbr, hbrp⟩
    rw [hfind r]
    by_cases hri : r = i
    · subst hri
      rw [hb] at hbr
      cases hbr
      refine ⟨b2, by rw [if_pos rfl], ?_⟩
      rw [hpar]
      exact hbrp
    · refine ⟨br, by rw [if_neg hri]; exact hbr, hbrp⟩
  · intro x hx hxp
    rw [hroots]
    rcases hmem x hx with ⟨rfl, _⟩ | ⟨hxs, _⟩
    · rw [hb2i]
      exact hbi ▸ hwf.rootsComplete b (findBlock_mem hb)
        (by rw [← hpar]; exact hxp)
    · exact hwf.rootsComplete x hxs hxp
  · intro z hz
    exact hwf.acyclic z
      (Relation.TransGen.mono (fun a c hac => (hedge a c).mp hac) hz)

/-! ## Create: inversion and preservation -/

/-- Inversion of a successful `create`. -/
theorem create_ok_inv {reg : Registry} {s : BlockStore} {t : String}
    {d : BlockData} {pid : Option Nat} {pos : Option Nat} {md : Metadata}
    {now : Nat} {s2 : BlockStore} {nb : Block}
    (h : create reg s t d pid pos md now = .ok (s2, nb)) :
    validateData reg t d = [] ∧ nb = newBlock t d pid md now s.nextId ∧
    s2.nextId = s.nextId + 1 ∧
    ((pid = none ∧
      s2.blocks = s.blocks ++ [newBlock t d none md now s.nextId] ∧
      s2.roots = insertPos pos s.nextId s.roots) ∨
     (∃ p pb, pid = some p ∧ findBlock s.blocks p = some pb ∧
      canHaveChild reg pb.btype t = true ∧
      s2.blocks = (s.blocks.map (fun b =>
        if b.id = p then withChildInserted pos s.nextId now b else b)) ++
        [newBlock t d (some p) md now s.nextId] ∧
      s2.roots = s.roots)) := by
  unfold create at h
  cases hsch : getSchema reg t with
  | none => rw [hsch] at h; cases h
  | some sch =>
    rw [hsch] at h
    dsimp only at h
    cases hval : validateData reg t d with
    | cons e es => rw [hval] at h; cases h
    | nil =>
      rw [hval] at h
      dsimp only at h
      cases pid with
      | none =>
        cases h
        exact ⟨rfl, rfl, rfl, Or.inl ⟨rfl, rfl, rfl⟩⟩
      | some p =>
        dsimp only at h
        cases hfp : findBlock s.blocks p with
        | none => rw [hfp] at h; cases h
        | some pb =>
          rw [hfp] at h
          dsimp only at h
          by_cases hcc : canHaveChild reg pb.btype t = true
          · rw [if_pos hcc] at h
            cases h
            exact ⟨rfl, rfl, rfl, Or.inr ⟨p, pb, rfl, hfp, hcc, rfl, rfl⟩⟩
          · rw [if_neg hcc] at h
            cases h

theorem findBlock_append_single {bs : List Block} {nb : Block} (c : Nat) :
    findBlock (bs ++ [nb]) c =
      match findBlock bs c with
      | some b => some b
      | none => if nb.id = c then some nb else none := by
  rw [findBlock_append]
  cases findBlock bs c with
  | some b => rfl
  | none => simp [findBlock]

/-- Freshness: the next id is not the id of any stored block. -/
theorem findBlock_nextId_none {reg : Registry} {s : BlockStore}
    (hwf : Wf reg s) : findBlock s.blocks s.nextId = none := by
  apply findBlock_eq_none_of_not_mem
  intro hmem
  rcases List.mem_map.mp hmem with ⟨b, hb, hbid⟩
  have := hwf.idsBound b hb
  omega

/-- Find characterization after a root create. -/
theorem findBlock_create_root {bs : List Block} {nb : Block}
    (hfresh : findBlock bs nb.id = none) (c : Nat) :
    findBlock (bs ++ [nb]) c =
      if c = nb.id then some nb else findBlock bs c := by
  rw [findBlock_append_single]
  by_cases hc : c = nb.id
  · rw [if_pos hc, hc, hfresh]
    show (if nb.id = nb.id then some nb else (none : Option Block)) = some nb
    rw [if_pos rfl]
  · rw [if_neg hc]
    cases hf : findBlock bs c with
    | some b => rfl
    | none =>
      show (if nb.id = c then some nb else (none : Option Block)) = none
      rw [if_neg (fun he => hc he.symm)]

/-- Membership in an id list implies a bound below `nextId` on a
well-formed store. -/
theorem id_lt_nextId {reg : Registry} {s : BlockStore} (hwf : Wf reg s)
    {c : Nat} {cb : Block} (hc : findBlock s.blocks c = some cb) :
    c < s.nextId := by
  rcases findBlock_eq_some hc with ⟨hmem, hid⟩
  have := hwf.idsBound cb hmem
  omega

/-- Create preserves well-formedness. -/
theorem wf_create {reg : Registry} {s : BlockStore} {t : String}
    {d : BlockData} {pid : Option Nat} {pos : Option Nat} {md : Metadata}
    {now : Nat} {s2 : BlockStore} {nb : Block} (hwf : Wf reg s)
    (h : create reg s t d pid pos md now = .ok (s2, nb)) : Wf reg s2 := by
  rcases create_ok_inv h with ⟨_hval, hnb, hnext, hcase⟩
  rcases hcase with ⟨hpid, hbs, hroots⟩ | ⟨p, pb, hpid, hfp, hcc, hbs, hroots⟩
  · -- root create
    subst hpid
    set nb0 : Block := newBlock t d none md now s.nextId with hnb0
    have hnb0id : nb0.id = s.nextId := rfl
    have hfresh : findBlock s.blocks nb0.id = none := by
      rw [hnb0id]; exact findBlock_nextId_none hwf
    have hfind : ∀ c, findBlock s2.blocks c =
        if c = s.nextId then some nb0 else findBlock s.blocks c := by
      intro c
      rw [hbs, findBlock_create_root hfresh c, hnb0id]
    have hids : s2.blocks.map Block.id = s.blocks.map Block.id ++ [s.nextId] := by
      rw [hbs, List.map_append]
      rfl
    have hmem : ∀ x ∈ s2.blocks, x = nb0 ∨ x ∈ s.blocks := by
      intro x hx
      rw [hbs] at hx
      rcases List.mem_append.mp hx with hx | hx
      · exact Or.inr hx
      · rcases List.mem_singleton.mp hx with rfl
        exact Or.inl rfl
    have holdfind : ∀ {c : Nat} {cb : Block}, findBlock s.blocks c = some cb →
        findBlock s2.blocks c = some cb := by
      intro c cb hc
      rw [hfind c, if_neg]
      · exact hc
      · intro he
        subst he
        have := id_lt_nextId hwf hc
        omega
    constructor
    · rw [hids]
      rw [List.nodup_append]
      refine ⟨hwf.nodupIds, List.nodup_singleton _, ?_⟩
      intro a ha hb
      rcases List.mem_singleton.mp hb with rfl
      rcases List.mem_map.mp ha with ⟨b, hbm, hbid⟩
      have := hwf.idsBound b hbm
      omega
    · intro x hx
      rw [hnext]
      rcases hmem x hx with rfl | hx2
      · rw [hnb0id]; omega
      · have := hwf.idsBound x hx2
        omega
    · intro x hx
      rcases hmem x hx with rfl | hx2
      · exact List.nodup_nil
      · exact hwf.childNodup x hx2
    · intro x hx c hc
      rcases hmem x hx with rfl | hx2
      · simp [hnb0, newBlock] at hc
      · rcases hwf.childBack x hx2 c hc with ⟨cb, hcb, hcbp⟩
        exact ⟨cb, holdfind hcb, hcbp⟩
    · intro x hx c hc cb hcb
      rcases hmem x hx with rfl | hx2
      · simp [hnb0, newBlock] at hc
      · rcases hwf.childBack x hx2 c hc with ⟨cb0, hcb0, _⟩
        rw [holdfind hcb0] at hcb
        cases hcb
        exact hwf.typesLegal x hx2 c hc cb hcb0
    · intro x hx p hp
      rcases hmem x hx with rfl | hx2
      · simp [hnb0, newBlock] at hp
      · rcases hwf.parentFwd x hx2 p hp with ⟨pb, hpb, hpbc⟩
        exact ⟨pb, holdfind hpb, hpbc⟩
    · rw [hroots]
      apply insertPos_nodup
      · intro hmem2
        rcases hwf.rootsValid _ hmem2 with ⟨br, hbr, _⟩
        have := id_lt_nextId hwf hbr
        omega
      · exact hwf.rootsNodup
    · intro r hr
      rw [hroots] at hr
      rcases mem_insertPos.mp hr with hr1 | hr2
      · refine ⟨nb0, ?_, rfl⟩
        rw [hfind r, if_pos hr1]
      · rcases hwf.rootsValid r hr2 with ⟨br, hbr, hbrp⟩
        exact ⟨br, holdfind hbr, hbrp⟩
    · intro x hx hxp
      rw [hroots]
      rcases hmem x hx with rfl | hx2
      · rw [hnb0id]
        exact mem_insertPos.mpr (Or.inl rfl)
      · exact mem_insertPos.mpr (Or.inr (hwf.rootsComplete x hx2 hxp))
    · intro z hz
      apply hwf.acyclic z
      refine Relation.TransGen.mono ?_ hz
      intro a c hac
      rcases hac with ⟨bb, hbb, hbbp⟩
      rw [hfind a] at hbb
      by_cases ha : a = s.nextId
      · rw [if_pos ha] at hbb
        cases hbb
        simp [hnb0, newBlock] at hbbp
      · rw [if_neg ha] at hbb
        exact ⟨bb, hbb, hbbp⟩
  · -- create under a parent
    subst hpid
    set nb0 : Block := newBlock t d (some p) md now s.nextId with hnb0
    set pb2 : Block := withChildInserted pos s.nextId now pb with hpb2
    have hnb0id : nb0.id = s.nextId := rfl
    have hpb2id : pb2.id = pb.id := rfl
    have hpbid : pb.id = p := findBlock_id_eq hfp
    have hplt : p < s.nextId := id_lt_nextId hwf hfp
    have hfreshS : findBlock s.blocks s.nextId = none :=
      findBlock_nextId_none hwf
    have hwci : ∀ b : Block, (withChildInserted pos s.nextId now b).id = b.id :=
      fun b => rfl
    have hfind : ∀ c, findBlock s2.blocks c =
        if c = s.nextId then some nb0
        else if c = p then some pb2
        else findBlock s.blocks c := by
      intro c
      rw [hbs, findBlock_append_single]
      rw [findBlock_map_ite hwci]
      by_cases hc : c = s.nextId
      · have hcp : ¬ c = p := by omega
        rw [if_pos hc, if_neg hcp, hc, hfreshS]
        show (if nb0.id = s.nextId then some nb0 else (none : Option Block)) =
          some nb0
        rw [if_pos hnb0id]
      · rw [if_neg hc]
        by_cases hcp : c = p
        · rw [if_pos hcp, if_pos hcp, hcp, hfp]
          show some (withChildInserted pos s.nextId now pb) = some pb2
          rw [hpb2]
        · rw [if_neg hcp, if_neg hcp]
          cases hf : findBlock s.blocks c with
          | some b => rfl
          | none =>
            show (if nb0.id = c then some nb0 else (none : Option Block)) = none
            rw [if_neg (fun he => hc (he.symm.trans hnb0id))]
    have hids : s2.blocks.map Block.id = s.blocks.map Block.id ++ [s.nextId] := by
      rw [hbs, List.map_append, map_ids_ite hwci]
      rfl
    have hmem : ∀ x ∈ s2.blocks,
        x = nb0 ∨ x = pb2 ∨ (x ∈ s.blocks ∧ x.id ≠ p) := by
      intro x hx
      rw [hbs] at hx
      rcases List.mem_append.mp hx with hx | hx
      · rcases List.mem_map.mp hx with ⟨y, hy, hxy⟩
        by_cases hyp : y.id = p
        · right; left
          rw [← hxy, if_pos hyp]
          have : y = pb := by
            apply eq_of_mem_findBlock hwf.nodupIds hy
            rw [hyp]
            exact hfp
          rw [this]
        · right; right
          rw [← hxy, if_neg hyp]
          exact ⟨hy, hyp⟩
      · rcases List.mem_singleton.mp hx with rfl
        exact Or.inl rfl
    have holdfind : ∀ {c : Nat} {cb : Block}, findBlock s.blocks c = some cb →
        c ≠ p → findBlock s2.blocks c = some cb := by
      intro c cb hc hcp
      rw [hfind c, if_neg, if_neg hcp]
      · exact hc
      · intro he
        subst he
        have := id_lt_nextId hwf hc
        omega
    have hchmem : ∀ {x : Block}, x ∈ s.blocks → ∀ {c : Nat}, c ∈ x.children →
        c < s.nextId := by
      intro x hx c hc
      rcases hwf.childBack x hx c hc with ⟨cb, hcb, _⟩
      exact id_lt_nextId hwf hcb
    constructor
    · rw [hids, List.nodup_append]
      refine ⟨hwf.nodupIds, List.nodup_singleton _, ?_⟩
      intro a ha hb
      rcases List.mem_singleton.mp hb with rfl
      rcases List.mem_map.mp ha with ⟨b, hbm, hbid⟩
      have := hwf.idsBound b hbm
      omega
    · intro x hx
      rw [hnext]
      rcases hmem x hx with rfl | rfl | ⟨hx2, _⟩
      · rw [hnb0id]; omega
      · rw [hpb2id]
        have := hwf.idsBound pb (findBlock_mem hfp)
        omega
      · have := hwf.idsBound x hx2
        omega
    · intro x hx
      rcases hmem x hx with rfl | rfl | ⟨hx2, _⟩
      · exact List.nodup_nil
      · show (insertPos pos s.nextId pb.children).Nodup
        apply insertPos_nodup
        · intro hmem2
          have := hchmem (findBlock_mem hfp) hmem2
          omega
        · exact hwf.childNodup pb (findBlock_mem hfp)
      · exact hwf.childNodup x hx2
    · intro x hx c hc
      rcases hmem x hx with rfl | rfl | ⟨hx2, hxp⟩
      · simp [hnb0, newBlock] at hc
      · replace hc : c ∈ insertPos pos s.nextId pb.children := hc
        rcases mem_insertPos.mp hc with hc1 | hc2
        · refine ⟨nb0, ?_, ?_⟩
          · rw [hfind c, if_pos hc1]
          · show some p = some pb2.id
            rw [hpb2id, hpbid]
        · rcases hwf.childBack pb (findBlock_mem hfp) c hc2 with ⟨cb, hcb, hcbp⟩
          by_cases hcp : c = p
          · rw [hcp, hfp] at hcb
            cases hcb
            refine ⟨pb2, ?_, ?_⟩
            · rw [hfind c, if_neg (by omega), if_pos hcp]
            · show pb2.parentId = some pb2.id
              rw [hpb2id]
              exact hcbp
          · exact ⟨cb, holdfind hcb hcp, by rw [hpb2id]; exact hcbp⟩
      · rcases hwf.childBack x hx2 c hc with ⟨cb, hcb, hcbp⟩
        by_cases hcp : c = p
        · rw [hcp, hfp] at hcb
          cases hcb
          refine ⟨pb2, ?_, ?_⟩
          · rw [hfind c, if_neg (by omega), if_pos hcp]
          · show pb2.parentId = some x.id
            exact hcbp
        · exact ⟨cb, holdfind hcb hcp, hcbp⟩
    · intro x hx c hc cb hcb
      have hold : ∀ x0, x0 ∈ s.blocks → c ∈ x0.children →
          canHaveChild reg x0.btype cb.btype = true := by
        intro x0 hx0s hcold
        have hclt : c < s.nextId := hchmem hx0s hcold
        rw [hfind c, if_neg (by omega)] at hcb
        by_cases hcp : c = p
        · rw [if_pos hcp] at hcb
          cases hcb
          show canHaveChild reg x0.btype pb2.btype = true
          have he : pb2.btype = pb.btype := rfl
          rw [he]
          exact hwf.typesLegal x0 hx0s c hcold pb (by rw [hcp]; exact hfp)
        · rw [if_neg hcp] at hcb
          exact hwf.typesLegal x0 hx0s c hcold cb hcb
      rcases hmem x hx with rfl | rfl | ⟨hx2, _⟩
      · simp [hnb0, newBlock] at hc
      · replace hc : c ∈ insertPos pos s.nextId pb.children := hc
        rcases mem_insertPos.mp hc with hc1 | hcold
        · rw [hfind c, if_pos hc1] at hcb
          cases hcb
          show canHaveChild reg pb2.btype nb0.btype = true
          have h1 : pb2.btype = pb.btype := rfl
          have h2 : nb0.btype = t := rfl
          rw [h1, h2]
          exact hcc
        · have he : pb2.btype = pb.btype := rfl
          rw [he]
          exact hold pb (findBlock_mem hfp) hcold
      · exact hold x hx2 hc
    · intro x hx pp hp
      rcases hmem x hx with rfl | rfl | ⟨hx2, hxp⟩
      · have hppp : pp = p := by
          have : nb0.parentId = some p := rfl
          rw [this] at hp
          cases hp
          rfl
        subst hppp
        refine ⟨pb2, ?_, ?_⟩
        · rw [hfind pp, if_neg (by omega), if_pos rfl]
        · show nb0.id ∈ insertPos pos s.nextId pb.children
          rw [hnb0id]
          exact mem_insertPos.mpr (Or.inl rfl)
      · have hp2 : pb.parentId = some pp := hp
        rcases hwf.parentFwd pb (findBlock_mem hfp) pp hp2 with ⟨ppb, hppb, hppbc⟩
        have hpplt : pp < s.nextId := id_lt_nextId hwf hppb
        by_cases hppeq : pp = p
        · subst hppeq
          rw [hfp] at hppb
          cases hppb
          refine ⟨pb2, ?_, ?_⟩
          · rw [hfind pp, if_neg (by omega), if_pos rfl]
          · show pb2.id ∈ insertPos pos s.nextId pb.children
            rw [hpb2id, hpbid]
            exact mem_insertPos.mpr (Or.inr (by rw [← hpbid]; exact hppbc))
        · refine ⟨ppb, holdfind hppb hppeq, ?_⟩
          show pb2.id ∈ ppb.children
          rw [hpb2id]
          exact hppbc
      · rcases hwf.parentFwd x hx2 pp hp with ⟨ppb, hppb, hppbc⟩
        by_cases hppeq : pp = p
        · subst hppeq
          rw [hfp] at hppb
          cases hppb
          refine ⟨pb2, ?_, ?_⟩
          · rw [hfind pp, if_neg (by omega), if_pos rfl]
          · show x.id ∈ insertPos pos s.nextId pb.children
            exact mem_insertPos.mpr (Or.inr hppbc)
        · exact ⟨ppb, holdfind hppb hppeq, hppbc⟩
    · rw [hroots]
      exact hwf.rootsNodup
    · intro r hr
      rw [hroots] at hr
      rcases hwf.rootsValid r hr with ⟨br, hbr, hbrp⟩
      by_cases hrp : r = p
      · subst hrp
        rw [hfp] at hbr
        cases hbr
        refine ⟨pb2, ?_, ?_⟩
        · rw [hfind r, if_neg (by omega), if_pos rfl]
        · show pb2.parentId = none
          exact hbrp
      · exact ⟨br, holdfind hbr hrp, hbrp⟩
    · intro x hx hxp
      rw [hroots]
      rcases hmem x hx with rfl | rfl | ⟨hx2, _⟩
      · exfalso
        have : nb0.parentId = some p := rfl
        rw [this] at hxp
        cases hxp
      · have : pb2.parentId = pb.parentId := rfl
        rw [this] at hxp
        rw [hpb2id]
        exact hwf.rootsComplete pb (findBlock_mem hfp) hxp
      · exact hwf.rootsComplete x hx2 hxp
    · -- acyclicity via the extension lemma
      have hsub : ∀ c y, ParentEdge s2.blocks c y →
          ParentEdge s.blocks c y ∨ (c = s.nextId ∧ y = p) := by
        intro c y hcy
        rcases hcy with ⟨bb, hbb, hbbp⟩
        rw [hfind c] at hbb
        by_cases hc : c = s.nextId
        · rw [if_pos hc] at hbb
          cases hbb
          have : nb0.parentId = some p := rfl
          rw [this] at hbbp
          cases hbbp
          exact Or.inr ⟨hc, rfl⟩
        · rw [if_neg hc] at hbb
          by_cases hcp : c = p
          · rw [if_pos hcp] at hbb
            cases hbb
            left
            refine ⟨pb, by rw [hcp]; exact hfp, ?_⟩
            have : pb2.parentId = pb.parentId := rfl
            rw [← this]
            exact hbbp
          · rw [if_neg hcp] at hbb
            exact Or.inl ⟨bb, hbb, hbbp⟩
      have hnoin : ∀ x, ¬ ParentEdge s.blocks x s.nextId := by
        intro x hx
        rcases hx with ⟨bx, hbx, hbxp⟩
        rcases hwf.parentFwd bx (findBlock_mem hbx) s.nextId hbxp with
          ⟨pbb, hpbb, _⟩
        rw [findBlock_nextId_none hwf] at hpbb
        cases hpbb
      have hnr : ¬ Relation.ReflTransGen (ParentEdge s.blocks) p s.nextId :=
        not_reach_of_no_in (by omega) hnoin
      exact acyclic_extend hsub hwf.acyclic hnr

/-! ## Move: a general rewiring lemma and preservation -/

/-- Re-pointing one existing block `A` to a new parent (or to the root
set) preserves well-formedness, provided the new store relates to the
old one as a rewiring: same ids, `A`'s parent replaced, `A` removed from
every children array and inserted exactly into the new parent's, `A`
moved accordingly in the root set, and the new parent neither equal to
`A` nor reachable upward to `A`. -/
theorem wf_rewire {reg : Registry} {s s2 : BlockStore} {A : Nat} {b : Block}
    (hwf : Wf reg s)
    (hA : findBlock s.blocks A = some b)
    (np : Option Nat)
    (hnpq : ∀ q, np = some q → ∃ qb, findBlock s.blocks q = some qb ∧
      canHaveChild reg qb.btype b.btype = true ∧
      ¬ Relation.ReflTransGen (ParentEdge s.blocks) q A)
    (hids : s2.blocks.map Block.id = s.blocks.map Block.id)
    (hnext : s2.nextId = s.nextId)
    (hfwd : ∀ c b2, findBlock s2.blocks c = some b2 →
      ∃ b0, findBlock s.blocks c = some b0 ∧ b2.id = b0.id ∧
        b2.btype = b0.btype ∧
        b2.parentId = (if c = A then np else b0.parentId) ∧
        b2.children.Nodup ∧
        (∀ y, y ∈ b2.children ↔
          ((y ∈ b0.children ∧ y ≠ A) ∨ (y = A ∧ np = some c))))
    (hbwd : ∀ c b0, findBlock s.blocks c = some b0 →
      ∃ b2, findBlock s2.blocks c = some b2)
    (hrnodup : s2.roots.Nodup)
    (hrmem : ∀ y, y ∈ s2.roots ↔
      ((y ∈ s.roots ∧ y ≠ A) ∨ (y = A ∧ np = none))) :
    Wf reg s2 := by
  have hnodup2 : (s2.blocks.map Block.id).Nodup := by
    rw [hids]; exact hwf.nodupIds
  have hself : ∀ {x : Block}, x ∈ s2.blocks →
      findBlock s2.blocks x.id = some x :=
    fun hx => findBlock_mem_nodup hnodup2 hx
  have hmemold : ∀ {x : Block}, x ∈ s2.blocks →
      ∃ x0 ∈ s.blocks, x0.id = x.id := by
    intro x hx
    have : x.id ∈ s.blocks.map Block.id := by
      rw [← hids]
      exact List.mem_map_of_mem Block.id hx
    rcases List.mem_map.mp this with ⟨x0, hx0, hx0id⟩
    exact ⟨x0, hx0, hx0id⟩
  constructor
  · exact hnodup2
  · intro x hx
    rcases hmemold hx with ⟨x0, hx0, hx0id⟩
    rw [hnext, ← hx0id]
    exact hwf.idsBound x0 hx0
  · intro x hx
    rcases hfwd x.id x (hself hx) with ⟨b0, _, _, _, _, hnd, _⟩
    exact hnd
  · intro x hx c hc
    rcases hfwd x.id x (hself hx) with ⟨b0, hb0, hxid, _, _, _, hiff⟩
    rcases (hiff c).mp hc with ⟨hcold, hcA⟩ | ⟨rfl, hnpx⟩
    · rcases hwf.childBack b0 (findBlock_mem hb0) c hcold with ⟨cb0, hcb0, hcb0p⟩
      rcases hbwd c cb0 hcb0 with ⟨cb2, hcb2⟩
      rcases hfwd c cb2 hcb2 with ⟨cb0x, hcb0x, _, _, hcbp, _, _⟩
      rw [hcb0] at hcb0x
      cases hcb0x
      refine ⟨cb2, hcb2, ?_⟩
      rw [hcbp, if_neg hcA, hcb0p, hxid]
    · rcases hbwd c b hA with ⟨ab2, hab2⟩
      rcases hfwd c ab2 hab2 with ⟨ab0, _, _, _, habp, _, _⟩
      refine ⟨ab2, hab2, ?_⟩
      rw [habp, if_pos rfl, hnpx, hxid]
  · intro x hx c hc cb hcb
    rcases hfwd x.id x (hself hx) with ⟨b0, hb0, hxid, hxty, _, _, hiff⟩
    rcases hfwd c cb hcb with ⟨cb0, hcb0, _, hcty, _, _, _⟩
    rcases (hiff c).mp hc with ⟨hcold, _⟩ | ⟨rfl, hnpx⟩
    · rw [hxty, hcty]
      exact hwf.typesLegal b0 (findBlock_mem hb0) c hcold cb0 hcb0
    · rw [hA] at hcb0
      cases hcb0
      rcases hnpq x.id hnpx with ⟨qb, hqb, hqcc, _⟩
      rw [hb0] at hqb
      cases hqb
      rw [hxty, hcty]
      exact hqcc
  · intro x hx pp hp
    rcases hfwd x.id x (hself hx) with ⟨b0, hb0, hxid, _, hxpar, _, _⟩
    by_cases hxA : x.id = A
    · rw [hxpar, if_pos hxA] at hp
      rcases hnpq pp hp with ⟨qb, hqb, _, _⟩
      rcases hbwd pp qb hqb with ⟨qb2, hqb2⟩
      rcases hfwd pp qb2 hqb2 with ⟨qb0, hqb0, _, _, _, _, hqiff⟩
      refine ⟨qb2, hqb2, ?_⟩
      rw [hxA]
      exact (hqiff A).mpr (Or.inr ⟨rfl, hp⟩)
    · rw [hxpar, if_neg hxA] at hp
      rcases hwf.parentFwd b0 (findBlock_mem hb0) pp hp with ⟨ppb, hppb, hppbc⟩
      rcases hbwd pp ppb hppb with ⟨ppb2, hppb2⟩
      rcases hfwd pp ppb2 hppb2 with ⟨ppb0, hppb0, _, _, _, _, hpiff⟩
      rw [hppb] at hppb0
      cases hppb0
      refine ⟨ppb2, hppb2, ?_⟩
      refine (hpiff x.id).mpr (Or.inl ⟨?_, hxA⟩)
      rw [hxid]
      exact hppbc
  · exact hrnodup
  · intro r hr
    rcases (hrmem r).mp hr with ⟨hrold, hrA⟩ | ⟨rfl, hnpn⟩
    · rcases hwf.rootsValid r hrold with ⟨br, hbr, hbrp⟩
      rcases hbwd r br hbr with ⟨br2, hbr2⟩
      rcases hfwd r br2 hbr2 with ⟨br0, hbr0, _, _, hbrpar, _, _⟩
      rw [hbr] at hbr0
      cases hbr0
      refine ⟨br2, hbr2, ?_⟩
      rw [hbrpar, if_neg hrA, hbrp]
    · rcases hbwd r b hA with ⟨ab2, hab2⟩
      rcases hfwd r ab2 hab2 with ⟨ab0, _, _, _, habp, _, _⟩
      refine ⟨ab2, hab2, ?_⟩
      rw [habp, if_pos rfl, hnpn]
  · intro x hx hxp
    rcases hfwd x.id x (hself hx) with ⟨b0, hb0, hxid, _, hxpar, _, _⟩
    by_cases hxA : x.id = A
    · rw [hxpar, if_pos hxA] at hxp
      exact (hrmem x.id).mpr (Or.inr ⟨hxA, hxp⟩)
    · rw [hxpar, if_neg hxA] at hxp
      refine (hrmem x.id).mpr (Or.inl ⟨?_, hxA⟩)
      rw [hxid]
      exact hwf.rootsComplete b0 (findBlock_mem hb0) hxp
  · cases hnp : np with
    | none =>
      intro z hz
      apply hwf.acyclic z
      refine Relation.TransGen.mono ?_ hz
      intro a c hac
      rcases hac with ⟨bb, hbb, hbbp⟩
      rcases hfwd a bb hbb with ⟨b0, hb0, _, _, hbpar, _, _⟩
      by_cases haA : a = A
      · rw [hbpar, if_pos haA, hnp] at hbbp
        cases hbbp
      · rw [hbpar, if_neg haA] at hbbp
        exact ⟨b0, hb0, hbbp⟩
    | some q =>
      rcases hnpq q hnp with ⟨qb, hqb, _, hnr⟩
      have hsub : ∀ x y, ParentEdge s2.blocks x y →
          ParentEdge s.blocks x y ∨ (x = A ∧ y = q) := by
        intro x y hxy
        rcases hxy with ⟨bb, hbb, hbbp⟩
        rcases hfwd x bb hbb with ⟨b0, hb0, _, _, hbpar, _, _⟩
        by_cases hxA : x = A
        · rw [hbpar, if_pos hxA, hnp] at hbbp
          cases hbbp
          exact Or.inr ⟨hxA, rfl⟩
        · rw [hbpar, if_neg hxA] at hbbp
          exact Or.inl ⟨b0, hb0, hbbp⟩
      exact acyclic_extend hsub hwf.acyclic hnr

theorem removeChild_find (p i now : Nat) (bs : List Block) (c : Nat) :
    findBlock (removeChild p i now bs) c =
      if c = p then
        (findBlock bs c).map (fun x =>
          { x with children := removeNat i x.children, updatedAt := now })
      else findBlock bs c := by
  unfold removeChild
  exact @findBlock_map_ite p
    (fun x => { x with children := removeNat i x.children, updatedAt := now })
    (fun _ => rfl) bs c

theorem setParent_find (bs : List Block) (i : Nat) (np : Option Nat)
    (now : Nat) (c : Nat) :
    findBlock (setParent bs i np now) c =
      if c = i then
        (findBlock bs c).map (fun x =>
          { x with parentId := np, updatedAt := now })
      else findBlock bs c := by
  unfold setParent
  exact @findBlock_map_ite i
    (fun x => { x with parentId := np, updatedAt := now })
    (fun _ => rfl) bs c

theorem attachBlocks_find_some (bs : List Block) (i q : Nat)
    (pos : Option Nat) (now : Nat) (c : Nat) :
    findBlock (attachBlocks bs i (some q) pos now) c =
      if c = q then
        (findBlock bs c).map (withChildInserted pos i now)
      else findBlock bs c := by
  unfold attachBlocks
  exact @findBlock_map_ite q (withChildInserted pos i now) (fun _ => rfl) bs c

theorem removeChild_ids (p i now : Nat) (bs : List Block) :
    (removeChild p i now bs).map Block.id = bs.map Block.id := by
  unfold removeChild
  exact @map_ids_ite p
    (fun x => { x with children := removeNat i x.children, updatedAt := now })
    (fun _ => rfl) bs

theorem setParent_ids (bs : List Block) (i : Nat) (np : Option Nat)
    (now : Nat) :
    (setParent bs i np now).map Block.id = bs.map Block.id := by
  unfold setParent
  exact @map_ids_ite i
    (fun x => { x with parentId := np, updatedAt := now })
    (fun _ => rfl) bs

theorem attachBlocks_ids (bs : List Block) (i : Nat) (np : Option Nat)
    (pos : Option Nat) (now : Nat) :
    (attachBlocks bs i np pos now).map Block.id = bs.map Block.id := by
  cases np with
  | none => rfl
  | some q =>
    unfold attachBlocks
    exact @map_ids_ite q (withChildInserted pos i now) (fun _ => rfl) bs

theorem detachBlocks_ids (bs : List Block) (b : Block) (now : Nat) :
    (detachBlocks bs b now).map Block.id = bs.map Block.id := by
  unfold detachBlocks
  cases b.parentId with
  | none => rfl
  | some p => exact removeChild_ids p b.id now bs

/-- Inversion of a successful `move`. -/
theorem move_ok_inv {reg : Registry} {s : BlockStore} {i : Nat}
    {np : Option Nat} {pos : Option Nat} {now : Nat} {s2 : BlockStore}
    (h : move reg s i np pos now = .ok s2) :
    ∃ b, findBlock s.blocks i = some b ∧ s2 = moveApply s b np pos now ∧
      (np = none ∨ ∃ q qb, np = some q ∧ findBlock s.blocks q = some qb ∧
        ¬ (q = i ∨ i ∈ getAncestors s.blocks q) ∧
        canHaveChild reg qb.btype b.btype = true) := by
  unfold move at h
  cases hf : findBlock s.blocks i with
  | none => rw [hf] at h; cases h
  | some b =>
    rw [hf] at h
    dsimp only at h
    cases np with
    | none =>
      cases h
      exact ⟨b, rfl, rfl, Or.inl rfl⟩
    | some q =>
      dsimp only at h
      cases hq : findBlock s.blocks q with
      | none => rw [hq] at h; cases h
      | some qb =>
        rw [hq] at h
        dsimp only at h
        by_cases hcyc : q = i ∨ i ∈ getAncestors s.blocks q
        · rw [if_pos hcyc] at h
          cases h
        · rw [if_neg hcyc] at h
          by_cases hcc : canHaveChild reg qb.btype b.btype = true
          · rw [if_pos hcc] at h
            cases h
            exact ⟨b, rfl, rfl, Or.inr ⟨q, qb, rfl, hq, hcyc, hcc⟩⟩
          · rw [if_neg hcc] at h
            cases h

/-- On a well-formed store a block is never its own parent. -/
theorem no_self_parent {reg : Registry} {s : BlockStore} (hwf : Wf reg s)
    {i : Nat} {b : Block} (hb : findBlock s.blocks i = some b) :
    b.parentId ≠ some i := by
  intro hp
  exact hwf.acyclic i (Relation.TransGen.single ⟨b, hb, hp⟩)

/-- The id of a block occurs in another block's children array only for
its actual parent. -/
theorem child_unique {reg : Registry} {s : BlockStore} (hwf : Wf reg s)
    {i : Nat} {b : Block} (hb : findBlock s.blocks i = some b)
    {x : Block} (hx : x ∈ s.blocks) (hc : i ∈ x.children) :
    b.parentId = some x.id := by
  rcases hwf.childBack x hx i hc with ⟨cb, hcb, hcbp⟩
  rw [hb] at hcb
  cases hcb
  exact hcbp

/-- A parented block is not in the root set. -/
theorem parented_not_root {reg : Registry} {s : BlockStore} (hwf : Wf reg s)
    {i : Nat} {b : Block} (hb : findBlock s.blocks i = some b)
    {p : Nat} (hp : b.parentId = some p) : i ∉ s.roots := by
  intro hr
  rcases hwf.rootsValid i hr with ⟨br, hbr, hbrp⟩
  rw [hb] at hbr
  cases hbr
  rw [hp] at hbrp
  cases hbrp

theorem not_child_of_ne {reg : Registry} {s : BlockStore} (hwf : Wf reg s)
    {A : Nat} {b : Block} (hA : findBlock s.blocks A = some b)
    {x : Block} (hx : x ∈ s.blocks) (hne : b.parentId ≠ some x.id) :
    A ∉ x.children :=
  fun hc => hne (child_unique hwf hA hx hc)

/-- Move preserves well-formedness. -/
theorem wf_move {reg : Registry} {s : BlockStore} {i : Nat}
    {np pos : Option Nat} {now : Nat} {s2 : BlockStore} (hwf : Wf reg s)
    (h : move reg s i np pos now = .ok s2) : Wf reg s2 := by
  rcases move_ok_inv h with ⟨b, hb, hs2, hcond⟩
  have hbid : b.id = i := findBlock_id_eq hb
  have hA : findBlock s.blocks b.id = some b := by rw [hbid]; exact hb
  subst hs2
  have hblocks : (moveApply s b np pos now).blocks =
      setParent (attachBlocks (detachBlocks s.blocks b now) b.id np pos now)
        b.id np now := rfl
  have hrootsq : (moveApply s b np pos now).roots =
      attachRoots (detachRoots s.roots b) b.id np pos := rfl
  rcases hcond with hnone | ⟨q, qb, hnp, hq, hcyc, hcc⟩
  · subst hnone
    cases hbp : b.parentId with
    | none =>
      -- root to root: reorder within the root set
      have hdet : detachBlocks s.blocks b now = s.blocks := by
        unfold detachBlocks; rw [hbp]
      have hdetr : detachRoots s.roots b = removeNat b.id s.roots := by
        unfold detachRoots; rw [hbp]
      have hAnotchild : ∀ x ∈ s.blocks, b.id ∉ x.children := by
        intro x hx
        apply not_child_of_ne hwf hA hx
        rw [hbp]
        intro hcon
        cases hcon
      have hfindAll : ∀ c, findBlock (moveApply s b none pos now).blocks c =
          if c = b.id then
            (findBlock s.blocks c).map
              (fun x => { x with parentId := none, updatedAt := now })
          else findBlock s.blocks c := by
        intro c
        rw [hblocks, hdet]
        exact setParent_find (attachBlocks s.blocks b.id none pos now)
          b.id none now c
      refine wf_rewire hwf hA none (fun q0 hq0 => by cases hq0) ?_ rfl
        ?_ ?_ ?_ ?_
      · rw [hblocks, hdet]
        exact setParent_ids (attachBlocks s.blocks b.id none pos now)
          b.id none now
      · intro c b2 h2
        rw [hfindAll c] at h2
        by_cases hcA : c = b.id
        · rw [if_pos hcA, hcA, hA] at h2
          simp only [Option.map_some'] at h2
          cases h2
          refine ⟨b, by rw [hcA]; exact hA, rfl, rfl, ?_, ?_, ?_⟩
          · show (none : Option Nat) = if c = b.id then none else b.parentId
            rw [if_pos hcA]
          · exact hwf.childNodup b (findBlock_mem hA)
          · intro y
            show y ∈ b.children ↔ _
            constructor
            · intro hy
              refine Or.inl ⟨hy, ?_⟩
              intro hyA
              exact hAnotchild b (findBlock_mem hA) (hyA ▸ hy)
            · rintro (⟨hy, _⟩ | ⟨_, hcon⟩)
              · exact hy
              · cases hcon
        · rw [if_neg hcA] at h2
          refine ⟨b2, h2, rfl, rfl, by rw [if_neg hcA],
            hwf.childNodup b2 (findBlock_mem h2), ?_⟩
          intro y
          constructor
          · intro hy
            refine Or.inl ⟨hy, ?_⟩
            intro hyA
            exact hAnotchild b2 (findBlock_mem h2) (hyA ▸ hy)
          · rintro (⟨hy, _⟩ | ⟨_, hcon⟩)
            · exact hy
            · cases hcon
      · intro c b0 h0
        rw [hfindAll c]
        by_cases hcA : c = b.id
        · rw [if_pos hcA]
          exact ⟨_, by rw [h0]; rfl⟩
        · rw [if_neg hcA]
          exact ⟨b0, h0⟩
      · rw [hrootsq, hdetr]
        show (insertPos pos b.id (removeNat b.id s.roots)).Nodup
        apply insertPos_nodup
        · intro hm
          exact (mem_removeNat.mp hm).2 rfl
        · exact removeNat_nodup hwf.rootsNodup
      · intro y
        rw [hrootsq, hdetr]
        show y ∈ insertPos pos b.id (removeNat b.id s.roots) ↔ _
        rw [mem_insertPos, mem_removeNat]
        constructor
        · rintro (hy | ⟨hy, hne⟩)
          · exact Or.inr ⟨hy, rfl⟩
          · exact Or.inl ⟨hy, hne⟩
        · rintro (⟨hy, hne⟩ | ⟨hy, _⟩)
          · exact Or.inr ⟨hy, hne⟩
          · exact Or.inl hy
    | some p =>
      -- parented to root
      have hdet : detachBlocks s.blocks b now = removeChild p b.id now s.blocks := by
        unfold detachBlocks; rw [hbp]
      have hdetr : detachRoots s.roots b = s.roots := by
        unfold detachRoots; rw [hbp]
      have hpA : p ≠ b.id := by
        intro he
        exact no_self_parent hwf hA (by rw [hbp, he])
      rcases hwf.parentFwd b (findBlock_mem hA) p hbp with ⟨pb, hpb, hpbc⟩
      have hAnotchild : ∀ x ∈ s.blocks, x.id ≠ p → b.id ∉ x.children := by
        intro x hx hxp
        apply not_child_of_ne hwf hA hx
        rw [hbp]
        intro hcon
        cases hcon
        exact hxp rfl
      have hAnotroot : b.id ∉ s.roots := parented_not_root hwf hA hbp
      have hfindAll : ∀ c, findBlock (moveApply s b none pos now).blocks c =
          if c = b.id then
            (findBlock s.blocks c).map
              (fun x => { x with parentId := none, updatedAt := now })
          else if c = p then
            (findBlock s.blocks c).map
              (fun x => { x with children := removeNat b.id x.children,
                                 updatedAt := now })
          else findBlock s.blocks c := by
        intro c
        rw [hblocks, hdet]
        rw [setParent_find (attachBlocks (removeChild p b.id now s.blocks)
          b.id none pos now) b.id none now c]
        by_cases hcA : c = b.id
        · rw [if_pos hcA, if_pos hcA]
          show (findBlock (removeChild p b.id now s.blocks) c).map _ = _
          rw [removeChild_find, if_neg (by rw [hcA]; exact fun he => hpA he.symm)]
        · rw [if_neg hcA, if_neg hcA]
          show findBlock (removeChild p b.id now s.blocks) c = _
          rw [removeChild_find]
      refine wf_rewire hwf hA none (fun q0 hq0 => by cases hq0) ?_ rfl
        ?_ ?_ ?_ ?_
      · rw [hblocks, hdet]
        calc (setParent (attachBlocks (removeChild p b.id now s.blocks)
            b.id none pos now) b.id none now).map Block.id
            = (removeChild p b.id now s.blocks).map Block.id :=
              setParent_ids _ b.id none now
          _ = s.blocks.map Block.id := removeChild_ids p b.id now s.blocks
      · intro c b2 h2
        rw [hfindAll c] at h2
        by_cases hcA : c = b.id
        · rw [if_pos hcA, hcA, hA] at h2
          simp only [Option.map_some'] at h2
          cases h2
          refine ⟨b, by rw [hcA]; exact hA, rfl, rfl, ?_, ?_, ?_⟩
          · show (none : Option Nat) = if c = b.id then none else b.parentId
            rw [if_pos hcA]
          · exact hwf.childNodup b (findBlock_mem hA)
          · intro y
            show y ∈ b.children ↔ _
            constructor
            · intro hy
              refine Or.inl ⟨hy, ?_⟩
              intro hyA
              have := child_unique hwf hA (findBlock_mem hA) (hyA ▸ hy)
              rw [hbp] at this
              cases this
              exact hpA rfl
            · rintro (⟨hy, _⟩ | ⟨_, hcon⟩)
              · exact hy
              · cases hcon
        · rw [if_neg hcA] at h2
          by_cases hcp : c = p
          · rw [if_pos hcp, hcp, hpb] at h2
            simp only [Option.map_some'] at h2
            cases h2
            refine ⟨pb, by rw [hcp]; exact hpb, rfl, rfl, ?_, ?_, ?_⟩
            · show pb.parentId = if c = b.id then none else pb.parentId
              rw [if_neg hcA]
            · show (removeNat b.id pb.children).Nodup
              exact removeNat_nodup (hwf.childNodup pb (findBlock_mem hpb))
            · intro y
              show y ∈ removeNat b.id pb.children ↔ _
              rw [mem_removeNat]
              constructor
              · rintro ⟨hy, hne⟩
                exact Or.inl ⟨hy, hne⟩
              · rintro (⟨hy, hne⟩ | ⟨_, hcon⟩)
                · exact ⟨hy, hne⟩
                · cases hcon
          · rw [if_neg hcp] at h2
            refine ⟨b2, h2, rfl, rfl, by rw [if_neg hcA],
              hwf.childNodup b2 (findBlock_mem h2), ?_⟩
            intro y
            constructor
            · intro hy
              refine Or.inl ⟨hy, ?_⟩
              intro hyA
              apply hAnotchild b2 (findBlock_mem h2) ?_ (hyA ▸ hy)
              rw [findBlock_id_eq h2]
              exact hcp
            · rintro (⟨hy, _⟩ | ⟨_, hcon⟩)
              · exact hy
              · cases hcon
      · intro c b0 h0
        rw [hfindAll c]
        by_cases hcA : c = b.id
        · rw [if_pos hcA]
          exact ⟨_, by rw [h0]; rfl⟩
        · rw [if_neg hcA]
          by_cases hcp : c = p
          · rw [if_pos hcp]
            exact ⟨_, by rw [h0]; rfl⟩
          · rw [if_neg hcp]
            exact ⟨b0, h0⟩
      · rw [hrootsq, hdetr]
        show (insertPos pos b.id s.roots).Nodup
        exact insertPos_nodup hAnotroot hwf.rootsNodup
      · intro y
        rw [hrootsq, hdetr]
        show y ∈ insertPos pos b.id s.roots ↔ _
        rw [mem_insertPos]
        constructor
        · rintro (hy | hy)
          · exact Or.inr ⟨hy, rfl⟩
          · by_cases hyA : y = b.id
            · exact Or.inr ⟨hyA, rfl⟩
            · exact Or.inl ⟨hy, hyA⟩
        · rintro (⟨hy, _⟩ | ⟨hy, _⟩)
          · exact Or.inr hy
          · exact Or.inl hy
  · -- moving under a new parent q
    subst hnp
    have hqbid : qb.id = q := findBlock_id_eq hq
    have hqA : q ≠ b.id := by
      intro he
      exact hcyc (Or.inl (by rw [he, hbid]))
    have hnr : ¬ Relation.ReflTransGen (ParentEdge s.blocks) q b.id := by
      intro hreach
      rcases reach_imp_mem_ancestors hwf.nodupIds hwf.parentFwd hwf.acyclic
        ⟨qb, hq⟩ (hbid ▸ hreach) with he | hmem
      · exact hcyc (Or.inl he.symm)
      · exact hcyc (Or.inr hmem)
    have hnpq : ∀ q0, (some q : Option Nat) = some q0 →
        ∃ qb0, findBlock s.blocks q0 = some qb0 ∧
          canHaveChild reg qb0.btype b.btype = true ∧
          ¬ Relation.ReflTransGen (ParentEdge s.blocks) q0 b.id := by
      intro q0 hq0
      cases hq0
      exact ⟨qb, hq, hcc, hnr⟩
    cases hbp : b.parentId with
    | none =>
      -- root moved under a parent
      have hdet : detachBlocks s.blocks b now = s.blocks := by
        unfold detachBlocks; rw [hbp]
      have hdetr : detachRoots s.roots b = removeNat b.id s.roots := by
        unfold detachRoots; rw [hbp]
      have hAnotchild : ∀ x ∈ s.blocks, b.id ∉ x.children := by
        intro x hx
        apply not_child_of_ne hwf hA hx
        rw [hbp]
        intro hcon
        cases hcon
      have hfindAll : ∀ c, findBlock (moveApply s b (some q) pos now).blocks c =
          if c = b.id then
            (findBlock s.blocks c).map
              (fun x => { x with parentId := some q, updatedAt := now })
          else if c = q then
            (findBlock s.blocks c).map (withChildInserted pos b.id now)
          else findBlock s.blocks c := by
        intro c
        rw [hblocks, hdet]
        rw [setParent_find (attachBlocks s.blocks b.id (some q) pos now)
          b.id (some q) now c]
        by_cases hcA : c = b.id
        · rw [if_pos hcA, if_pos hcA]
          show (findBlock (attachBlocks s.blocks b.id (some q) pos now) c).map _ = _
          rw [attachBlocks_find_some, if_neg (by rw [hcA]; exact fun he => hqA he.symm)]
        · rw [if_neg hcA, if_neg hcA]
          show findBlock (attachBlocks s.blocks b.id (some q) pos now) c = _
          rw [attachBlocks_find_some]
      refine wf_rewire hwf hA (some q) hnpq ?_ rfl ?_ ?_ ?_ ?_
      · rw [hblocks, hdet]
        calc (setParent (attachBlocks s.blocks b.id (some q) pos now)
            b.id (some q) now).map Block.id
            = (attachBlocks s.blocks b.id (some q) pos now).map Block.id :=
              setParent_ids _ b.id (some q) now
          _ = s.blocks.map Block.id := attachBlocks_ids s.blocks b.id (some q) pos now
      · intro c b2 h2
        rw [hfindAll c] at h2
        by_cases hcA : c = b.id
        · rw [if_pos hcA, hcA, hA] at h2
          simp only [Option.map_some'] at h2
          cases h2
          refine ⟨b, by rw [hcA]; exact hA, rfl, rfl, ?_, ?_, ?_⟩
          · show (some q : Option Nat) = if c = b.id then some q else b.parentId
            rw [if_pos hcA]
          · exact hwf.childNodup b (findBlock_mem hA)
          · intro y
            show y ∈ b.children ↔ _
            constructor
            · intro hy
              refine Or.inl ⟨hy, ?_⟩
              intro hyA
              exact hAnotchild b (findBlock_mem hA) (hyA ▸ hy)
            · rintro (⟨hy, _⟩ | ⟨hyA, hcon⟩)
              · exact hy
              · cases hcon
                exact absurd hcA hqA
        · rw [if_neg hcA] at h2
          by_cases hcq : c = q
          · rw [if_pos hcq, hcq, hq] at h2
            simp only [Option.map_some'] at h2
            cases h2
            refine ⟨qb, by rw [hcq]; exact hq, rfl, rfl, ?_, ?_, ?_⟩
            · show qb.parentId = if c = b.id then some q else qb.parentId
              rw [if_neg hcA]
            · show (insertPos pos b.id qb.children).Nodup
              exact insertPos_nodup (hAnotchild qb (findBlock_mem hq))
                (hwf.childNodup qb (findBlock_mem hq))
            · intro y
              show y ∈ insertPos pos b.id qb.children ↔ _
              rw [mem_insertPos]
              constructor
              · rintro (hyA | hy)
                · exact Or.inr ⟨hyA, by rw [hcq]⟩
                · refine Or.inl ⟨hy, ?_⟩
                  intro hyA
                  exact hAnotchild qb (findBlock_mem hq) (hyA ▸ hy)
              · rintro (⟨hy, _⟩ | ⟨hyA, _⟩)
                · exact Or.inr hy
                · exact Or.inl hyA
          · rw [if_neg hcq] at h2
            refine ⟨b2, h2, rfl, rfl, by rw [if_neg hcA],
              hwf.childNodup b2 (findBlock_mem h2), ?_⟩
            intro y
            constructor
            · intro hy
              refine Or.inl ⟨hy, ?_⟩
              intro hyA
              exact hAnotchild b2 (findBlock_mem h2) (hyA ▸ hy)
            · rintro (⟨hy, _⟩ | ⟨hyA, hcon⟩)
              · exact hy
              · cases hcon
                exact absurd rfl hcq
      · intro c b0 h0
        rw [hfindAll c]
        by_cases hcA : c = b.id
        · rw [if_pos hcA]
          exact ⟨_, by rw [h0]; rfl⟩
        · rw [if_neg hcA]
          by_cases hcq : c = q
          · rw [if_pos hcq]
            exact ⟨_, by rw [h0]; rfl⟩
          · rw [if_neg hcq]
            exact ⟨b0, h0⟩
      · rw [hrootsq, hdetr]
        show (removeNat b.id s.roots).Nodup
        exact removeNat_nodup hwf.rootsNodup
      · intro y
        rw [hrootsq, hdetr]
        show y ∈ removeNat b.id s.roots ↔ _
        rw [mem_removeNat]
        constructor
        · rintro ⟨hy, hne⟩
          exact Or.inl ⟨hy, hne⟩
        · rintro (⟨hy, hne⟩ | ⟨_, hcon⟩)
          · exact ⟨hy, hne⟩
          · cases hcon
    | some p =>
      -- reparenting from p to q (possibly p = q)
      have hdet : detachBlocks s.blocks b now = removeChild p b.id now s.blocks := by
        unfold detachBlocks; rw [hbp]
      have hdetr : detachRoots s.roots b = s.roots := by
        unfold detachRoots; rw [hbp]
      have hpA : p ≠ b.id := by
        intro he
        exact no_self_parent hwf hA (by rw [hbp, he])
      rcases hwf.parentFwd b (findBlock_mem hA) p hbp with ⟨pb, hpb, hpbc⟩
      have hAnotchild : ∀ x ∈ s.blocks, x.id ≠ p → b.id ∉ x.children := by
        intro x hx hxp
        apply not_child_of_ne hwf hA hx
        rw [hbp]
        intro hcon
        cases hcon
        exact hxp rfl
      have hAnotroot : b.id ∉ s.roots := parented_not_root hwf hA hbp
      have hfindAll : ∀ c, findBlock (moveApply s b (some q) pos now).blocks c =
          if c = b.id then
            (findBlock s.blocks c).map
              (fun x => { x with parentId := some q, updatedAt := now })
          else if c = q then
            (findBlock (removeChild p b.id now s.blocks) c).map
              (withChildInserted pos b.id now)
          else if c = p then
            (findBlock s.blocks c).map
              (fun x => { x with children := removeNat b.id x.children,
                                 updatedAt := now })
          else findBlock s.blocks c := by
        intro c
        rw [hblocks, hdet]
        rw [setParent_find (attachBlocks (removeChild p b.id now s.blocks)
          b.id (some q) pos now) b.id (some q) now c]
        by_cases hcA : c = b.id
        · rw [if_pos hcA, if_pos hcA]
          show (findBlock (attachBlocks (removeChild p b.id now s.blocks)
            b.id (some q) pos now) c).map _ = _
          rw [attachBlocks_find_some,
            if_neg (by rw [hcA]; exact fun he => hqA he.symm),
            removeChild_find, if_neg (by rw [hcA]; exact fun he => hpA he.symm)]
        · rw [if_neg hcA, if_neg hcA]
          show findBlock (attachBlocks (removeChild p b.id now s.blocks)
            b.id (some q) pos now) c = _
          rw [attachBlocks_find_some]
          by_cases hcq : c = q
          · rw [if_pos hcq, if_pos hcq]
          · rw [if_neg hcq, if_neg hcq, removeChild_find]
      refine wf_rewire hwf hA (some q) hnpq ?_ rfl ?_ ?_ ?_ ?_
      · rw [hblocks, hdet]
        calc (setParent (attachBlocks (removeChild p b.id now s.blocks)
            b.id (some q) pos now) b.id (some q) now).map Block.id
            = (attachBlocks (removeChild p b.id now s.blocks)
                b.id (some q) pos now).map Block.id :=
              setParent_ids _ b.id (some q) now
          _ = (removeChild p b.id now s.blocks).map Block.id :=
              attachBlocks_ids _ b.id (some q) pos now
          _ = s.blocks.map Block.id := removeChild_ids p b.id now s.blocks
      · intro c b2 h2
        rw [hfindAll c] at h2
        by_cases hcA : c = b.id
        · rw [if_pos hcA, hcA, hA] at h2
          simp only [Option.map_some'] at h2
          cases h2
          refine ⟨b, by rw [hcA]; exact hA, rfl, rfl, ?_, ?_, ?_⟩
          · show (some q : Option Nat) = if c = b.id then some q else b.parentId
            rw [if_pos hcA]
          · exact hwf.childNodup b (findBlock_mem hA)
          · intro y
            show y ∈ b.children ↔ _
            constructor
            · intro hy
              refine Or.inl ⟨hy, ?_⟩
              intro hyA
              have := child_unique hwf hA (findBlock_mem hA) (hyA ▸ hy)
              rw [hbp] at this
              cases this
              exact hpA rfl
            · rintro (⟨hy, _⟩ | ⟨hyA, hcon⟩)
              · exact hy
              · cases hcon
                exact absurd hcA hqA
        · rw [if_neg hcA] at h2
          by_cases hcq : c = q
          · rw [if_pos hcq] at h2
            rw [removeChild_find] at h2
            by_cases hqp : q = p
            · rw [if_pos (hcq.trans hqp), hcq, hq] at h2
              simp only [Option.map_some'] at h2
              cases h2
              refine ⟨qb, by rw [hcq]; exact hq, rfl, rfl, ?_, ?_, ?_⟩
              · show qb.parentId = if c = b.id then some q else qb.parentId
                rw [if_neg hcA]
              · show (insertPos pos b.id (removeNat b.id qb.children)).Nodup
                apply insertPos_nodup
                · intro hm
                  exact (mem_removeNat.mp hm).2 rfl
                · exact removeNat_nodup (hwf.childNodup qb (findBlock_mem hq))
              · intro y
                show y ∈ insertPos pos b.id (removeNat b.id qb.children) ↔ _
                rw [mem_insertPos, mem_removeNat]
                constructor
                · rintro (hyA | ⟨hy, hne⟩)
                  · exact Or.inr ⟨hyA, by rw [hcq]⟩
                  · exact Or.inl ⟨hy, hne⟩
                · rintro (⟨hy, hne⟩ | ⟨hyA, _⟩)
                  · exact Or.inr ⟨hy, hne⟩
                  · exact Or.inl hyA
            · rw [if_neg (fun he => hqp (hcq.symm.trans he)), hcq, hq] at h2
              simp only [Option.map_some'] at h2
              cases h2
              refine ⟨qb, by rw [hcq]; exact hq, rfl, rfl, ?_, ?_, ?_⟩
              · show qb.parentId = if c = b.id then some q else qb.parentId
                rw [if_neg hcA]
              · show (insertPos pos b.id qb.children).Nodup
                apply insertPos_nodup
                · exact hAnotchild qb (findBlock_mem hq) (by rw [hqbid]; exact hqp)
                · exact hwf.childNodup qb (findBlock_mem hq)
              · intro y
                show y ∈ insertPos pos b.id qb.children ↔ _
                rw [mem_insertPos]
                constructor
                · rintro (hyA | hy)
                  · exact Or.inr ⟨hyA, by rw [hcq]⟩
                  · refine Or.inl ⟨hy, ?_⟩
                    intro hyA
                    exact hAnotchild qb (findBlock_mem hq)
                      (by rw [hqbid]; exact hqp) (hyA ▸ hy)
                · rintro (⟨hy, _⟩ | ⟨hyA, _⟩)
                  · exact Or.inr hy
                  · exact Or.inl hyA
          · rw [if_neg hcq] at h2
            by_cases hcp : c = p
            · rw [if_pos hcp, hcp, hpb] at h2
              simp only [Option.map_some'] at h2
              cases h2
              refine ⟨pb, by rw [hcp]; exact hpb, rfl, rfl, ?_, ?_, ?_⟩
              · show pb.parentId = if c = b.id then some q else pb.parentId
                rw [if_neg hcA]
              · show (removeNat b.id pb.children).Nodup
                exact removeNat_nodup (hwf.childNodup pb (findBlock_mem hpb))
              · intro y
                show y ∈ removeNat b.id pb.children ↔ _
                rw [mem_removeNat]
                constructor
                · rintro ⟨hy, hne⟩
                  exact Or.inl ⟨hy, hne⟩
                · rintro (⟨hy, hne⟩ | ⟨hyA, hcon⟩)
                  · exact ⟨hy, hne⟩
                  · cases hcon
                    exact absurd rfl hcq
            · rw [if_neg hcp] at h2
              refine ⟨b2, h2, rfl, rfl, by rw [if_neg hcA],
                hwf.childNodup b2 (findBlock_mem h2), ?_⟩
              intro y
              constructor
              · intro hy
                refine Or.inl ⟨hy, ?_⟩
                intro hyA
                apply hAnotchild b2 (findBlock_mem h2) ?_ (hyA ▸ hy)
                rw [findBlock_id_eq h2]
                exact hcp
              · rintro (⟨hy, _⟩ | ⟨hyA, hcon⟩)
                · exact hy
                · cases hcon
                  exact absurd rfl hcq
      · intro c b0 h0
        rw [hfindAll c]
        by_cases hcA : c = b.id
        · rw [if_pos hcA]
          exact ⟨_, by rw [h0]; rfl⟩
        · rw [if_neg hcA]
          by_cases hcq : c = q
          · rw [if_pos hcq, removeChild_find]
            by_cases hcp : c = p
            · rw [if_pos hcp]
              exact ⟨_, by rw [h0]; rfl⟩
            · rw [if_neg hcp]
              exact ⟨_, by rw [h0]; rfl⟩
          · rw [if_neg hcq]
            by_cases hcp : c = p
            · rw [if_pos hcp]
              exact ⟨_, by rw [h0]; rfl⟩
            · rw [if_neg hcp]
              exact ⟨b0, h0⟩
      · rw [hrootsq, hdetr]
        exact hwf.rootsNodup
      · intro y
        rw [hrootsq, hdetr]
        show y ∈ s.roots ↔ _
        constructor
        · intro hy
          refine Or.inl ⟨hy, ?_⟩
          intro hyA
          exact hAnotroot (hyA ▸ hy)
        · rintro (⟨hy, _⟩ | ⟨_, hcon⟩)
          · exact hy
          · cases hcon

/-! ## Delete: inversion and preservation -/

/-- Inversion of a successful `delete`. -/
theorem delete_ok_inv {s : BlockStore} {i : Nat} {dc : Bool} {now : Nat}
    {s2 : BlockStore} (h : delete s i dc now = .ok s2) :
    ∃ b, findBlock s.blocks i = some b ∧ s2 = deleteApply s b now := by
  unfold delete at h
  cases hf : findBlock s.blocks i with
  | none => rw [hf] at h; cases h
  | some b =>
    rw [hf] at h
    dsimp only at h
    by_cases hg : (!dc && !b.children.isEmpty) = true
    · rw [if_pos hg] at h
      cases h
    · rw [if_neg hg] at h
      cases h
      exact ⟨b, rfl, rfl⟩

/-- A step up from a dead block (other than the deleted root itself)
stays dead. -/
theorem dead_up {bs : List Block} {c i z : Nat} {cb : Block}
    (hcb : findBlock bs c = some cb) (hz : cb.parentId = some z)
    (hd : Relation.TransGen (ParentEdge bs) c i) :
    z = i ∨ Relation.TransGen (ParentEdge bs) z i := by
  rcases Relation.TransGen.head'_iff.mp hd with ⟨y, hedge, hrest⟩
  rcases hedge with ⟨cbx, hcbx, hpar⟩
  rw [hcb] at hcbx
  cases hcbx
  rw [hz] at hpar
  cases hpar
  rcases Relation.reflTransGen_iff_eq_or_transGen.mp hrest with he | ht
  · exact Or.inl he.symm
  · exact Or.inr ht

/-- A block pointing at a dead parent is dead. -/
theorem dead_down {bs : List Block} {x pp i : Nat}
    (hedge : ParentEdge bs x pp)
    (hpp : pp = i ∨ Relation.TransGen (ParentEdge bs) pp i) :
    Relation.TransGen (ParentEdge bs) x i := by
  rcases hpp with rfl | ht
  · exact Relation.TransGen.single hedge
  · exact Relation.TransGen.head hedge ht

/-- The executable doomed-set test agrees with upward reachability on a
well-formed store. -/
theorem doomed_iff {reg : Registry} {s : BlockStore} (hwf : Wf reg s)
    {c : Nat} {b0 : Block} (hb0 : findBlock s.blocks c = some b0) (i : Nat) :
    (c = i ∨ i ∈ getAncestors s.blocks c) ↔
      (c = i ∨ Relation.TransGen (ParentEdge s.blocks) c i) := by
  constructor
  · rintro (he | hm)
    · exact Or.inl he
    · exact Or.inr (mem_ancestors_imp_reach hm)
  · rintro (he | ht)
    · exact Or.inl he
    · rcases reach_imp_mem_ancestors hwf.nodupIds hwf.parentFwd hwf.acyclic
        ⟨b0, hb0⟩ ht.to_reflTransGen with he | hm
      · exact Or.inl he.symm
      · exact Or.inr hm

/-- Lookup in the survivor list: a surviving block is found unchanged. -/
theorem deleteSurvivors_find_alive {reg : Registry} {s : BlockStore}
    (hwf : Wf reg s) {i c : Nat} {b0 : Block}
    (hb0 : findBlock s.blocks c = some b0) (hne : c ≠ i)
    (hnd : ¬ Relation.TransGen (ParentEdge s.blocks) c i) :
    findBlock (deleteSurvivors s i) c = some b0 := by
  unfold deleteSurvivors
  rw [findBlock_filter hwf.nodupIds, hb0]
  have hbid : b0.id = c := findBlock_id_eq hb0
  have hq : (!(b0.id = i ∨ i ∈ getAncestors s.blocks b0.id : Bool)) = true := by
    simp only [Bool.not_eq_true', decide_eq_false_iff_not]
    rw [hbid]
    intro hdoom
    rcases (doomed_iff hwf hb0 i).mp hdoom with he | ht
    · exact hne he
    · exact hnd ht
  dsimp only
  rw [if_pos hq]

/-- Lookup in the survivor list, inverse direction. -/
theorem deleteSurvivors_find_inv {reg : Registry} {s : BlockStore}
    (hwf : Wf reg s) {i c : Nat} {b2 : Block}
    (h : findBlock (deleteSurvivors s i) c = some b2) :
    findBlock s.blocks c = some b2 ∧ c ≠ i ∧
      ¬ Relation.TransGen (ParentEdge s.blocks) c i := by
  unfold deleteSurvivors at h
  rw [findBlock_filter hwf.nodupIds] at h
  cases hb0 : findBlock s.blocks c with
  | none => rw [hb0] at h; cases h
  | some b0 =>
    rw [hb0] at h
    dsimp only at h
    by_cases hq : (!(b0.id = i ∨ i ∈ getAncestors s.blocks b0.id : Bool)) = true
    · rw [if_pos hq] at h
      cases h
      have hbid : b2.id = c := findBlock_id_eq hb0
      simp only [Bool.not_eq_true', decide_eq_false_iff_not] at hq
      rw [hbid] at hq
      constructor
      · rfl
      · constructor
        · intro he
          exact hq ((doomed_iff hwf hb0 i).mpr (Or.inl he))
        · intro ht
          exact hq ((doomed_iff hwf hb0 i).mpr (Or.inr ht))
    · rw [if_neg hq] at h
      cases h

/-- Delete preserves well-formedness. -/
theorem wf_delete {reg : Registry} {s : BlockStore} {i : Nat} {dc : Bool}
    {now : Nat} {s2 : BlockStore} (hwf : Wf reg s)
    (h : delete s i dc now = .ok s2) : Wf reg s2 := by
  rcases delete_ok_inv h with ⟨b, hA, hs2⟩
  subst hs2
  have hbid : b.id = i := findBlock_id_eq hA
  have hsurvids : (deleteSurvivors s i).map Block.id |>.Nodup := by
    have hsub : (deleteSurvivors s i).Sublist s.blocks := List.filter_sublist _
    exact (hsub.map Block.id).nodup hwf.nodupIds
  -- the surviving edge relation is contained in the old one
  have hedge_sub : ∀ bs2 : List Block,
      (∀ c b2, findBlock bs2 c = some b2 →
        ∃ b0, findBlock s.blocks c = some b0 ∧ b2.parentId = b0.parentId) →
      ∀ x y, ParentEdge bs2 x y → ParentEdge s.blocks x y := by
    intro bs2 hchar x y hxy
    rcases hxy with ⟨bb, hbb, hbbp⟩
    rcases hchar x bb hbb with ⟨b0, hb0, hpp⟩
    exact ⟨b0, hb0, by rw [← hpp]; exact hbbp⟩
  cases hbp : b.parentId with
  | none =>
    -- deleting a root block
    have hfind : ∀ c b2,
        findBlock (deleteApply s b now).blocks c = some b2 →
        findBlock s.blocks c = some b2 ∧ c ≠ i ∧
          ¬ Relation.TransGen (ParentEdge s.blocks) c i := by
      intro c b2 h2
      have hdb : (deleteApply s b now).blocks = deleteSurvivors s b.id := by
        simp only [deleteApply, hbp]
      rw [hdb, hbid] at h2
      exact deleteSurvivors_find_inv hwf h2
    have hfind2 : ∀ c b0, findBlock s.blocks c = some b0 → c ≠ i →
        ¬ Relation.TransGen (ParentEdge s.blocks) c i →
        findBlock (deleteApply s b now).blocks c = some b0 := by
      intro c b0 h0 hne hnd
      have hdb : (deleteApply s b now).blocks = deleteSurvivors s b.id := by
        simp only [deleteApply, hbp]
      rw [hdb, hbid]
      exact deleteSurvivors_find_alive hwf h0 hne hnd
    have hmem2 : ∀ x ∈ (deleteApply s b now).blocks, x ∈ s.blocks ∧
        x.id ≠ i ∧ ¬ Relation.TransGen (ParentEdge s.blocks) x.id i := by
      intro x hx
      have hnodup2 : ((deleteApply s b now).blocks.map Block.id).Nodup := by
        have hdb : (deleteApply s b now).blocks = deleteSurvivors s b.id := by
          simp only [deleteApply, hbp]
        rw [hdb, hbid]
        exact hsurvids
      have hsf := findBlock_mem_nodup hnodup2 hx
      rcases hfind x.id x hsf with ⟨h0, hne, hnd⟩
      exact ⟨findBlock_mem h0, hne, hnd⟩
    have hroots2 : (deleteApply s b now).roots = removeNat i s.roots := by
      simp only [deleteApply, hbp, hbid]
    constructor
    · have hdb : (deleteApply s b now).blocks = deleteSurvivors s b.id := by
        simp only [deleteApply, hbp]
      rw [hdb, hbid]
      exact hsurvids
    · intro x hx
      rcases hmem2 x hx with ⟨hxs, _, _⟩
      have hnx : (deleteApply s b now).nextId = s.nextId := by
        simp only [deleteApply, hbp]
      rw [hnx]
      exact hwf.idsBound x hxs
    · intro x hx
      rcases hmem2 x hx with ⟨hxs, _, _⟩
      exact hwf.childNodup x hxs
    · intro x hx c hc
      rcases hmem2 x hx with ⟨hxs, hxne, hxnd⟩
      rcases hwf.childBack x hxs c hc with ⟨cb, hcb, hcbp⟩
      have hcne : c ≠ i := by
        intro he
        have := child_unique hwf hA hxs (he ▸ hc)
        rw [hbp] at this
        cases this
      have hcnd : ¬ Relation.TransGen (ParentEdge s.blocks) c i := by
        intro ht
        rcases dead_up hcb hcbp ht with he | ht2
        · exact hxne he
        · exact hxnd ht2
      exact ⟨cb, hfind2 c cb hcb hcne hcnd, hcbp⟩
    · intro x hx c hc cb hcb
      rcases hmem2 x hx with ⟨hxs, _, _⟩
      rcases hfind c cb hcb with ⟨hcb0, _, _⟩
      exact hwf.typesLegal x hxs c hc cb hcb0
    · intro x hx pp hp
      rcases hmem2 x hx with ⟨hxs, hxne, hxnd⟩
      rcases hwf.parentFwd x hxs pp hp with ⟨ppb, hppb, hppbc⟩
      have hedge : ParentEdge s.blocks x.id pp :=
        ⟨x, findBlock_mem_nodup hwf.nodupIds hxs, hp⟩
      have hppne : pp ≠ i := by
        intro he
        exact hxnd (dead_down hedge (Or.inl he))
      have hppnd : ¬ Relation.TransGen (ParentEdge s.blocks) pp i := by
        intro ht
        exact hxnd (dead_down hedge (Or.inr ht))
      exact ⟨ppb, hfind2 pp ppb hppb hppne hppnd, hppbc⟩
    · rw [hroots2]
      exact removeNat_nodup hwf.rootsNodup
    · intro r hr
      rw [hroots2, mem_removeNat] at hr
      rcases hr with ⟨hr, hrne⟩
      rcases hwf.rootsValid r hr with ⟨br, hbr, hbrp⟩
      have hrnd : ¬ Relation.TransGen (ParentEdge s.blocks) r i := by
        intro ht
        rcases Relation.TransGen.head'_iff.mp ht with ⟨y, hedge, _⟩
        rcases hedge with ⟨brx, hbrx, hbrxp⟩
        rw [hbr] at hbrx
        cases hbrx
        rw [hbrp] at hbrxp
        cases hbrxp
      exact ⟨br, hfind2 r br hbr hrne hrnd, hbrp⟩
    · intro x hx hxp
      rcases hmem2 x hx with ⟨hxs, hxne, _⟩
      rw [hroots2, mem_removeNat]
      exact ⟨hwf.rootsComplete x hxs hxp, hxne⟩
    · intro z hz
      apply hwf.acyclic z
      refine Relation.TransGen.mono ?_ hz
      intro a c hac
      rcases hac with ⟨bb, hbb, hbbp⟩
      rcases hfind a bb hbb with ⟨hb0, _, _⟩
      exact ⟨bb, hb0, hbbp⟩
  | some p =>
    -- deleting a parented block
    have hdb : (deleteApply s b now).blocks
        = removeChild p i now (deleteSurvivors s i) := by
      simp only [deleteApply, hbp, hbid]
    have hnx : (deleteApply s b now).nextId = s.nextId := by
      simp only [deleteApply, hbp]
    have hroots2 : (deleteApply s b now).roots = s.roots := by
      simp only [deleteApply, hbp]
    have hnodup2 : ((deleteApply s b now).blocks.map Block.id).Nodup := by
      rw [hdb, removeChild_ids]
      exact hsurvids
    have hfind : ∀ c b2,
        findBlock (deleteApply s b now).blocks c = some b2 →
        ∃ b0, findBlock s.blocks c = some b0 ∧ c ≠ i ∧
          ¬ Relation.TransGen (ParentEdge s.blocks) c i ∧
          b2.id = b0.id ∧ b2.parentId = b0.parentId ∧ b2.btype = b0.btype ∧
          b2 = (if c = p then
            { b0 with children := removeNat i b0.children, updatedAt := now }
          else b0) := by
      intro c b2 h2
      rw [hdb, removeChild_find] at h2
      by_cases hcp : c = p
      · rw [if_pos hcp] at h2
        cases hs : findBlock (deleteSurvivors s i) c with
        | none => rw [hs] at h2; cases h2
        | some b0 =>
          rw [hs, Option.map_some'] at h2
          cases h2
          rcases deleteSurvivors_find_inv hwf hs with ⟨hb0, hne, hnd⟩
          exact ⟨b0, hb0, hne, hnd, rfl, rfl, rfl, by rw [if_pos hcp]⟩
      · rw [if_neg hcp] at h2
        rcases deleteSurvivors_find_inv hwf h2 with ⟨hb0, hne, hnd⟩
        exact ⟨b2, hb0, hne, hnd, rfl, rfl, rfl, by rw [if_neg hcp]⟩
    have hfind2 : ∀ c b0, findBlock s.blocks c = some b0 → c ≠ i →
        ¬ Relation.TransGen (ParentEdge s.blocks) c i →
        findBlock (deleteApply s b now).blocks c
          = some (if c = p then
              { b0 with children := removeNat i b0.children, updatedAt := now }
            else b0) := by
      intro c b0 h0 hne hnd
      rw [hdb, removeChild_find]
      have hs := deleteSurvivors_find_alive hwf h0 hne hnd
      by_cases hcp : c = p
      · rw [if_pos hcp, if_pos hcp, hs, Option.map_some']
      · rw [if_neg hcp, if_neg hcp, hs]
    constructor
    · exact hnodup2
    · intro x hx
      have hsf := findBlock_mem_nodup hnodup2 hx
      rcases hfind x.id x hsf with ⟨b0, hb0, _, _, hid, _, _, _⟩
      rw [hnx, hid]
      exact hwf.idsBound b0 (findBlock_mem hb0)
    · intro x hx
      have hsf := findBlock_mem_nodup hnodup2 hx
      rcases hfind x.id x hsf with ⟨b0, hb0, _, _, _, _, _, hxe⟩
      by_cases hcp : x.id = p
      · rw [if_pos hcp] at hxe
        rw [hxe]
        exact removeNat_nodup (hwf.childNodup b0 (findBlock_mem hb0))
      · rw [if_neg hcp] at hxe
        rw [hxe]
        exact hwf.childNodup b0 (findBlock_mem hb0)
    · intro x hx c hc
      have hsf := findBlock_mem_nodup hnodup2 hx
      rcases hfind x.id x hsf with ⟨b0, hb0, hxne, hxnd, _, _, _, hxe⟩
      have hb0id : b0.id = x.id := findBlock_id_eq hb0
      have hc0 : c ∈ b0.children ∧ c ≠ i := by
        by_cases hcp : x.id = p
        · rw [if_pos hcp] at hxe
          have hcm : c ∈ removeNat i b0.children := by
            rw [hxe] at hc; exact hc
          exact mem_removeNat.mp hcm
        · rw [if_neg hcp] at hxe
          have hcm : c ∈ b0.children := by rw [hxe] at hc; exact hc
          refine ⟨hcm, ?_⟩
          intro he
          have hcu := child_unique hwf hA (findBlock_mem hb0) (he ▸ hcm)
          rw [hbp] at hcu
          cases hcu
          exact hcp hb0id.symm
      rcases hwf.childBack b0 (findBlock_mem hb0) c hc0.1 with ⟨cb, hcb, hcbp⟩
      have hcnd : ¬ Relation.TransGen (ParentEdge s.blocks) c i := by
        intro ht
        rcases dead_up hcb hcbp ht with he | ht2
        · exact hxne (hb0id ▸ he)
        · exact hxnd (hb0id ▸ ht2)
      refine ⟨_, hfind2 c cb hcb hc0.2 hcnd, ?_⟩
      by_cases hcq : c = p
      · rw [if_pos hcq]
        show cb.parentId = some x.id
        rw [hcbp, hb0id]
      · rw [if_neg hcq]
        rw [hcbp, hb0id]
    · intro x hx c hc cb2 hcb2
      have hsf := findBlock_mem_nodup hnodup2 hx
      rcases hfind x.id x hsf with ⟨b0, hb0, hxne, hxnd, _, _, hbt, hxe⟩
      have hb0id : b0.id = x.id := findBlock_id_eq hb0
      have hc0 : c ∈ b0.children := by
        by_cases hcp : x.id = p
        · rw [if_pos hcp] at hxe
          have hcm : c ∈ removeNat i b0.children := by
            rw [hxe] at hc; exact hc
          exact (mem_removeNat.mp hcm).1
        · rw [if_neg hcp] at hxe
          rw [hxe] at hc
          exact hc
      rcases hfind c cb2 hcb2 with ⟨cb0, hcb0, _, _, _, _, hcbt, _⟩
      rw [hbt, hcbt]
      exact hwf.typesLegal b0 (findBlock_mem hb0) c hc0 cb0 hcb0
    · intro x hx pp hp
      have hsf := findBlock_mem_nodup hnodup2 hx
      rcases hfind x.id x hsf with ⟨b0, hb0, hxne, hxnd, _, hpe, _, _⟩
      have hb0id : b0.id = x.id := findBlock_id_eq hb0
      have hp0 : b0.parentId = some pp := by rw [← hpe]; exact hp
      rcases hwf.parentFwd b0 (findBlock_mem hb0) pp hp0 with ⟨ppb, hppb, hin⟩
      have hedge : ParentEdge s.blocks x.id pp := ⟨b0, hb0, hp0⟩
      have hppne : pp ≠ i := fun he => hxnd (dead_down hedge (Or.inl he))
      have hppnd : ¬ Relation.TransGen (ParentEdge s.blocks) pp i :=
        fun ht => hxnd (dead_down hedge (Or.inr ht))
      refine ⟨_, hfind2 pp ppb hppb hppne hppnd, ?_⟩
      have hin2 : x.id ∈ ppb.children := hb0id ▸ hin
      by_cases hpq : pp = p
      · rw [if_pos hpq]
        show x.id ∈ removeNat i ppb.children
        exact mem_removeNat.mpr ⟨hin2, hxne⟩
      · rw [if_neg hpq]
        exact hin2
    · rw [hroots2]
      exact hwf.rootsNodup
    · intro r hr
      rw [hroots2] at hr
      rcases hwf.rootsValid r hr with ⟨br, hbr, hbrp⟩
      have hrne : r ≠ i := by
        intro he
        rw [he, hA] at hbr
        cases hbr
        rw [hbp] at hbrp
        cases hbrp
      have hrnd : ¬ Relation.TransGen (ParentEdge s.blocks) r i := by
        intro ht
        rcases Relation.TransGen.head'_iff.mp ht with ⟨y, hedge, _⟩
        rcases hedge with ⟨brx, hbrx, hbrxp⟩
        rw [hbr] at hbrx
        cases hbrx
        rw [hbrp] at hbrxp
        cases hbrxp
      refine ⟨_, hfind2 r br hbr hrne hrnd, ?_⟩
      by_cases hrq : r = p
      · rw [if_pos hrq]
        show br.parentId = none
        exact hbrp
      · rw [if_neg hrq]
        exact hbrp
    · intro x hx hxp
      have hsf := findBlock_mem_nodup hnodup2 hx
      rcases hfind x.id x hsf with ⟨b0, hb0, _, _, hid, hpe, _, _⟩
      rw [hroots2, hid]
      apply hwf.rootsComplete b0 (findBlock_mem hb0)
      rw [← hpe]
      exact hxp
    · intro z hz
      apply hwf.acyclic z
      refine Relation.TransGen.mono ?_ hz
      intro a c hac
      rcases hac with ⟨bb, hbb, hbbp⟩
      rcases hfind a bb hbb with ⟨b0, hb0, _, _, _, hpe, _, _⟩
      exact ⟨b0, hb0, by rw [← hpe]; exact hbbp⟩

/-! ## Duplicate: the clone generator -/

/-- Two members of a duplicate-free block list with the same id are
equal. -/
theorem mem_id_inj {bs : List Block} (hn : (bs.map Block.id).Nodup)
    {x y : Block} (hx : x ∈ bs) (hy : y ∈ bs) (h : x.id = y.id) : x = y := by
  have h1 := findBlock_mem_nodup hn hx
  have h2 := findBlock_mem_nodup hn hy
  rw [h] at h1
  rw [h1] at h2
  cases h2
  rfl

theorem cloneMany_nil {bs : List Block} {now f : Nat} {pid : Option Nat}
    {ctr : Nat} : cloneMany bs now f pid ctr [] = ([], [], ctr) := by
  cases f <;> rfl

theorem cloneMany_zero {bs : List Block} {now : Nat} {pid : Option Nat}
    {ctr src : Nat} {rest : List Nat} :
    cloneMany bs now 0 pid ctr (src :: rest) = ([], [], ctr) := rfl

theorem cloneMany_cons_none {bs : List Block} {now f : Nat}
    {pid : Option Nat} {ctr src : Nat} {rest : List Nat}
    (hf : findBlock bs src = none) :
    cloneMany bs now (f + 1) pid ctr (src :: rest) =
      cloneMany bs now f pid ctr rest := by
  simp only [cloneMany, hf]

theorem cloneMany_cons_some {bs : List Block} {now f : Nat}
    {pid : Option Nat} {ctr src : Nat} {rest : List Nat} {sb : Block}
    (hf : findBlock bs src = some sb) :
    cloneMany bs now (f + 1) pid ctr (src :: rest) =
      ({ id := ctr, btype := sb.btype, data := sb.data,
         children := (cloneMany bs now f (some ctr) (ctr + 1) sb.children).2.1,
         parentId := pid, createdAt := now, updatedAt := now, version := 1,
         metadata := sb.metadata }
        :: (cloneMany bs now f (some ctr) (ctr + 1) sb.children).1
        ++ (cloneMany bs now f pid
             (cloneMany bs now f (some ctr) (ctr + 1) sb.children).2.2
             rest).1,
       ctr :: (cloneMany bs now f pid
             (cloneMany bs now f (some ctr) (ctr + 1) sb.children).2.2
             rest).2.1,
       (cloneMany bs now f pid
             (cloneMany bs now f (some ctr) (ctr + 1) sb.children).2.2
             rest).2.2) := by
  simp only [cloneMany, hf]

theorem cloneSpec_empty (reg : Registry) (bs : List Block)
    (pid : Option Nat) (ctr : Nat) (srcs : List Nat) :
    CloneSpec reg bs pid ctr srcs ([], [], ctr) := by
  refine ⟨Nat.le_refl _, ?_, ?_, List.nodup_nil, ?_, ?_, ?_⟩
  · intro x hx
    cases hx
  · exact List.nodup_nil
  · intro t ht
    cases ht
  · intro x hx
    cases hx
  · intro x hx
    cases hx

/-- `CloneSpec` is monotone in the source list. -/
theorem cloneSpec_mono_srcs {reg : Registry} {bs : List Block}
    {pid : Option Nat} {ctr : Nat} {srcs srcs2 : List Nat}
    {out : List Block × List Nat × Nat}
    (hsub : ∀ z ∈ srcs, z ∈ srcs2) (h : CloneSpec reg bs pid ctr srcs out) :
    CloneSpec reg bs pid ctr srcs2 out := by
  obtain ⟨h1, h2, h3, h4, h5, h6, h7⟩ := h
  refine ⟨h1, h2, h3, h4, ?_, h6, h7⟩
  intro t ht
  rcases h5 t ht with ⟨x, hx, hid, hp, src, sb, hsrc, hfs, hbt⟩
  exact ⟨x, hx, hid, hp, src, sb, hsub src hsrc, hfs, hbt⟩

/-- Gluing step for `CloneSpec`: a freshly cloned head block combined
with the clones of its children subtree and the clones of the remaining
sources. -/
theorem cloneSpec_glue {reg : Registry} {bs : List Block} {pid : Option Nat}
    {ctr src : Nat} {rest : List Nat} {sb : Block} {now : Nat}
    {r1 r2 : List Block × List Nat × Nat}
    (hf : findBlock bs src = some sb)
    (htl : ∀ b ∈ bs, ∀ c ∈ b.children, ∀ cb,
      findBlock bs c = some cb → canHaveChild reg b.btype cb.btype = true)
    (h1 : CloneSpec reg bs (some ctr) (ctr + 1) sb.children r1)
    (h2 : CloneSpec reg bs pid r1.2.2 rest r2) :
    CloneSpec reg bs pid ctr (src :: rest)
      ({ id := ctr, btype := sb.btype, data := sb.data,
         children := r1.2.1, parentId := pid, createdAt := now,
         updatedAt := now, version := 1, metadata := sb.metadata }
        :: r1.1 ++ r2.1, ctr :: r2.2.1, r2.2.2) := by
  unfold CloneSpec at h1 h2 ⊢
  obtain ⟨hA1, hB1, hC1, hD1, hE1, hF1, hG1⟩ := h1
  obtain ⟨hA2, hB2, hC2, hD2, hE2, hF2, hG2⟩ := h2
  have hcc : ctr < r1.2.2 := hA1
  have hr22 : r1.2.2 ≤ r2.2.2 := hA2
  dsimp only
  refine ⟨?_, ?_, ?_, ?_, ?_, ?_, ?_⟩
  · exact le_trans (Nat.le_succ ctr) (le_trans hA1 hA2)
  · intro x hx
    rcases List.mem_cons.mp hx with rfl | hx2
    · exact ⟨Nat.le_refl ctr, lt_of_lt_of_le hcc hr22⟩
    · rcases List.mem_append.mp hx2 with hx1 | hx22
      · rcases hB1 x hx1 with ⟨hl, hr⟩
        exact ⟨le_trans (Nat.le_succ ctr) hl, lt_of_lt_of_le hr hr22⟩
      · rcases hB2 x hx22 with ⟨hl, hr⟩
        exact ⟨le_trans (Nat.le_succ ctr) (le_trans hA1 hl), hr⟩
  · simp only [List.map_cons, List.map_append]
    refine List.nodup_cons.mpr ⟨?_, List.Nodup.append hC1 hC2 ?_⟩
    · intro hmem
      rcases List.mem_append.mp hmem with hm | hm
      · rcases List.mem_map.mp hm with ⟨x, hx, hxe⟩
        have hge := (hB1 x hx).1
        rw [hxe] at hge
        exact Nat.not_succ_le_self ctr hge
      · rcases List.mem_map.mp hm with ⟨x, hx, hxe⟩
        have hge := le_trans hA1 (hB2 x hx).1
        rw [hxe] at hge
        exact Nat.not_succ_le_self ctr hge
    · intro a ha1 ha2
      rcases List.mem_map.mp ha1 with ⟨x, hx, hxe⟩
      rcases List.mem_map.mp ha2 with ⟨y, hy, hye⟩
      have h1x := (hB1 x hx).2
      have h2y := (hB2 y hy).1
      rw [hxe] at h1x
      rw [hye] at h2y
      exact absurd (lt_of_lt_of_le h1x h2y) (lt_irrefl a)
  · refine List.nodup_cons.mpr ⟨?_, hD2⟩
    intro hmem
    rcases hE2 ctr hmem with ⟨x, hx, hxid, hrest⟩
    have hge := (hB2 x hx).1
    rw [hxid] at hge
    exact Nat.not_succ_le_self ctr (le_trans hA1 hge)
  · intro t ht
    rcases List.mem_cons.mp ht with rfl | ht2
    · exact ⟨_, List.mem_cons_self _ _, rfl, rfl, src, sb,
        List.mem_cons_self _ _, hf, rfl⟩
    · rcases hE2 t ht2 with ⟨x, hx, hxid, hp, src2, sb2, hsrc, hfs2, hbt⟩
      exact ⟨x, List.mem_cons_of_mem _ (List.mem_append_right _ hx), hxid,
        hp, src2, sb2, List.mem_cons_of_mem _ hsrc, hfs2, hbt⟩
  · intro x hx
    rcases List.mem_cons.mp hx with rfl | hx2
    · exact Or.inl ⟨rfl, List.mem_cons_self _ _⟩
    · rcases List.mem_append.mp hx2 with hx1 | hx22
      · rcases hF1 x hx1 with ⟨hp, hmem⟩ | ⟨y, hy, hp, hcm, hlt⟩
        · refine Or.inr ⟨_, List.mem_cons_self _ _, hp, hmem, ?_⟩
          exact (hB1 x hx1).1
        · exact Or.inr ⟨y,
            List.mem_cons_of_mem _ (List.mem_append_left _ hy), hp, hcm, hlt⟩
      · rcases hF2 x hx22 with ⟨hp, hmem⟩ | ⟨y, hy, hp, hcm, hlt⟩
        · exact Or.inl ⟨hp, List.mem_cons_of_mem _ hmem⟩
        · exact Or.inr ⟨y,
            List.mem_cons_of_mem _ (List.mem_append_right _ hy), hp, hcm, hlt⟩
  · intro x hx
    rcases List.mem_cons.mp hx with rfl | hx2
    · refine ⟨hD1, ?_⟩
      intro c hc
      have hc2 : c ∈ r1.2.1 := hc
      rcases hE1 c hc2 with ⟨y, hy, hyid, hyp, src2, sbc, hsrc, hfsc, hbt⟩
      have hyr := hB1 y hy
      refine ⟨?_, ?_, y,
        List.mem_cons_of_mem _ (List.mem_append_left _ hy), hyid, hyp, ?_⟩
      · show ctr < c
        rw [← hyid]
        exact hyr.1
      · exact lt_of_lt_of_le (hyid ▸ hyr.2) hr22
      · show canHaveChild reg sb.btype y.btype = true
        rw [hbt]
        exact htl sb (findBlock_mem hf) src2 hsrc sbc hfsc
    · rcases List.mem_append.mp hx2 with hx1 | hx22
      · rcases hG1 x hx1 with ⟨hnd, hch⟩
        refine ⟨hnd, ?_⟩
        intro c hc
        rcases hch c hc with ⟨hlt, hlt2, y, hy, hyid, hyp, hcht⟩
        exact ⟨hlt, lt_of_lt_of_le hlt2 hr22, y,
          List.mem_cons_of_mem _ (List.mem_append_left _ hy), hyid, hyp, hcht⟩
      · rcases hG2 x hx22 with ⟨hnd, hch⟩
        refine ⟨hnd, ?_⟩
        intro c hc
        rcases hch c hc with ⟨hlt, hlt2, y, hy, hyid, hyp, hcht⟩
        exact ⟨hlt, hlt2, y,
          List.mem_cons_of_mem _ (List.mem_append_right _ hy), hyid, hyp, hcht⟩

/-- The clone generator satisfies `CloneSpec` on a well-formed store
whenever the destination parent id is older than the counter. -/
theorem cloneMany_spec {reg : Registry} {s : BlockStore} (hwf : Wf reg s)
    (now : Nat) :
    ∀ f : Nat, ∀ srcs : List Nat, ∀ pid : Option Nat, ∀ ctr : Nat,
      (∀ q, pid = some q → q < ctr) →
      CloneSpec reg s.blocks pid ctr srcs
        (cloneMany s.blocks now f pid ctr srcs) := by
  intro f
  induction f with
  | zero =>
    intro srcs pid ctr hpid
    cases srcs with
    | nil =>
      rw [cloneMany_nil]
      exact cloneSpec_empty reg s.blocks pid ctr []
    | cons src rest =>
      rw [cloneMany_zero]
      exact cloneSpec_empty reg s.blocks pid ctr (src :: rest)
  | succ f ih =>
    intro srcs pid ctr hpid
    cases srcs with
    | nil =>
      rw [cloneMany_nil]
      exact cloneSpec_empty reg s.blocks pid ctr []
    | cons src rest =>
      cases hfs : findBlock s.blocks src with
      | none =>
        rw [cloneMany_cons_none hfs]
        exact cloneSpec_mono_srcs (fun z hz => List.mem_cons_of_mem _ hz)
          (ih rest pid ctr hpid)
      | some sb =>
        rw [cloneMany_cons_some hfs]
        have ih1 := ih sb.children (some ctr) (ctr + 1)
          (fun q hq => by cases hq; exact Nat.lt_succ_self ctr)
        have hA1 : ctr + 1 ≤
            (cloneMany s.blocks now f (some ctr) (ctr + 1) sb.children).2.2 := by
          obtain ⟨h, _⟩ := ih1
          exact h
        have ih2 := ih rest pid
          (cloneMany s.blocks now f (some ctr) (ctr + 1) sb.children).2.2
          (fun q hq => lt_of_lt_of_le (hpid q hq)
            (le_trans (Nat.le_succ ctr) hA1))
        exact cloneSpec_glue hfs hwf.typesLegal ih1 ih2

/-- The clone list of a duplicate call (deep or shallow) satisfies
`CloneSpec` with the original's parent as destination and the fresh id
`s.nextId` as the only clone root. -/
theorem dupClones_spec {reg : Registry} {s : BlockStore} (hwf : Wf reg s)
    {i : Nat} {b : Block} (hb : findBlock s.blocks i = some b)
    (dup : Bool) (now : Nat) :
    CloneSpec reg s.blocks b.parentId s.nextId [i]
      ((dupClones s b dup now).1, [s.nextId], (dupClones s b dup now).2) := by
  have hbid : b.id = i := findBlock_id_eq hb
  have hpid : ∀ q, b.parentId = some q → q < s.nextId := by
    intro q hq
    rcases hwf.parentFwd b (findBlock_mem hb) q hq with ⟨pb, hpb, _⟩
    have hqid : pb.id = q := findBlock_id_eq hpb
    rw [← hqid]
    exact hwf.idsBound pb (findBlock_mem hpb)
  cases dup with
  | true =>
    have hb2 : findBlock s.blocks b.id = some b := by rw [hbid]; exact hb
    have hspec := cloneMany_spec hwf now (s.blocks.length + 1) [b.id]
      b.parentId s.nextId hpid
    have htops : (cloneMany s.blocks now (s.blocks.length + 1) b.parentId
        s.nextId [b.id]).2.1 = [s.nextId] := by
      rw [cloneMany_cons_some hb2, cloneMany_nil]
    have heq : cloneMany s.blocks now (s.blocks.length + 1) b.parentId
          s.nextId [b.id]
        = ((cloneMany s.blocks now (s.blocks.length + 1) b.parentId
             s.nextId [b.id]).1, [s.nextId],
           (cloneMany s.blocks now (s.blocks.length + 1) b.parentId
             s.nextId [b.id]).2.2) := by
      rw [← htops]
    rw [heq] at hspec
    have hsrcs : ∀ z ∈ ([b.id] : List Nat), z ∈ ([i] : List Nat) := by
      intro z hz
      rcases List.mem_singleton.mp hz with rfl
      rw [hbid]
      exact List.mem_singleton.mpr rfl
    have hspec2 := cloneSpec_mono_srcs hsrcs hspec
    have hdc1 : (dupClones s b true now).1
        = (cloneMany s.blocks now (s.blocks.length + 1) b.parentId
            s.nextId [b.id]).1 := by
      simp only [dupClones, if_pos]
    have hdc2 : (dupClones s b true now).2
        = (cloneMany s.blocks now (s.blocks.length + 1) b.parentId
            s.nextId [b.id]).2.2 := by
      simp only [dupClones, if_pos]
    rw [hdc1, hdc2]
    exact hspec2
  | false =>
    have hdc1 : (dupClones s b false now).1 = [shallowClone b s.nextId now] := by
      simp only [dupClones, Bool.false_eq_true, if_false]
    have hdc2 : (dupClones s b false now).2 = s.nextId + 1 := by
      simp only [dupClones, Bool.false_eq_true, if_false]
    rw [hdc1, hdc2]
    unfold CloneSpec
    dsimp only
    refine ⟨Nat.le_succ _, ?_, ?_, ?_, ?_, ?_, ?_⟩
    · intro x hx
      rcases List.mem_singleton.mp hx with rfl
      exact ⟨Nat.le_refl _, Nat.lt_succ_self _⟩
    · exact List.nodup_singleton _
    · exact List.nodup_singleton _
    · intro t ht
      rcases List.mem_singleton.mp ht with rfl
      exact ⟨shallowClone b s.nextId now, List.mem_singleton.mpr rfl, rfl,
        rfl, i, b, List.mem_singleton.mpr rfl, hb, rfl⟩
    · intro x hx
      rcases List.mem_singleton.mp hx with rfl
      exact Or.inl ⟨rfl, List.mem_singleton.mpr rfl⟩
    · intro x hx
      rcases List.mem_singleton.mp hx with rfl
      refine ⟨List.nodup_nil, ?_⟩
      intro c hc
      cases hc

/-- Inversion of a successful `duplicate`. -/
theorem duplicate_ok_inv {s : BlockStore} {i : Nat} {dup : Bool} {now : Nat}
    {out : BlockStore × Block} (h : duplicate s i dup now = .ok out) :
    ∃ b nb rest0, findBlock s.blocks i = some b ∧
      (dupClones s b dup now).1 = nb :: rest0 ∧
      out = (attachClones s b (nb :: rest0) (dupClones s b dup now).2 now,
             nb) := by
  unfold duplicate at h
  cases hfb : findBlock s.blocks i with
  | none => rw [hfb] at h; cases h
  | some b =>
    rw [hfb] at h
    dsimp only at h
    cases hcl : (dupClones s b dup now).1 with
    | nil => rw [hcl] at h; cases h
    | cons nb rest0 =>
      rw [hcl] at h
      dsimp only at h
      cases h
      exact ⟨b, nb, rest0, rfl, hcl, rfl⟩

/-- Layered acyclicity: a relation whose edges from `P`-nodes stay in an
acyclic relation on `P`-nodes and whose edges between non-`P` nodes
strictly decrease is acyclic. -/
theorem acyclic_layered {r r2 : Nat → Nat → Prop} {P : Nat → Prop}
    (hold : ∀ a c, r2 a c → P a → r a c ∧ P c)
    (hacy : ∀ x, ¬ Relation.TransGen r x x)
    (hnew : ∀ a c, r2 a c → ¬ P a → ¬ P c → c < a) :
    ∀ x, ¬ Relation.TransGen r2 x x := by
  have hA : ∀ x y, Relation.TransGen r2 x y → P x →
      Relation.TransGen r x y ∧ P y := by
    intro x y ht
    induction ht with
    | single h =>
      intro hp
      rcases hold _ _ h hp with ⟨h1, h2⟩
      exact ⟨Relation.TransGen.single h1, h2⟩
    | tail hxb hbc ih =>
      intro hp
      rcases ih hp with ⟨h1, h2⟩
      rcases hold _ _ hbc h2 with ⟨h3, h4⟩
      exact ⟨Relation.TransGen.tail h1 h3, h4⟩
  have hB : ∀ x y, Relation.TransGen r2 x y → ¬ P x →
      (y < x ∧ ¬ P y) ∨
        ∃ o, P o ∧ Relation.TransGen r2 x o ∧
          Relation.ReflTransGen r2 o y := by
    intro x y ht
    induction ht with
    | single h =>
      rename_i b2
      intro hnp
      by_cases hpy : P b2
      · exact Or.inr ⟨b2, hpy, Relation.TransGen.single h,
          Relation.ReflTransGen.refl⟩
      · exact Or.inl ⟨hnew _ _ h hnp hpy, hpy⟩
    | tail hxb hbc ih =>
      rename_i b2 c2
      intro hnp
      rcases ih hnp with ⟨hlt, hnb⟩ | ⟨o, hpo, hxo, hoy⟩
      · by_cases hpc : P c2
        · exact Or.inr ⟨c2, hpc, Relation.TransGen.tail hxb hbc,
            Relation.ReflTransGen.refl⟩
        · exact Or.inl ⟨lt_trans (hnew _ _ hbc hnb hpc) hlt, hpc⟩
      · exact Or.inr ⟨o, hpo, hxo, Relation.ReflTransGen.tail hoy hbc⟩
  intro x hcyc
  by_cases hpx : P x
  · exact hacy x (hA x x hcyc hpx).1
  · rcases hB x x hcyc hpx with ⟨hlt, hnx⟩ | ⟨o, hpo, hxo, hox⟩
    · exact lt_irrefl x hlt
    · rcases Relation.reflTransGen_iff_eq_or_transGen.mp hox with he | hto
      · rw [he] at hpx
        exact hpx hpo
      · exact hacy o (hA o o (Relation.TransGen.trans hto hxo) hpo).1

/-- Duplicate preserves well-formedness. -/
theorem wf_duplicate {reg : Registry} {s : BlockStore} {i : Nat}
    {dup : Bool} {now : Nat} {out : BlockStore × Block} (hwf : Wf reg s)
    (h : duplicate s i dup now = .ok out) : Wf reg out.1 := by
  rcases duplicate_ok_inv h with ⟨b, nb, rest0, hA, hcl, hout⟩
  subst hout
  have hbid : b.id = i := findBlock_id_eq hA
  have hspec := dupClones_spec hwf hA dup now
  rw [hcl] at hspec
  unfold CloneSpec at hspec
  dsimp only at hspec
  obtain ⟨hA0, hB0, hC0, hD0, hE0, hF0, hG0⟩ := hspec
  have hOldNone : ∀ c, s.nextId ≤ c → findBlock s.blocks c = none := by
    intro c hc
    apply findBlock_eq_none_of_not_mem
    intro hmem
    rcases List.mem_map.mp hmem with ⟨z, hz, hze⟩
    have hlt := hwf.idsBound z hz
    rw [hze] at hlt
    exact absurd hlt (Nat.not_lt.mpr hc)
  have hCsFind : ∀ x ∈ nb :: rest0, findBlock (nb :: rest0) x.id = some x :=
    fun x hx => findBlock_mem_nodup hC0 hx
  obtain ⟨tc, htc, htcid, htcp, src0, sb0, hsrc0, hfsb0, htcb⟩ :=
    hE0 s.nextId (List.mem_singleton.mpr rfl)
  have hsb0 : b = sb0 := by
    rcases List.mem_singleton.mp hsrc0 with rfl
    rw [hA] at hfsb0
    cases hfsb0
    rfl
  subst hsb0
  have hdisj : ∀ a, a ∈ s.blocks.map Block.id →
      a ∈ (nb :: rest0).map Block.id → False := by
    intro a h1 h2
    rcases List.mem_map.mp h1 with ⟨z, hz, hze⟩
    rcases List.mem_map.mp h2 with ⟨w, hw, hwe⟩
    have hz2 := hwf.idsBound z hz
    have hw2 := (hB0 w hw).1
    rw [hze] at hz2
    rw [hwe] at hw2
    exact absurd hz2 (Nat.not_lt.mpr hw2)
  have hbb : findBlock s.blocks b.id = some b := by
    rw [hbid]
    exact hA
  cases hbp : b.parentId with
  | none =>
    have hblocks : (attachClones s b (nb :: rest0)
        (dupClones s b dup now).2 now).blocks = s.blocks ++ (nb :: rest0) := by
      simp only [attachClones, hbp]
    have hroots : (attachClones s b (nb :: rest0)
        (dupClones s b dup now).2 now).roots = s.roots ++ [s.nextId] := by
      simp only [attachClones, hbp]
    have hnext : (attachClones s b (nb :: rest0)
        (dupClones s b dup now).2 now).nextId = (dupClones s b dup now).2 := by
      simp only [attachClones, hbp]
    have hnodup2 : ((s.blocks ++ (nb :: rest0)).map Block.id).Nodup := by
      rw [List.map_append]
      exact List.Nodup.append hwf.nodupIds hC0 hdisj
    have hfOld : ∀ c b0, findBlock s.blocks c = some b0 →
        findBlock (s.blocks ++ (nb :: rest0)) c = some b0 := by
      intro c b0 h0
      rw [findBlock_append, h0]
    have hfNew : ∀ x ∈ nb :: rest0,
        findBlock (s.blocks ++ (nb :: rest0)) x.id = some x := by
      intro x hx
      rw [findBlock_append, hOldNone x.id (hB0 x hx).1]
      exact hCsFind x hx
    have hfInv : ∀ c x2, findBlock (s.blocks ++ (nb :: rest0)) c = some x2 →
        findBlock s.blocks c = some x2 ∨
          (findBlock s.blocks c = none ∧ x2 ∈ nb :: rest0) := by
      intro c x2 h2
      rw [findBlock_append] at h2
      cases ho : findBlock s.blocks c with
      | some b0 =>
        rw [ho] at h2
        dsimp only at h2
        cases h2
        exact Or.inl rfl
      | none =>
        rw [ho] at h2
        dsimp only at h2
        exact Or.inr ⟨rfl, findBlock_mem h2⟩
    constructor
    · rw [hblocks]
      exact hnodup2
    · intro x hx
      rw [hblocks] at hx
      rw [hnext]
      rcases List.mem_append.mp hx with hxo | hxn
      · exact lt_of_lt_of_le (hwf.idsBound x hxo) hA0
      · exact (hB0 x hxn).2
    · intro x hx
      rw [hblocks] at hx
      rcases List.mem_append.mp hx with hxo | hxn
      · exact hwf.childNodup x hxo
      · exact (hG0 x hxn).1
    · intro x hx c hc
      rw [hblocks] at hx
      rw [hblocks]
      rcases List.mem_append.mp hx with hxo | hxn
      · rcases hwf.childBack x hxo c hc with ⟨cb, hcb, hcbp⟩
        exact ⟨cb, hfOld c cb hcb, hcbp⟩
      · rcases (hG0 x hxn).2 c hc with ⟨hlt, hlt2, y, hy, hyid, hyp, hty⟩
        refine ⟨y, ?_, hyp⟩
        rw [← hyid]
        exact hfNew y hy
    · intro x hx c hc cb2 hcb2
      rw [hblocks] at hx hcb2
      rcases List.mem_append.mp hx with hxo | hxn
      · rcases hwf.childBack x hxo c hc with ⟨cb, hcb, _⟩
        have hf2 := hfOld c cb hcb
        rw [hf2] at hcb2
        cases hcb2
        exact hwf.typesLegal x hxo c hc _ hcb
      · rcases (hG0 x hxn).2 c hc with ⟨hlt, hlt2, y, hy, hyid, hyp, hty⟩
        have hf2 : findBlock (s.blocks ++ (nb :: rest0)) c = some y := by
          rw [← hyid]
          exact hfNew y hy
        rw [hf2] at hcb2
        cases hcb2
        exact hty
    · intro x hx q hq
      rw [hblocks] at hx
      rw [hblocks]
      rcases List.mem_append.mp hx with hxo | hxn
      · rcases hwf.parentFwd x hxo q hq with ⟨qb, hqb, hin⟩
        exact ⟨qb, hfOld q qb hqb, hin⟩
      · rcases hF0 x hxn with ⟨hp2, hmem⟩ | ⟨y, hy, hp2, hcm, hlt⟩
        · rw [hbp] at hp2
          rw [hp2] at hq
          cases hq
        · rw [hp2] at hq
          cases hq
          exact ⟨y, hfNew y hy, hcm⟩
    · rw [hroots]
      refine List.Nodup.append hwf.rootsNodup (List.nodup_singleton _) ?_
      intro a ha1 ha2
      rcases List.mem_singleton.mp ha2 with rfl
      rcases hwf.rootsValid _ ha1 with ⟨br, hbr, _⟩
      have hlt := hwf.idsBound br (findBlock_mem hbr)
      rw [findBlock_id_eq hbr] at hlt
      exact lt_irrefl _ hlt
    · intro r hr
      rw [hroots] at hr
      rw [hblocks]
      rcases List.mem_append.mp hr with hro | hrn
      · rcases hwf.rootsValid r hro with ⟨br, hbr, hbrp⟩
        exact ⟨br, hfOld r br hbr, hbrp⟩
      · rcases List.mem_singleton.mp hrn with rfl
        refine ⟨tc, ?_, ?_⟩
        · have hf2 := hfNew tc htc
          rw [htcid] at hf2
          exact hf2
        · rw [htcp, hbp]
    · intro x hx hxp
      rw [hblocks] at hx
      rw [hroots]
      rcases List.mem_append.mp hx with hxo | hxn
      · exact List.mem_append_left _ (hwf.rootsComplete x hxo hxp)
      · rcases hF0 x hxn with ⟨hp2, hmem⟩ | ⟨y, hy, hp2, _, _⟩
        · exact List.mem_append_right _ hmem
        · rw [hp2] at hxp
          cases hxp
    · rw [hblocks]
      intro z
      refine @acyclic_layered (ParentEdge s.blocks) _
        (fun a => a < s.nextId) ?_ hwf.acyclic ?_ z
      · intro a c hedge hpa
        rcases hedge with ⟨bb, hbb2, hbbp⟩
        rcases hfInv a bb hbb2 with hbo | ⟨hno, hbn⟩
        · refine ⟨⟨bb, hbo, hbbp⟩, ?_⟩
          rcases hwf.parentFwd bb (findBlock_mem hbo) c hbbp with ⟨pb2, hpb2, _⟩
          rw [← findBlock_id_eq hpb2]
          exact hwf.idsBound pb2 (findBlock_mem hpb2)
        · have hge := (hB0 bb hbn).1
          rw [findBlock_id_eq hbb2] at hge
          exact absurd hpa (Nat.not_lt.mpr hge)
      · intro a c hedge hna hnc
        rcases hedge with ⟨bb, hbb2, hbbp⟩
        rcases hfInv a bb hbb2 with hbo | ⟨hno, hbn⟩
        · have hlt := hwf.idsBound bb (findBlock_mem hbo)
          rw [findBlock_id_eq hbo] at hlt
          exact absurd hlt hna
        · rcases hF0 bb hbn with ⟨hp2, _⟩ | ⟨y, hy, hp2, _, hylt⟩
          · rw [hbp] at hp2
            rw [hp2] at hbbp
            cases hbbp
          · rw [hp2] at hbbp
            cases hbbp
            rw [← findBlock_id_eq hbb2]
            exact hylt
  | some p =>
    rcases hwf.parentFwd b (findBlock_mem hA) p hbp with ⟨pb, hpb, hbin⟩
    have hpid2 : pb.id = p := findBlock_id_eq hpb
    have hplt : p < s.nextId := by
      rw [← hpid2]
      exact hwf.idsBound pb (findBlock_mem hpb)
    have hmi : ∀ c, findBlock (s.blocks.map (fun x =>
        if x.id = p then
          { x with children := x.children ++ [s.nextId], updatedAt := now }
        else x)) c =
        if c = p then (findBlock s.blocks c).map (fun x =>
          { x with children := x.children ++ [s.nextId], updatedAt := now })
        else findBlock s.blocks c :=
      fun c => @findBlock_map_ite p (fun x =>
        { x with children := x.children ++ [s.nextId], updatedAt := now })
        (fun _ => rfl) s.blocks c
    have hblocks : (attachClones s b (nb :: rest0)
        (dupClones s b dup now).2 now).blocks =
        (s.blocks.map (fun x =>
          if x.id = p then
            { x with children := x.children ++ [s.nextId], updatedAt := now }
          else x)) ++ (nb :: rest0) := by
      simp only [attachClones, hbp]
    have hroots : (attachClones s b (nb :: rest0)
        (dupClones s b dup now).2 now).roots = s.roots := by
      simp only [attachClones, hbp]
    have hnext : (attachClones s b (nb :: rest0)
        (dupClones s b dup now).2 now).nextId = (dupClones s b dup now).2 := by
      simp only [attachClones, hbp]
    have hids1 : (s.blocks.map (fun x =>
        if x.id = p then
          { x with children := x.children ++ [s.nextId], updatedAt := now }
        else x)).map Block.id = s.blocks.map Block.id :=
      @map_ids_ite p (fun x =>
        { x with children := x.children ++ [s.nextId], updatedAt := now })
        (fun _ => rfl) s.blocks
    have hnodup2 : (((s.blocks.map (fun x =>
        if x.id = p then
          { x with children := x.children ++ [s.nextId], updatedAt := now }
        else x)) ++ (nb :: rest0)).map Block.id).Nodup := by
      rw [List.map_append, hids1]
      exact List.Nodup.append hwf.nodupIds hC0 hdisj
    have hfOld2 : ∀ c b0, findBlock s.blocks c = some b0 →
        findBlock ((s.blocks.map (fun x =>
          if x.id = p then
            { x with children := x.children ++ [s.nextId], updatedAt := now }
          else x)) ++ (nb :: rest0)) c =
          some (if c = p then
            { b0 with children := b0.children ++ [s.nextId], updatedAt := now }
          else b0) := by
      intro c b0 h0
      rw [findBlock_append, hmi c]
      by_cases hcp : c = p
      · rw [if_pos hcp, if_pos hcp, h0, Option.map_some']
      · rw [if_neg hcp, if_neg hcp, h0]
    have hfNew2 : ∀ x ∈ nb :: rest0,
        findBlock ((s.blocks.map (fun x =>
          if x.id = p then
            { x with children := x.children ++ [s.nextId], updatedAt := now }
          else x)) ++ (nb :: rest0)) x.id = some x := by
      intro x hx
      have hxge := (hB0 x hx).1
      have hxne : ¬ x.id = p := by
        intro he
        rw [he] at hxge
        exact absurd hplt (Nat.not_lt.mpr hxge)
      rw [findBlock_append, hmi x.id, if_neg hxne, hOldNone x.id hxge]
      exact hCsFind x hx
    have hfInv2 : ∀ c x2, findBlock ((s.blocks.map (fun x =>
          if x.id = p then
            { x with children := x.children ++ [s.nextId], updatedAt := now }
          else x)) ++ (nb :: rest0)) c = some x2 →
        (∃ b0, findBlock s.blocks c = some b0 ∧
          x2 = (if c = p then
            { b0 with children := b0.children ++ [s.nextId], updatedAt := now }
          else b0)) ∨
        (findBlock s.blocks c = none ∧ x2 ∈ nb :: rest0) := by
      intro c x2 h2
      rw [findBlock_append, hmi c] at h2
      by_cases hcp : c = p
      · rw [if_pos hcp] at h2
        cases ho : findBlock s.blocks c with
        | some b0 =>
          rw [ho, Option.map_some'] at h2
          dsimp only at h2
          have hx2 : x2 = { b0 with children := b0.children ++ [s.nextId], updatedAt := now } := by
            cases h2
            rfl
          refine Or.inl ⟨b0, rfl, ?_⟩
          rw [if_pos hcp]
          exact hx2
        | none =>
          rw [ho, Option.map_none'] at h2
          dsimp only at h2
          exact Or.inr ⟨rfl, findBlock_mem h2⟩
      · rw [if_neg hcp] at h2
        cases ho : findBlock s.blocks c with
        | some b0 =>
          rw [ho] at h2
          dsimp only at h2
          have hx2 : x2 = b0 := by
            cases h2
            rfl
          refine Or.inl ⟨b0, rfl, ?_⟩
          rw [if_neg hcp]
          exact hx2
        | none =>
          rw [ho] at h2
          dsimp only at h2
          exact Or.inr ⟨rfl, findBlock_mem h2⟩
    constructor
    · rw [hblocks]
      exact hnodup2
    · intro x hx
      rw [hblocks] at hx
      rw [hnext]
      have hsf := findBlock_mem_nodup hnodup2 hx
      rcases hfInv2 x.id x hsf with ⟨b0, hb0, hxe⟩ | ⟨hno, hxn⟩
      · have hb0l := hwf.idsBound b0 (findBlock_mem hb0)
        by_cases hcp : x.id = p
        · rw [if_pos hcp] at hxe
          rw [hxe]
          exact lt_of_lt_of_le hb0l hA0
        · rw [if_neg hcp] at hxe
          rw [hxe]
          exact lt_of_lt_of_le hb0l hA0
      · exact (hB0 x hxn).2
    · intro x hx
      rw [hblocks] at hx
      have hsf := findBlock_mem_nodup hnodup2 hx
      rcases hfInv2 x.id x hsf with ⟨b0, hb0, hxe⟩ | ⟨hno, hxn⟩
      · by_cases hcp : x.id = p
        · rw [if_pos hcp] at hxe
          rw [hxe]
          show (b0.children ++ [s.nextId]).Nodup
          have hnotin : s.nextId ∉ b0.children := by
            intro hmem
            rcases hwf.childBack b0 (findBlock_mem hb0) s.nextId hmem with
              ⟨cb, hcb, _⟩
            have hlt := hwf.idsBound cb (findBlock_mem hcb)
            rw [findBlock_id_eq hcb] at hlt
            exact lt_irrefl _ hlt
          refine List.Nodup.append (hwf.childNodup b0 (findBlock_mem hb0))
            (List.nodup_singleton _) ?_
          intro a ha1 ha2
          rcases List.mem_singleton.mp ha2 with rfl
          exact hnotin ha1
        · rw [if_neg hcp] at hxe
          rw [hxe]
          exact hwf.childNodup b0 (findBlock_mem hb0)
      · exact (hG0 x hxn).1
    · intro x hx c hc
      rw [hblocks] at hx
      rw [hblocks]
      have hsf := findBlock_mem_nodup hnodup2 hx
      rcases hfInv2 x.id x hsf with ⟨b0, hb0, hxe⟩ | ⟨hno, hxn⟩
      · have hb0id : b0.id = x.id := findBlock_id_eq hb0
        have hold_child : ∀ cc, cc ∈ b0.children →
            ∃ cb2, findBlock ((s.blocks.map (fun x =>
              if x.id = p then
                { x with children := x.children ++ [s.nextId], updatedAt := now }
              else x)) ++ (nb :: rest0)) cc = some cb2 ∧
              cb2.parentId = some x.id := by
          intro cc hcc
          rcases hwf.childBack b0 (findBlock_mem hb0) cc hcc with
            ⟨cb, hcb, hcbp⟩
          refine ⟨_, hfOld2 cc cb hcb, ?_⟩
          by_cases hccp : cc = p
          · rw [if_pos hccp]
            show cb.parentId = some x.id
            rw [hcbp, hb0id]
          · rw [if_neg hccp]
            rw [hcbp, hb0id]
        by_cases hcp : x.id = p
        · rw [if_pos hcp] at hxe
          have hcx : c ∈ b0.children ++ [s.nextId] := by
            rw [hxe] at hc
            exact hc
          rcases List.mem_append.mp hcx with hcc | hcs
          · exact hold_child c hcc
          · rcases List.mem_singleton.mp hcs with rfl
            refine ⟨tc, ?_, ?_⟩
            · have hf2 := hfNew2 tc htc
              rw [htcid] at hf2
              exact hf2
            · rw [htcp, hbp, ← hcp]
        · rw [if_neg hcp] at hxe
          have hcx : c ∈ b0.children := by
            rw [hxe] at hc
            exact hc
          exact hold_child c hcx
      · rcases (hG0 x hxn).2 c hc with ⟨hlt, hlt2, y, hy, hyid, hyp, hty⟩
        refine ⟨y, ?_, hyp⟩
        rw [← hyid]
        exact hfNew2 y hy
    · intro x hx c hc cb2 hcb2
      rw [hblocks] at hx hcb2
      have hsf := findBlock_mem_nodup hnodup2 hx
      rcases hfInv2 x.id x hsf with ⟨b0, hb0, hxe⟩ | ⟨hno, hxn⟩
      · by_cases hcp : x.id = p
        · rw [if_pos hcp] at hxe
          have hcx : c ∈ b0.children ++ [s.nextId] := by
            rw [hxe] at hc
            exact hc
          rcases List.mem_append.mp hcx with hcc | hcs
          · rcases hwf.childBack b0 (findBlock_mem hb0) c hcc with
              ⟨cb, hcb, _⟩
            have hf2 := hfOld2 c cb hcb
            rw [hf2] at hcb2
            cases hcb2
            rw [hxe]
            by_cases hccp : c = p
            · rw [if_pos hccp]
              exact hwf.typesLegal b0 (findBlock_mem hb0) c hcc cb hcb
            · rw [if_neg hccp]
              exact hwf.typesLegal b0 (findBlock_mem hb0) c hcc cb hcb
          · rcases List.mem_singleton.mp hcs with rfl
            have hf2 : findBlock ((s.blocks.map (fun x =>
                if x.id = p then
                  { x with children := x.children ++ [s.nextId], updatedAt := now }
                else x)) ++ (nb :: rest0)) s.nextId = some tc := by
              have h3 := hfNew2 tc htc
              rw [htcid] at h3
              exact h3
            rw [hf2] at hcb2
            cases hcb2
            rw [hxe, htcb]
            have hb0pb : b0 = pb := by
              have hb02 : findBlock s.blocks p = some b0 := by
                rw [← hcp]
                exact hb0
              rw [hpb] at hb02
              cases hb02
              rfl
            rw [hb0pb]
            exact hwf.typesLegal pb (findBlock_mem hpb) b.id hbin b hbb
        · rw [if_neg hcp] at hxe
          have hcx : c ∈ b0.children := by
            rw [hxe] at hc
            exact hc
          rcases hwf.childBack b0 (findBlock_mem hb0) c hcx with ⟨cb, hcb, _⟩
          have hf2 := hfOld2 c cb hcb
          rw [hf2] at hcb2
          cases hcb2
          rw [hxe]
          by_cases hccp : c = p
          · rw [if_pos hccp]
            exact hwf.typesLegal b0 (findBlock_mem hb0) c hcx cb hcb
          · rw [if_neg hccp]
            exact hwf.typesLegal b0 (findBlock_mem hb0) c hcx cb hcb
      · rcases (hG0 x hxn).2 c hc with ⟨hlt, hlt2, y, hy, hyid, hyp, hty⟩
        have hf2 : findBlock ((s.blocks.map (fun x =>
            if x.id = p then
              { x with children := x.children ++ [s.nextId], updatedAt := now }
            else x)) ++ (nb :: rest0)) c = some y := by
          rw [← hyid]
          exact hfNew2 y hy
        rw [hf2] at hcb2
        cases hcb2
        exact hty
    · intro x hx q hq
      rw [hblocks] at hx
      rw [hblocks]
      have hsf := findBlock_mem_nodup hnodup2 hx
      rcases hfInv2 x.id x hsf with ⟨b0, hb0, hxe⟩ | ⟨hno, hxn⟩
      · have hb0id : b0.id = x.id := findBlock_id_eq hb0
        have hq0 : b0.parentId = some q := by
          by_cases hcp : x.id = p
          · rw [if_pos hcp] at hxe
            rw [hxe] at hq
            exact hq
          · rw [if_neg hcp] at hxe
            rw [hxe] at hq
            exact hq
        rcases hwf.parentFwd b0 (findBlock_mem hb0) q hq0 with ⟨qb, hqb, hin⟩
        refine ⟨_, hfOld2 q qb hqb, ?_⟩
        by_cases hqp : q = p
        · rw [if_pos hqp]
          show x.id ∈ qb.children ++ [s.nextId]
          exact List.mem_append_left _ (hb0id ▸ hin)
        · rw [if_neg hqp]
          exact hb0id ▸ hin
      · rcases hF0 x hxn with ⟨hp2, hmem⟩ | ⟨y, hy, hp2, hcm, hlt⟩
        · rw [hbp] at hp2
          rw [hp2] at hq
          have hqp : q = p := by
            cases hq
            rfl
          rw [hqp]
          have hf2 := hfOld2 p pb hpb
          rw [if_pos rfl] at hf2
          refine ⟨_, hf2, ?_⟩
          show x.id ∈ pb.children ++ [s.nextId]
          exact List.mem_append_right _ hmem
        · rw [hp2] at hq
          have hqy : q = y.id := by
            cases hq
            rfl
          rw [hqy]
          exact ⟨y, hfNew2 y hy, hcm⟩
    · rw [hroots]
      exact hwf.rootsNodup
    · intro r hr
      rw [hroots] at hr
      rw [hblocks]
      rcases hwf.rootsValid r hr with ⟨br, hbr, hbrp⟩
      refine ⟨_, hfOld2 r br hbr, ?_⟩
      by_cases hrp : r = p
      · rw [if_pos hrp]
        show br.parentId = none
        exact hbrp
      · rw [if_neg hrp]
        exact hbrp
    · intro x hx hxp
      rw [hblocks] at hx
      rw [hroots]
      have hsf := findBlock_mem_nodup hnodup2 hx
      rcases hfInv2 x.id x hsf with ⟨b0, hb0, hxe⟩ | ⟨hno, hxn⟩
      · have hb0id : b0.id = x.id := findBlock_id_eq hb0
        have hp0 : b0.parentId = none := by
          by_cases hcp : x.id = p
          · rw [if_pos hcp] at hxe
            rw [hxe] at hxp
            exact hxp
          · rw [if_neg hcp] at hxe
            rw [hxe] at hxp
            exact hxp
        rw [← hb0id]
        exact hwf.rootsComplete b0 (findBlock_mem hb0) hp0
      · rcases hF0 x hxn with ⟨hp2, hmem⟩ | ⟨y, hy, hp2, _, _⟩
        · rw [hbp] at hp2
          rw [hp2] at hxp
          cases hxp
        · rw [hp2] at hxp
          cases hxp
    · rw [hblocks]
      intro z
      refine @acyclic_layered (ParentEdge s.blocks) _
        (fun a => a < s.nextId) ?_ hwf.acyclic ?_ z
      · intro a c hedge hpa
        rcases hedge with ⟨bb, hbb2, hbbp⟩
        rcases hfInv2 a bb hbb2 with ⟨b0, hb0, hbe⟩ | ⟨hno, hbn⟩
        · have hbp0 : b0.parentId = some c := by
            by_cases hap : a = p
            · rw [if_pos hap] at hbe
              rw [hbe] at hbbp
              exact hbbp
            · rw [if_neg hap] at hbe
              rw [hbe] at hbbp
              exact hbbp
          refine ⟨⟨b0, hb0, hbp0⟩, ?_⟩
          rcases hwf.parentFwd b0 (findBlock_mem hb0) c hbp0 with
            ⟨pb2, hpb2, _⟩
          rw [← findBlock_id_eq hpb2]
          exact hwf.idsBound pb2 (findBlock_mem hpb2)
        · have hge := (hB0 bb hbn).1
          rw [findBlock_id_eq hbb2] at hge
          exact absurd hpa (Nat.not_lt.mpr hge)
      · intro a c hedge hna hnc
        rcases hedge with ⟨bb, hbb2, hbbp⟩
        rcases hfInv2 a bb hbb2 with ⟨b0, hb0, hbe⟩ | ⟨hno, hbn⟩
        · have hlt := hwf.idsBound b0 (findBlock_mem hb0)
          rw [findBlock_id_eq hb0] at hlt
          exact absurd hlt hna
        · rcases hF0 bb hbn with ⟨hp2, _⟩ | ⟨y, hy, hp2, _, hylt⟩
          · rw [hbp] at hp2
            rw [hp2] at hbbp
            cases hbbp
            exact absurd hplt (fun h2 => hnc h2)
          · rw [hp2] at hbbp
            cases hbbp
            rw [← findBlock_id_eq hbb2]
            exact hylt

/-! ## Clear, Import and the operation level -/

/-- The empty store is well-formed. -/
theorem wf_empty (reg : Registry) : Wf reg emptyStore := by
  constructor
  · exact List.nodup_nil
  · intro b hb
    cases hb
  · intro b hb
    cases hb
  · intro b hb
    cases hb
  · intro b hb
    cases hb
  · intro b hb
    cases hb
  · exact List.nodup_nil
  · intro r hr
    cases hr
  · intro b hb
    cases hb
  · intro x hx
    rcases Relation.TransGen.head'_iff.mp hx with ⟨y, hedge, _⟩
    rcases hedge with ⟨bb, hbb, _⟩
    have hx2 : (none : Option Block) = some bb := hbb
    cases hx2

/-- A cleared store is well-formed. -/
theorem wf_clear (reg : Registry) (s : BlockStore) : Wf reg (clear s) := by
  constructor
  · exact List.nodup_nil
  · intro b hb
    cases hb
  · intro b hb
    cases hb
  · intro b hb
    cases hb
  · intro b hb
    cases hb
  · intro b hb
    cases hb
  · exact List.nodup_nil
  · intro r hr
    cases hr
  · intro b hb
    cases hb
  · intro x hx
    rcases Relation.TransGen.head'_iff.mp hx with ⟨y, hedge, _⟩
    rcases hedge with ⟨bb, hbb, _⟩
    have hx2 : (none : Option Block) = some bb := hbb
    cases hx2

/-- Every stored id is bounded by the maximum id. -/
theorem le_maxId {bs : List Block} {b : Block} (hb : b ∈ bs) :
    b.id ≤ maxId bs := by
  induction bs with
  | nil => cases hb
  | cons hd tl ih =>
    rcases List.mem_cons.mp hb with rfl | hm
    · show b.id ≤ max b.id (maxId tl)
      exact le_max_left _ _
    · show b.id ≤ max hd.id (maxId tl)
      exact le_trans (ih hm) (le_max_right _ _)

/-- Boolean membership agrees with list membership. -/
theorem contains_iff_mem {l : List Nat} {a : Nat} :
    l.contains a = true ↔ a ∈ l := by
  induction l with
  | nil => simp [List.contains]
  | cons hd tl ih => simp [List.contains]

/-- Soundness of the structural validity check: a store passing
`validStoreB` whose ids respect the fresh-id bound is well-formed. -/
theorem validStoreB_sound {reg : Registry} {s : BlockStore}
    (h : validStoreB reg s = true)
    (hbound : ∀ b ∈ s.blocks, b.id < s.nextId) : Wf reg s := by
  unfold validStoreB at h
  simp only [Bool.and_eq_true, List.all_eq_true] at h
  obtain ⟨⟨⟨⟨⟨h1, h2⟩, h3⟩, h4⟩, h5⟩, h6⟩ := h
  have hchild : ∀ b ∈ s.blocks, b.children.Nodup ∧
      ∀ c ∈ b.children, ∃ cb, findBlock s.blocks c = some cb ∧
        cb.parentId = some b.id ∧ canHaveChild reg b.btype cb.btype = true := by
    intro b hb
    have hball := h2 b hb
    refine ⟨allDistinct_iff_nodup.mp hball.1, ?_⟩
    intro c hc
    have hcall := hball.2 c hc
    cases hfc : findBlock s.blocks c with
    | none =>
      rw [hfc] at hcall
      cases hcall
    | some cb =>
      rw [hfc] at hcall
      dsimp only at hcall
      rw [Bool.and_eq_true] at hcall
      exact ⟨cb, rfl, beq_iff_eq.mp hcall.1, hcall.2⟩
  constructor
  · exact allDistinct_iff_nodup.mp h1
  · exact hbound
  · intro b hb
    exact (hchild b hb).1
  · intro b hb c hc
    rcases (hchild b hb).2 c hc with ⟨cb, hcb, hcbp, _⟩
    exact ⟨cb, hcb, hcbp⟩
  · intro b hb c hc cb hcb
    rcases (hchild b hb).2 c hc with ⟨cb2, hcb2, _, hty⟩
    rw [hcb] at hcb2
    cases hcb2
    exact hty
  · intro b hb q hq
    have hball := h3 b hb
    rw [hq] at hball
    dsimp only at hball
    rw [Bool.and_eq_true] at hball
    cases hfq : findBlock s.blocks q with
    | none =>
      rw [hfq] at hball
      cases hball.1
    | some pb =>
      rw [hfq] at hball
      exact ⟨pb, rfl, contains_iff_mem.mp hball.1⟩
  · exact allDistinct_iff_nodup.mp h4
  · intro r hr
    have hrall := h5 r hr
    cases hfr : findBlock s.blocks r with
    | none =>
      rw [hfr] at hrall
      cases hrall
    | some br =>
      rw [hfr] at hrall
      dsimp only at hrall
      exact ⟨br, rfl, beq_iff_eq.mp hrall⟩
  · intro b hb hbp
    have hball := h3 b hb
    rw [hbp] at hball
    dsimp only at hball
    exact contains_iff_mem.mp hball
  · apply acyclicE_sound
    intro b hb
    have := h6 b hb
    exact Option.isNone_iff_eq_none.mp this

/-- Completeness of the structural validity check on well-formed
stores. -/
theorem validStoreB_complete {reg : Registry} {s : BlockStore}
    (hwf : Wf reg s) : validStoreB reg s = true := by
  unfold validStoreB
  simp only [Bool.and_eq_true, List.all_eq_true]
  refine ⟨⟨⟨⟨⟨?_, ?_⟩, ?_⟩, ?_⟩, ?_⟩, ?_⟩
  · exact allDistinct_iff_nodup.mpr hwf.nodupIds
  · intro b hb
    refine ⟨allDistinct_iff_nodup.mpr (hwf.childNodup b hb), ?_⟩
    intro c hc
    rcases hwf.childBack b hb c hc with ⟨cb, hcb, hcbp⟩
    rw [hcb]
    dsimp only
    rw [Bool.and_eq_true]
    exact ⟨beq_iff_eq.mpr hcbp, hwf.typesLegal b hb c hc cb hcb⟩
  · intro b hb
    cases hbp : b.parentId with
    | none =>
      dsimp only
      exact contains_iff_mem.mpr (hwf.rootsComplete b hb hbp)
    | some p =>
      dsimp only
      rw [Bool.and_eq_true]
      rcases hwf.parentFwd b hb p hbp with ⟨pb, hpb, hin⟩
      rw [hpb]
      constructor
      · exact contains_iff_mem.mpr hin
      · rw [Bool.not_eq_true', ← Bool.not_eq_true]
        intro hmem
        rcases hwf.rootsValid b.id (contains_iff_mem.mp hmem) with
          ⟨br, hbr, hbrp⟩
        have hfb := findBlock_mem_nodup hwf.nodupIds hb
        rw [hfb] at hbr
        cases hbr
        rw [hbp] at hbrp
        cases hbrp
  · exact allDistinct_iff_nodup.mpr hwf.rootsNodup
  · intro r hr
    rcases hwf.rootsValid r hr with ⟨br, hbr, hbrp⟩
    rw [hbr]
    dsimp only
    exact beq_iff_eq.mpr hbrp
  · intro b hb
    have hnone := acyclic_iter_none hwf.nodupIds hwf.parentFwd hwf.acyclic
      ⟨b, findBlock_mem_nodup hwf.nodupIds hb⟩
    rw [hnone]
    rfl

/-- Inversion of a successful `importTree`. -/
theorem importTree_ok_inv {reg : Registry} {t : BlockTree} {s2 : BlockStore}
    (h : importTree reg t = .ok s2) :
    s2 = { blocks := t.blocks, roots := t.roots,
           nextId := maxId t.blocks + 1 } ∧
    validStoreB reg s2 = true := by
  unfold importTree at h
  dsimp only at h
  by_cases hv : validStoreB reg
      { blocks := t.blocks, roots := t.roots,
        nextId := maxId t.blocks + 1 } = true
  · rw [if_pos hv] at h
    cases h
    exact ⟨rfl, hv⟩
  · rw [if_neg hv] at h
    cases h

/-- Import preserves well-formedness (the imported tree is validated
before it replaces the store). -/
theorem wf_import {reg : Registry} {t : BlockTree} {s2 : BlockStore}
    (h : importTree reg t = .ok s2) : Wf reg s2 := by
  rcases importTree_ok_inv h with ⟨hs2, hv⟩
  subst hs2
  apply validStoreB_sound hv
  intro b hb
  exact Nat.lt_succ_of_le (le_maxId hb)

/-- Every Wf store satisfies invariants 1-4 of spec §3. -/
theorem wf_invariants {reg : Registry} {s : BlockStore} (hwf : Wf reg s) :
    Invariants reg s := by
  refine ⟨?_, hwf.childBack, ?_, hwf.typesLegal⟩
  · intro b hb
    exact hwf.acyclic b.id
  · intro b hb
    constructor
    · intro hp
      exact List.count_eq_one_of_mem hwf.rootsNodup
        (hwf.rootsComplete b hb hp)
    · intro hp hmem
      rcases hwf.rootsValid b.id hmem with ⟨br, hbr, hbrp⟩
      have hfb := findBlock_mem_nodup hwf.nodupIds hb
      rw [hfb] at hbr
      cases hbr
      exact hp hbrp

/-- Every single operation preserves well-formedness. -/
theorem wf_applyOp {reg : Registry} {s : BlockStore} (hwf : Wf reg s)
    (op : BlockOp) : Wf reg (applyOp reg s op) := by
  cases op with
  | create t d p pos md now =>
    cases hc : create reg s t d p pos md now with
    | ok r =>
      simp only [applyOp, hc]
      exact wf_create hwf hc
    | error e =>
      simp only [applyOp, hc]
      exact hwf
  | update i d md now =>
    cases hc : update reg s i d md now with
    | ok r =>
      simp only [applyOp, hc]
      exact wf_update hwf hc
    | error e =>
      simp only [applyOp, hc]
      exact hwf
  | move i np pos now =>
    cases hc : move reg s i np pos now with
    | ok r =>
      simp only [applyOp, hc]
      exact wf_move hwf hc
    | error e =>
      simp only [applyOp, hc]
      exact hwf
  | delete i dc now =>
    cases hc : delete s i dc now with
    | ok r =>
      simp only [applyOp, hc]
      exact wf_delete hwf hc
    | error e =>
      simp only [applyOp, hc]
      exact hwf
  | duplicate i dc now =>
    cases hc : duplicate s i dc now with
    | ok r =>
      simp only [applyOp, hc]
      exact wf_duplicate hwf hc
    | error e =>
      simp only [applyOp, hc]
      exact hwf
  | importTree t =>
    cases hc : importTree reg t with
    | ok r =>
      simp only [applyOp, hc]
      exact wf_import hc
    | error e =>
      simp only [applyOp, hc]
      exact hwf
  | clear =>
    simp only [applyOp]
    exact wf_clear reg s

/-- Every operation sequence from the empty store yields a well-formed
store. -/
theorem wf_applyOps (reg : Registry) (ops : List BlockOp) :
    Wf reg (applyOps reg ops) := by
  unfold applyOps
  induction ops using List.reverseRecOn with
  | nil => exact wf_empty reg
  | append_singleton l op ih =>
    rw [List.foldl_append, List.foldl_cons, List.foldl_nil]
    exact wf_applyOp ih op

/-- The demo store is well-formed (established by the executable
check). -/
theorem wf_demoStore2 : Wf demoRegistry demoStore2 :=
  validStoreB_sound (by decide) (by decide)

/-- C1: after every sequence of Block Store operations (Create, Update,
Move, Delete, Duplicate, ImportTree, Clear) run from the empty store,
the store satisfies invariants 1-4 of the data model: the parent/child
relation is an acyclic forest, every id in any block's children array
exists with `parentId` pointing back at the referencing block, a block
is in the root set exactly when its `parentId` is null, and every
parent/child type pairing is permitted by the Schema Registry. -/
theorem c1_invariants_all_ops (reg : Registry) (ops : List BlockOp) :
    Invariants reg (applyOps reg ops) :=
  wf_invariants (wf_applyOps reg ops)

/-- C2: exporting a well-formed store and importing the result succeeds
and reproduces a store with the identical block list (same ids, same
parent/child structure and children order, same data per block) and the
identical root order. -/
theorem c2_export_import_roundtrip {reg : Registry} {s : BlockStore}
    (hwf : Wf reg s) (now : Nat) :
    ∃ s2, importTree reg (exportTree s now) = .ok s2 ∧
      s2.blocks = s.blocks ∧ s2.roots = s.roots := by
  have hv := validStoreB_complete hwf
  have hv2 : validStoreB reg
      { blocks := (exportTree s now).blocks,
        roots := (exportTree s now).roots,
        nextId := maxId (exportTree s now).blocks + 1 } = true := hv
  refine ⟨{ blocks := (exportTree s now).blocks,
            roots := (exportTree s now).roots,
            nextId := maxId (exportTree s now).blocks + 1 }, ?_, rfl, rfl⟩
  unfold importTree
  dsimp only
  rw [if_pos hv2]

theorem c2_export_import_roundtrip_witness :
    Wf demoRegistry demoStore2 ∧
    ∃ s2, importTree demoRegistry (exportTree demoStore2 0) = .ok s2 ∧
      s2.blocks = demoStore2.blocks ∧ s2.roots = demoStore2.roots :=
  ⟨wf_demoStore2, c2_export_import_roundtrip wf_demoStore2 0⟩

/-- C4: on a well-formed store, moving a block A under a target B that
equals A or is a descendant of A raises `CycleError`, and the operation
leaves the store (hence every block's parent, children and ancestor
chain) unchanged. -/
theorem c4_move_cycle_error {reg : Registry} {s : BlockStore} {A B : Nat}
    {a : Block} (hwf : Wf reg s) (ha : findBlock s.blocks A = some a)
    (hdesc : B = A ∨ Relation.TransGen (ParentEdge s.blocks) B A)
    (pos : Option Nat) (now : Nat) :
    move reg s A (some B) pos now = .error .cycle ∧
    applyOp reg s (.move A (some B) pos now) = s := by
  have hfB : ∃ bb, findBlock s.blocks B = some bb := by
    rcases hdesc with rfl | ht
    · exact ⟨a, ha⟩
    · rcases Relation.TransGen.head'_iff.mp ht with ⟨y, hedge, _⟩
      rcases hedge with ⟨bb, hbb, _⟩
      exact ⟨bb, hbb⟩
  rcases hfB with ⟨bb, hbb⟩
  have hcond : B = A ∨ A ∈ getAncestors s.blocks B := by
    rcases hdesc with rfl | ht
    · exact Or.inl rfl
    · rcases reach_imp_mem_ancestors hwf.nodupIds hwf.parentFwd hwf.acyclic
        ⟨bb, hbb⟩ ht.to_reflTransGen with he | hm
      · exact Or.inl he.symm
      · exact Or.inr hm
  have hmv : move reg s A (some B) pos now = .error .cycle := by
    unfold move
    rw [ha]
    dsimp only
    rw [hbb]
    dsimp only
    rw [if_pos hcond]
  refine ⟨hmv, ?_⟩
  simp only [applyOp, hmv]

theorem c4_move_cycle_error_witness :
    (1 = 0 ∨ Relation.TransGen (ParentEdge demoStore2.blocks) 1 0) ∧
    move demoRegistry demoStore2 0 (some 1) none 5 = .error .cycle ∧
    applyOp demoRegistry demoStore2 (.move 0 (some 1) none 5) = demoStore2 := by
  have hd : 1 = 0 ∨ Relation.TransGen (ParentEdge demoStore2.blocks) 1 0 :=
    Or.inr (Relation.TransGen.single
      ⟨demoBlock 1 "page" [("title", "child")] [] (some 0), rfl, rfl⟩)
  have ha : findBlock demoStore2.blocks 0
      = some (demoBlock 0 "page" [("title", "root")] [1] none) := rfl
  exact ⟨hd, c4_move_cycle_error wf_demoStore2 ha hd none 5⟩

/-! ## Claim C6: insertion positions and order preservation -/

theorem removeNat_append (x : Nat) (l1 l2 : List Nat) :
    removeNat x (l1 ++ l2) = removeNat x l1 ++ removeNat x l2 := by
  induction l1 with
  | nil => rfl
  | cons hd tl ih =>
    simp only [List.cons_append, removeNat]
    by_cases h : hd = x
    · rw [if_pos h, if_pos h]
      exact ih
    · rw [if_neg h, if_neg h]
      exact congrArg (fun ll => hd :: ll) ih

theorem removeNat_singleton_self (x : Nat) : removeNat x [x] = [] := by
  show (if x = x then removeNat x [] else x :: removeNat x []) = []
  rw [if_pos rfl]
  rfl

/-- Removing a freshly inserted id restores the original list: the
relative order of all other elements is untouched by an insertion. -/
theorem removeNat_insertPos {l : List Nat} {pos : Option Nat} {x : Nat}
    (h : x ∉ l) : removeNat x (insertPos pos x l) = l := by
  cases pos with
  | none =>
    show removeNat x (l ++ [x]) = l
    rw [removeNat_append, removeNat_eq_of_not_mem h,
      removeNat_singleton_self, List.append_nil]
  | some k =>
    show removeNat x (l.take k ++ x :: l.drop k) = l
    rw [removeNat_append]
    have htake : removeNat x (l.take k) = l.take k :=
      removeNat_eq_of_not_mem (fun hm => h (List.take_subset k l hm))
    have hdrop : removeNat x (x :: l.drop k) = l.drop k := by
      show (if x = x then removeNat x (l.drop k) else
        x :: removeNat x (l.drop k)) = l.drop k
      rw [if_pos rfl]
      exact removeNat_eq_of_not_mem (fun hm => h (List.drop_subset k l hm))
    rw [htake, hdrop, List.take_append_drop]

theorem attachBlocks_none (bs : List Block) (i : Nat) (pos : Option Nat)
    (now : Nat) : attachBlocks bs i none pos now = bs := rfl

theorem detachBlocks_none {bs : List Block} {b : Block} {now : Nat}
    (h : b.parentId = none) : detachBlocks bs b now = bs := by
  unfold detachBlocks
  rw [h]

theorem detachBlocks_some {bs : List Block} {b : Block} {now : Nat} {p : Nat}
    (h : b.parentId = some p) :
    detachBlocks bs b now = removeChild p b.id now bs := by
  unfold detachBlocks
  rw [h]

/-- C6: position semantics of Create and order preservation of Move.
Creating a child of parent `q` at `position` makes `q`'s children the
old children with the fresh id inserted by `insertPos`; `insertPos` at
`k ≤ n+1` inserts exactly at index `k`, out-of-range positions clamp to
append, and an absent position appends.  A Move to a new parent rewrites
the old parent's children to the old list with the moved id removed
(order of the others preserved), and the new parent's children to the
old list with the id inserted at `position` — removing the id again
restores the new parent's previous children exactly. -/
theorem c6_position_and_order (reg : Registry) :
    (∀ (s : BlockStore) (t : String) (d : BlockData) (q : Nat)
       (pos : Option Nat) (md : Metadata) (now : Nat) (s2 : BlockStore)
       (nb qb : Block),
       create reg s t d (some q) pos md now = .ok (s2, nb) →
       findBlock s.blocks q = some qb →
       findBlock s2.blocks q = some { qb with
         children := insertPos pos s.nextId qb.children,
         updatedAt := now }) ∧
    (∀ (l : List Nat) (k x : Nat), k ≤ l.length →
       insertPos (some k) x l = l.take k ++ x :: l.drop k) ∧
    (∀ (l : List Nat) (k x : Nat), l.length ≤ k →
       insertPos (some k) x l = l ++ [x]) ∧
    (∀ (l : List Nat) (x : Nat), insertPos none x l = l ++ [x]) ∧
    (∀ (s : BlockStore) (i : Nat) (np pos : Option Nat) (now : Nat)
       (s2 : BlockStore) (b pb : Block) (p0 : Nat),
       Wf reg s →
       move reg s i np pos now = .ok s2 →
       findBlock s.blocks i = some b →
       b.parentId = some p0 →
       findBlock s.blocks p0 = some pb →
       np ≠ some p0 →
       findBlock s2.blocks p0 = some { pb with
         children := removeNat i pb.children, updatedAt := now } ∧
       ∀ (q : Nat) (qb : Block), np = some q →
         findBlock s.blocks q = some qb →
         findBlock s2.blocks q = some { qb with
           children := insertPos pos i qb.children, updatedAt := now } ∧
         removeNat i (insertPos pos i qb.children) = qb.children) := by
  refine ⟨?_, ?_, ?_, ?_, ?_⟩
  · -- Create inserts at position
    intro s t d q pos md now s2 nb qb hcr hqb
    rcases create_ok_inv hcr with ⟨_, _, _, hcase⟩
    rcases hcase with ⟨hpid, _, _⟩ | ⟨p, pb2, hpid, hfp, _, hbs, _⟩
    · cases hpid
    · have hqp : q = p := by
        cases hpid
        rfl
      rw [hbs, findBlock_append,
        @findBlock_map_ite p (withChildInserted pos s.nextId now)
          (fun _ => rfl) s.blocks q,
        if_pos hqp, hqb, Option.map_some']
      rfl
  · -- in-range insertion
    intro l k x hk
    rfl
  · -- clamp to append
    intro l k x hk
    show l.take k ++ x :: l.drop k = l ++ [x]
    rw [List.take_of_length_le hk, List.drop_of_length_le hk]
  · -- absent position appends
    intro l x
    rfl
  · -- Move order preservation
    intro s i np pos now s2 b pb p0 hwf hmv hb hbp hpb hnp
    rcases move_ok_inv hmv with ⟨b2, hfb2, hs2, hcond⟩
    have hbe : b2 = b := by
      rw [hb] at hfb2
      cases hfb2
      rfl
    rw [hbe] at hs2 hcond
    have hbid : b.id = i := findBlock_id_eq hb
    have hp0i : p0 ≠ i := by
      intro he
      apply no_self_parent hwf hb
      rw [hbp, he]
    have hp0b : ¬ p0 = b.id := fun he => hp0i (hbid ▸ he)
    subst hs2
    have hblk : (moveApply s b np pos now).blocks =
        setParent (attachBlocks (detachBlocks s.blocks b now) b.id np pos now)
          b.id np now := rfl
    cases np with
    | none =>
      refine ⟨?_, ?_⟩
      · rw [hblk, setParent_find, if_neg hp0b, attachBlocks_none,
          detachBlocks_some hbp, removeChild_find, if_pos rfl, hpb,
          Option.map_some', hbid]
      · intro q qb hq
        cases hq
    | some q0 =>
      have hq0i : ¬ (q0 = i ∨ i ∈ getAncestors s.blocks q0) := by
        rcases hcond with hnone | ⟨q2, qb2, hq2, hfq2, hnc, _⟩
        · cases hnone
        · have hqq : q2 = q0 := by
            cases hq2
            rfl
          rw [hqq] at hnc
          exact hnc
      have hq0b : ¬ q0 = b.id := by
        intro he
        exact hq0i (Or.inl (by rw [he, hbid]))
      have hq0p0 : q0 ≠ p0 := fun he => hnp (by rw [he])
      have hp0q0 : ¬ p0 = q0 := fun he => hq0p0 he.symm
      refine ⟨?_, ?_⟩
      · rw [hblk, setParent_find, if_neg hp0b, attachBlocks_find_some,
          if_neg hp0q0, detachBlocks_some hbp, removeChild_find,
          if_pos rfl, hpb, Option.map_some', hbid]
      · intro q qb hq hfq
        have hqq0 : q = q0 := by
          cases hq
          rfl
        rw [hqq0] at hfq ⊢
        constructor
        · rw [hblk, setParent_find, if_neg hq0b, attachBlocks_find_some,
            if_pos rfl, detachBlocks_some hbp, removeChild_find,
            if_neg hq0p0, hfq, Option.map_some', hbid]
          rfl
        · apply removeNat_insertPos
          intro hmem
          have hcu := child_unique hwf hb (findBlock_mem hfq) hmem
          rw [hbp] at hcu
          have hpq : p0 = qb.id := by
            cases hcu
            rfl
          exact hq0p0 ((hpq.trans (findBlock_id_eq hfq)).symm)

theorem c6_position_and_order_witness :
    (create demoRegistry demoStore2 "page" [("title", "x")] (some 0) (some 0)
        [] 7
      = .ok (applyOp demoRegistry demoStore2
          (.create "page" [("title", "x")] (some 0) (some 0) [] 7),
          newBlock "page" [("title", "x")] (some 0) [] 7 2)) ∧
    findBlock (applyOp demoRegistry demoStore2
        (.create "page" [("title", "x")] (some 0) (some 0) [] 7)).blocks 0
      = some { demoBlock 0 "page" [("title", "root")] [1] none with
          children := insertPos (some 0) 2 [1], updatedAt := 7 } ∧
    (move demoRegistry demoStore2 1 none none 9
      = .ok (applyOp demoRegistry demoStore2 (.move 1 none none 9))) ∧
    findBlock (applyOp demoRegistry demoStore2 (.move 1 none none 9)).blocks 0
      = some { demoBlock 0 "page" [("title", "root")] [1] none with
          children := removeNat 1 [1], updatedAt := 9 } := by
  have hcr : create demoRegistry demoStore2 "page" [("title", "x")] (some 0)
      (some 0) [] 7
      = .ok (applyOp demoRegistry demoStore2
          (.create "page" [("title", "x")] (some 0) (some 0) [] 7),
          newBlock "page" [("title", "x")] (some 0) [] 7 2) := rfl
  have hmv : move demoRegistry demoStore2 1 none none 9
      = .ok (applyOp demoRegistry demoStore2 (.move 1 none none 9)) := rfl
  refine ⟨hcr, ?_, hmv, ?_⟩
  · exact (c6_position_and_order demoRegistry).1 demoStore2 "page"
      [("title", "x")] 0 (some 0) [] 7 _ _
      (demoBlock 0 "page" [("title", "root")] [1] none) hcr rfl
  · exact ((c6_position_and_order demoRegistry).2.2.2.2 demoStore2 1 none
      none 9 _ (demoBlock 1 "page" [("title", "child")] [] (some 0))
      (demoBlock 0 "page" [("title", "root")] [1] none) 0 wf_demoStore2 hmv
      rfl rfl rfl (by intro h; cases h)).1

/-! ## Claim C8: duplicate fields and independence -/

/-- Update leaves every other block's lookup unchanged. -/
theorem update_frame {reg : Registry} {s : BlockStore} {i : Nat}
    {d : Option BlockData} {md : Option Metadata} {now : Nat}
    {s3 : BlockStore} {r2 : Block}
    (h : update reg s i d md now = .ok (s3, r2)) :
    ∀ j, j ≠ i → findBlock s3.blocks j = findBlock s.blocks j := by
  rcases update_ok_inv h with ⟨b, hb, _, _, hbs, _, _⟩
  intro j hj
  rw [hbs]
  have hid : (updatedBlock b d md now).id = i := by
    show b.id = i
    exact findBlock_id_eq hb
  rw [findBlock_map_const hb hid j, if_neg hj]

/-- Move leaves the lookup of any block other than the moved block, its
old parent and the new parent unchanged. -/
theorem move_frame {reg : Registry} {s : BlockStore} {m : Nat}
    {np pos : Option Nat} {now : Nat} {s3 : BlockStore}
    (h : move reg s m np pos now = .ok s3) :
    ∀ j bj, findBlock s.blocks j = some bj → j ≠ m →
      (∀ b2, findBlock s.blocks m = some b2 → b2.parentId ≠ some j) →
      np ≠ some j → findBlock s3.blocks j = some bj := by
  rcases move_ok_inv h with ⟨b, hfb, hs3, _⟩
  subst hs3
  intro j bj hj hjm hjp hjq
  have hbid : b.id = m := findBlock_id_eq hfb
  have hjb : ¬ j = b.id := fun he => hjm (by rw [he, hbid])
  have hblk : (moveApply s b np pos now).blocks =
      setParent (attachBlocks (detachBlocks s.blocks b now) b.id np pos now)
        b.id np now := rfl
  rw [hblk, setParent_find, if_neg hjb]
  have hdetach : findBlock (detachBlocks s.blocks b now) j = some bj := by
    cases hbp : b.parentId with
    | none =>
      rw [detachBlocks_none hbp]
      exact hj
    | some p =>
      have hjp2 : ¬ j = p := by
        intro he
        apply hjp b hfb
        rw [hbp, he]
      rw [detachBlocks_some hbp, removeChild_find, if_neg hjp2]
      exact hj
  cases np with
  | none =>
    rw [attachBlocks_none]
    exact hdetach
  | some q =>
    have hjq2 : ¬ j = q := fun he => hjq (by rw [he])
    rw [attachBlocks_find_some, if_neg hjq2]
    exact hdetach

/-- The duplicate block returned by `duplicate`: fresh id `s.nextId`,
copied data/type/metadata source fields, fresh timestamps, version 1 and
the original's `parentId`. -/
theorem duplicate_nb_fields {s : BlockStore} {i : Nat} {dup : Bool}
    {now : Nat} {s2 : BlockStore} {nb : Block}
    (h : duplicate s i dup now = .ok (s2, nb)) :
    ∃ b, findBlock s.blocks i = some b ∧ nb.id = s.nextId ∧
      nb.data = b.data ∧ nb.parentId = b.parentId ∧ nb.btype = b.btype ∧
      nb.createdAt = now ∧ nb.updatedAt = now ∧ nb.version = 1 := by
  rcases duplicate_ok_inv h with ⟨b, nb2, rest0, hA, hcl, hout⟩
  have hnb : nb = nb2 := congrArg Prod.snd hout
  refine ⟨b, hA, ?_⟩
  rw [hnb]
  cases dup with
  | false =>
    have hcl2 : (dupClones s b false now).1
        = [shallowClone b s.nextId now] := by
      simp only [dupClones, Bool.false_eq_true, if_false]
    rw [hcl2] at hcl
    have hnb2 : nb2 = shallowClone b s.nextId now := by
      cases hcl
      rfl
    rw [hnb2]
    exact ⟨rfl, rfl, rfl, rfl, rfl, rfl, rfl⟩
  | true =>
    have hbb : findBlock s.blocks b.id = some b := by
      rw [findBlock_id_eq hA]
      exact hA
    have hcl2 : (dupClones s b true now).1
        = (cloneMany s.blocks now (s.blocks.length + 1) b.parentId
            s.nextId [b.id]).1 := by
      simp only [dupClones, if_pos]
    rw [cloneMany_cons_some hbb] at hcl2
    dsimp only at hcl2
    rw [hcl2] at hcl
    have hnb2 : nb2 = { id := s.nextId, btype := b.btype, data := b.data,
                        children := (cloneMany s.blocks now s.blocks.length
                          (some s.nextId) (s.nextId + 1) b.children).2.1,
                        parentId := b.parentId, createdAt := now,
                        updatedAt := now, version := 1,
                        metadata := b.metadata } := by
      cases hcl
      rfl
    rw [hnb2]
    exact ⟨rfl, rfl, rfl, rfl, rfl, rfl, rfl⟩

/-- In the duplicated store the duplicate is found under its fresh id,
and every block that was not the original's parent is found unchanged. -/
theorem duplicate_find {reg : Registry} {s : BlockStore} {i : Nat}
    {dup : Bool} {now : Nat} {s2 : BlockStore} {nb : Block} (hwf : Wf reg s)
    (h : duplicate s i dup now = .ok (s2, nb)) :
    findBlock s2.blocks nb.id = some nb ∧
    (∀ j bj, findBlock s.blocks j = some bj →
      (∀ b2, findBlock s.blocks i = some b2 → b2.parentId ≠ some j) →
      findBlock s2.blocks j = some bj) := by
  rcases duplicate_ok_inv h with ⟨b, nb2, rest0, hA, hcl, hout⟩
  have hs2e : s2 = attachClones s b (nb2 :: rest0)
      (dupClones s b dup now).2 now := congrArg Prod.fst hout
  have hnbe : nb = nb2 := congrArg Prod.snd hout
  subst hs2e
  rw [← hnbe] at hcl
  have hspec := dupClones_spec hwf hA dup now
  rw [hcl] at hspec
  unfold CloneSpec at hspec
  dsimp only at hspec
  obtain ⟨hA0, hB0, hC0, hD0, hE0, hF0, hG0⟩ := hspec
  have hnbm : nb ∈ nb :: rest0 := List.mem_cons_self _ _
  have hOldNone : ∀ c, s.nextId ≤ c → findBlock s.blocks c = none := by
    intro c hc
    apply findBlock_eq_none_of_not_mem
    intro hmem
    rcases List.mem_map.mp hmem with ⟨z, hz, hze⟩
    have hlt := hwf.idsBound z hz
    rw [hze] at hlt
    exact absurd hlt (Nat.not_lt.mpr hc)
  rw [← hnbe]
  cases hbp : b.parentId with
  | none =>
    have hblocks : (attachClones s b (nb :: rest0)
        (dupClones s b dup now).2 now).blocks
        = s.blocks ++ (nb :: rest0) := by
      simp only [attachClones, hbp]
    constructor
    · rw [hblocks, findBlock_append, hOldNone nb.id (hB0 nb hnbm).1]
      exact findBlock_mem_nodup hC0 hnbm
    · intro j bj hj hcond
      rw [hblocks, findBlock_append, hj]
  | some p =>
    have hblocks : (attachClones s b (nb :: rest0)
        (dupClones s b dup now).2 now).blocks
        = (s.blocks.map (fun x =>
            if x.id = p then
              { x with children := x.children ++ [s.nextId], updatedAt := now }
            else x)) ++ (nb :: rest0) := by
      simp only [attachClones, hbp]
    have hmi : ∀ c, findBlock (s.blocks.map (fun x =>
        if x.id = p then
          { x with children := x.children ++ [s.nextId], updatedAt := now }
        else x)) c =
        if c = p then (findBlock s.blocks c).map (fun x =>
          { x with children := x.children ++ [s.nextId], updatedAt := now })
        else findBlock s.blocks c :=
      fun c => @findBlock_map_ite p (fun x =>
        { x with children := x.children ++ [s.nextId], updatedAt := now })
        (fun _ => rfl) s.blocks c
    constructor
    · have hge := (hB0 nb hnbm).1
      have hnbp : ¬ nb.id = p := by
        intro he
        rcases hwf.parentFwd b (findBlock_mem hA) p hbp with ⟨pb, hpb, _⟩
        have hplt : p < s.nextId := by
          rw [← findBlock_id_eq hpb]
          exact hwf.idsBound pb (findBlock_mem hpb)
        rw [he] at hge
        exact absurd hplt (Nat.not_lt.mpr hge)
      rw [hblocks, findBlock_append, hmi nb.id, if_neg hnbp,
        hOldNone nb.id hge]
      exact findBlock_mem_nodup hC0 hnbm
    · intro j bj hj hcond
      have hjp : ¬ j = p := by
        intro he
        apply hcond b hA
        rw [hbp, he]
      rw [hblocks, findBlock_append, hmi j, if_neg hjp, hj]

/-- Counterexample to the unrestricted independence in C8: after a
shallow duplicate of the single root block, moving the duplicate under
the original rewires the original's children array (and refreshes its
`updatedAt`), so the original is not left unchanged. -/
theorem c8_counterexample :
    ∃ s1 nb s2,
      duplicate demoStore1 0 false 3 = .ok (s1, nb) ∧
      findBlock s1.blocks 0
        = some (demoBlock 0 "page" [("title", "r")] [] none) ∧
      move demoRegistry s1 nb.id (some 0) none 4 = .ok s2 ∧
      findBlock s2.blocks 0
        ≠ some (demoBlock 0 "page" [("title", "r")] [] none) := by
  refine ⟨applyOp demoRegistry demoStore1 (.duplicate 0 false 3),
    shallowClone (demoBlock 0 "page" [("title", "r")] [] none) 1 3,
    applyOp demoRegistry
      (applyOp demoRegistry demoStore1 (.duplicate 0 false 3))
      (.move 1 (some 0) none 4), rfl, rfl, rfl, ?_⟩
  decide

/-- The demo one-block store is well-formed. -/
theorem wf_demoStore1 : Wf demoRegistry demoStore1 :=
  validStoreB_sound (by decide) (by decide)

/-- C8 (amended): on a well-formed store, Duplicate produces a block
with a fresh id (`s.nextId`, not previously in the store), deep-copied
data, fresh timestamps, version 1 and the original's `parentId`; both
blocks coexist unchanged in the result, updating either block's
data/metadata leaves the other block's record untouched, and moving
either block leaves the other untouched provided the move's target
parent is not that other block.  The unrestricted claim — any move of
the duplicate leaves the original entirely unchanged — is refuted by
`c8_counterexample`: moving the duplicate under the original rewrites
the original's children. -/
theorem c8_duplicate_independence {reg : Registry} {s : BlockStore}
    {i : Nat} {dup : Bool} {now : Nat} {s2 : BlockStore} {nb : Block}
    {b : Block} (hwf : Wf reg s) (hb : findBlock s.blocks i = some b)
    (h : duplicate s i dup now = .ok (s2, nb)) :
    (nb.id = s.nextId ∧ findBlock s.blocks nb.id = none ∧
     nb.data = b.data ∧ nb.parentId = b.parentId ∧ nb.createdAt = now ∧
     nb.updatedAt = now ∧ nb.version = 1) ∧
    findBlock s2.blocks i = some b ∧ findBlock s2.blocks nb.id = some nb ∧
    (∀ d md now2 s3 r2, update reg s2 nb.id d md now2 = .ok (s3, r2) →
       findBlock s3.blocks i = some b) ∧
    (∀ np pos now2 s3, move reg s2 nb.id np pos now2 = .ok s3 →
       np ≠ some i → findBlock s3.blocks i = some b) ∧
    (∀ d md now2 s3 r2, update reg s2 i d md now2 = .ok (s3, r2) →
       findBlock s3.blocks nb.id = some nb) ∧
    (∀ np pos now2 s3, move reg s2 i np pos now2 = .ok s3 →
       np ≠ some nb.id → findBlock s3.blocks nb.id = some nb) := by
  rcases duplicate_nb_fields h with
    ⟨b2, hA2, hid, hdata, hpar, hbt, hcr, hup, hver⟩
  have hbe : b2 = b := by
    rw [hb] at hA2
    cases hA2
    rfl
  rw [hbe] at hdata hpar hbt
  have hbid : b.id = i := findBlock_id_eq hb
  have hilt : i < s.nextId := by
    rw [← hbid]
    exact hwf.idsBound b (findBlock_mem hb)
  have hfresh : findBlock s.blocks nb.id = none := by
    rw [hid]
    apply findBlock_eq_none_of_not_mem
    intro hmem
    rcases List.mem_map.mp hmem with ⟨z, hz, hze⟩
    have hlt := hwf.idsBound z hz
    rw [hze] at hlt
    exact lt_irrefl _ hlt
  rcases duplicate_find hwf h with ⟨hfindnb, hfold⟩
  have hnsp : ∀ bx, findBlock s.blocks i = some bx →
      bx.parentId ≠ some i := by
    intro bx hbx
    have hbxe : bx = b := by
      rw [hb] at hbx
      cases hbx
      rfl
    rw [hbxe]
    exact no_self_parent hwf hb
  have hfi : findBlock s2.blocks i = some b := hfold i b hb hnsp
  have hine : i ≠ nb.id := by
    rw [hid]
    exact Nat.ne_of_lt hilt
  refine ⟨⟨hid, hfresh, hdata, hpar, hcr, hup, hver⟩, hfi, hfindnb,
    ?_, ?_, ?_, ?_⟩
  · intro d md now2 s3 r2 hu
    rw [update_frame hu i hine]
    exact hfi
  · intro np pos now2 s3 hm hnpne
    apply move_frame hm i b hfi hine ?_ hnpne
    intro bx hbx
    have hbxe : bx = nb := by
      rw [hfindnb] at hbx
      cases hbx
      rfl
    rw [hbxe, hpar]
    exact no_self_parent hwf hb
  · intro d md now2 s3 r2 hu
    rw [update_frame hu nb.id (fun he => hine he.symm)]
    exact hfindnb
  · intro np pos now2 s3 hm hnpne
    apply move_frame hm nb.id nb hfindnb (fun he => hine he.symm) ?_ hnpne
    intro bx hbx
    have hbxe : bx = b := by
      rw [hfi] at hbx
      cases hbx
      rfl
    rw [hbxe]
    intro hpe
    rcases hwf.parentFwd b (findBlock_mem hb) nb.id hpe with ⟨pb, hpb, _⟩
    have hlt : nb.id < s.nextId := by
      rw [← findBlock_id_eq hpb]
      exact hwf.idsBound pb (findBlock_mem hpb)
    rw [hid] at hlt
    exact lt_irrefl _ hlt

theorem c8_duplicate_independence_witness :
    (duplicate demoStore1 0 false 3
      = .ok (applyOp demoRegistry demoStore1 (.duplicate 0 false 3),
             shallowClone (demoBlock 0 "page" [("title", "r")] [] none)
               1 3)) ∧
    findBlock (applyOp demoRegistry demoStore1
        (.duplicate 0 false 3)).blocks 0
      = some (demoBlock 0 "page" [("title", "r")] [] none) ∧
    findBlock (applyOp demoRegistry demoStore1
        (.duplicate 0 false 3)).blocks 1
      = some (shallowClone (demoBlock 0 "page" [("title", "r")] [] none)
          1 3) := by
  have hdup : duplicate demoStore1 0 false 3
      = .ok (applyOp demoRegistry demoStore1 (.duplicate 0 false 3),
             shallowClone (demoBlock 0 "page" [("title", "r")] [] none)
               1 3) := rfl
  have hfb : findBlock demoStore1.blocks 0
      = some (demoBlock 0 "page" [("title", "r")] [] none) := rfl
  have happ := c8_duplicate_independence wf_demoStore1 hfb hdup
  exact ⟨hdup, happ.2.1, happ.2.2.1⟩

end KanbanSpec
